import Mathlib

/-!
Shallow embedding of `dyna_gym/agents/iquct/approx_iquct.py` (class `ApproxIQUCT`
and its helper node classes), together with theorems checking the specification's
claims about it.

Modelling conventions:
* Python objects (`DecisionNode`, `ChanceNode`) live in arenas (`dnodes`, `cnodes`)
  indexed by `Nat`; attribute mutation becomes functional update of the arena entry.
* All randomness (the environment's stochastic `transition`, `action_space.sample()`
  and `random.shuffle`) is modelled by a global draw counter `tick` threaded through
  the state: each random primitive receives the current counter value.
* Rewards and values are `ℚ`.  The floating point functions `math.sqrt` / `math.log`
  and the external regression model `model.prediction_at` are abstracted as function
  parameters of the agent (`sqrtFn`, `logFn`, `predict`); their numeric values are
  irrelevant to every claim below, but their domain errors are modelled exactly
  (`Err.scoreDomain` is thrown precisely when Python's `ucb` would raise a
  `ZeroDivisionError` or a `math.log` domain `ValueError`).
* Fallible Python code (exceptions: `AttributeError` on `None`, `ZeroDivisionError`,
  `ValueError` from `max([])`, `IndexError`) returns `Except Err`.
* Loops whose termination is not structural get explicit fuel; exhaustion throws
  `Err.fuel`.  All call sites use fuel large enough for every terminating run.
* `ChanceNode.__init__` stores `self.history = h.data`, i.e. a live alias of the
  `History` entry's list, not a copy.  This aliasing is modelled by
  `history : Option Nat`: `none` is the fresh empty list `[]`, `some j` aliases
  entry `j` of the histories store.  `histContents` dereferences it against the
  current store.
-/

namespace IQUCT

/-- Python errors surfaced by the embedded code. -/
inductive Err where
  /-- loop fuel exhausted (no Python counterpart; call sites use sufficient fuel) -/
  | fuel
  /-- `AttributeError` from dereferencing `None` (e.g. `None.parent.state`) -/
  | noneParent
  /-- `AttributeError` from accessing a missing attribute on a node object -/
  | attrErr
  /-- `ZeroDivisionError` in `snapshot_value` -/
  | zeroDiv
  /-- domain error inside `ucb`: `ZeroDivisionError` (empty `sampled_returns`) or
      `math.log` `ValueError` (`parent.visits == 0`) -/
  | scoreDomain
  /-- `ValueError` from `max([])` -/
  | valueError
  /-- `IndexError` from `node.children[0]` on an empty list -/
  | indexErr
  /-- unreachable internal state -/
  | bug
deriving DecidableEq

/-- `HistoryTuple(depth, value)`. -/
structure HistoryTuple where
  depth : Nat
  value : ℚ
deriving DecidableEq

/-- `History`: a `(state, action)`-keyed log of `HistoryTuple`s. -/
structure History (σ α : Type) where
  state : σ
  action : α
  data : List HistoryTuple
deriving DecidableEq

/-- `History.corresponds_to(state, action, env)`:
`(self.action == action) and env.equality_operator(self.state, state)`. -/
def History.corresponds_to [DecidableEq α] (h : History σ α) (state : σ) (action : α)
    (eqOp : σ → σ → Bool) : Bool :=
  decide (h.action = action) && eqOp h.state state

/-- The environment boundary: `state`, enumerated `action_space`
(`combinations(env.action_space)` as a list), `transition`, `equality_operator`,
`action_space.sample()` and the state's feature encoding (a Python state is a
numpy vector; `encode` is that vector).  The extra `Nat` arguments are the global
draw counter feeding the stochastic primitives. -/
structure Env (σ α : Type) where
  state : σ
  actions : List α
  transition : σ → α → Nat → σ × ℚ × Bool
  equality_operator : σ → σ → Bool
  sample : Nat → α
  encode : σ → List ℚ

/-- `ApproxIQUCT.__init__` configuration.  `predict` is `model.prediction_at`;
`sqrtFn` / `logFn` abstract `math.sqrt` / `math.log`; `shuffle` abstracts
`random.shuffle` acting on a list of chance-node ids. -/
structure Agent (σ α : Type) where
  gamma : ℚ
  rollouts : Nat
  max_depth : Nat
  ucb_constant : ℚ
  predict : α → List ℚ → ℚ
  sqrtFn : ℚ → ℚ
  logFn : ℚ → ℚ
  shuffle : Nat → List Nat → List Nat

/-- `DecisionNode`: state-labelled node.  `parent` is the id of the owning chance
node (`none` for the root), `children` are chance-node ids. -/
structure DecisionNode (σ : Type) where
  parent : Option Nat
  state : σ
  is_terminal : Bool
  depth : Nat
  children : List Nat
  explored_children : Nat
  visits : Nat
deriving DecidableEq

/-- `ChanceNode`: action-labelled node.  `parent` is the id of the owning decision
node, `children` are decision-node ids.  `history : Option Nat` models the Python
attribute `self.history`: `none` is the fresh `[]`, `some j` is the alias `h.data`
of histories-store entry `j` (see `histContents`). -/
structure ChanceNode (α : Type) where
  parent : Nat
  action : α
  depth : Nat
  children : List Nat
  sampled_returns : List ℚ
  history : Option Nat
deriving DecidableEq

/-- A reference to a node of either kind. -/
inductive NRef where
  | dn (i : Nat)
  | cn (i : Nat)
deriving DecidableEq

/-- Ghost instrumentation events (no Python counterpart; they record what the code
did so claims about "which node was transitioned at / backed up through" are
statable). -/
inductive Event where
  /-- selection requested `env.transition(node.parent.state, node.action, ...)`
      at chance node `cid` -/
  | transAt (cid : Nat)
  /-- one backpropagation iteration at chance node `cid` with parent decision node
      `pdid`, appending `est` to `sampled_returns`; `folded = some r` iff a reward
      `r` was popped and folded at this iteration -/
  | bp (cid : Nat) (pdid : Nat) (est : ℚ) (folded : Option ℚ)
deriving DecidableEq

/-- The mutable search state: node arenas, the persistent histories store
(`self.histories`), the draw counter, the ghost event log, and the list of
batches passed to `model.update`. -/
structure SState (σ α : Type) where
  dnodes : List (DecisionNode σ)
  cnodes : List (ChanceNode α)
  histories : List (History σ α)
  tick : Nat
  evLog : List Event
  updates : List (List (α × List ℚ × ℚ))
deriving DecidableEq

variable {σ α : Type}

/-- Arena read of a decision node (well-formed runs never read out of range). -/
def SState.dnode [Inhabited σ] (st : SState σ α) (i : Nat) : DecisionNode σ :=
  match st.dnodes.get? i with
  | some d => d
  | none => ⟨none, default, false, 0, [], 0, 0⟩

/-- Arena read of a chance node. -/
def SState.cnode [Inhabited α] (st : SState σ α) (i : Nat) : ChanceNode α :=
  match st.cnodes.get? i with
  | some c => c
  | none => ⟨0, default, 0, [], [], none⟩

/-- Arena write of a decision node. -/
def SState.setDnode (st : SState σ α) (i : Nat) (d : DecisionNode σ) : SState σ α :=
  { st with dnodes := st.dnodes.set i d }

/-- Arena write of a chance node. -/
def SState.setCnode (st : SState σ α) (i : Nat) (c : ChanceNode α) : SState σ α :=
  { st with cnodes := st.cnodes.set i c }

/-- `snapshot_value(node)`: `sum(node.sampled_returns) / len(node.sampled_returns)`;
raises `ZeroDivisionError` on an empty list. -/
def snapshot_value (returns : List ℚ) : Except Err ℚ :=
  if returns.length = 0 then throw .zeroDiv
  else pure (returns.sum / (returns.length : ℚ))

/-- The `for h in histories: if h.corresponds_to(...): self.history = h.data` loop
of `ChanceNode.__init__`: no `break`, so the LAST matching entry wins. -/
def findHistLast [DecidableEq α] (histories : List (History σ α)) (eqOp : σ → σ → Bool)
    (s : σ) (a : α) : Option Nat :=
  histories.enum.foldl
    (fun acc p => if p.2.corresponds_to s a eqOp then some p.1 else acc) none

/-- `ChanceNode.__init__(parent, action, env, histories)`.  `pdepth`/`pstate` are the
parent decision node's depth and state (`self.depth = parent.depth`). -/
def mkChance [DecidableEq α] (parent : Nat) (a : α) (pdepth : Nat) (pstate : σ)
    (eqOp : σ → σ → Bool) (histories : List (History σ α)) : ChanceNode α :=
  { parent := parent, action := a, depth := pdepth, children := [],
    sampled_returns := [], history := findHistLast histories eqOp pstate a }

/-- Dereference a chance node's `history` attribute against the current store
(`none` is the fresh `[]` list; `some j` is the live alias of entry `j`'s data). -/
def histContents (st : SState σ α) (c : ChanceNode α) : List HistoryTuple :=
  match c.history with
  | none => []
  | some j =>
    match st.histories.get? j with
    | some h => h.data
    | none => []

/-- `ApproxIQUCT.inferred_value(node)`. -/
def inferred_value [Inhabited σ] [Inhabited α] (ag : Agent σ α) (env : Env σ α)
    (st : SState σ α) (cid : Nat) : Except Err ℚ :=
  let c := st.cnode cid
  if (histContents st c).isEmpty then snapshot_value c.sampled_returns
  else do
    let sv ← snapshot_value c.sampled_returns
    pure (ag.predict c.action
      (env.encode (st.dnode c.parent).state ++ [(c.depth : ℚ), sv]))

/-- `ApproxIQUCT.ucb(node)`:
`inferred_value(node) + ucb_constant * sqrt(log(node.parent.visits)/len(node.sampled_returns))`.
Python raises exactly when `sampled_returns` is empty (`ZeroDivisionError`, either in
`snapshot_value` or in the division by `len`) or `parent.visits = 0` (`math.log`
domain `ValueError`); both raising conditions are mapped to `Err.scoreDomain`. -/
def ucb [Inhabited σ] [Inhabited α] (ag : Agent σ α) (env : Env σ α)
    (st : SState σ α) (cid : Nat) : Except Err ℚ :=
  let c := st.cnode cid
  let d := st.dnode c.parent
  if c.sampled_returns.length = 0 ∨ d.visits = 0 then throw .scoreDomain
  else do
    let iv ← inferred_value ag env st cid
    pure (iv + ag.ucb_constant *
      ag.sqrtFn (ag.logFn (d.visits : ℚ) / (c.sampled_returns.length : ℚ)))

/-- One comparison step of Python `max(iterable, key=f)`: score the next element
and keep it only when its key strictly exceeds the current best's. -/
def maxStep (f : Nat → Except Err ℚ) (best : Nat × ℚ) (y : Nat) :
    Except Err (Nat × ℚ) := do
  let w ← f y
  if best.2 < w then pure (y, w) else pure best

/-- Python `max(iterable, key=f)`: raises `ValueError` on an empty iterable,
calls `f` on every element, keeps the first element attaining the maximum. -/
def maxByE (f : Nat → Except Err ℚ) : List Nat → Except Err Nat
  | [] => throw .valueError
  | x :: xs => do
    let v ← f x
    let r ← xs.foldlM (maxStep f) (x, v)
    pure r.1

/-- Result of the selection phase (the `while select and len(root.children) != 0`
loop of `ApproxIQUCT.act`): final state, current `node` (possibly `None`), the
`rewards` list, the last sampled `state_p` (if any transition happened), the
current `terminal` flag and the `expand_chance_node` flag. -/
structure SelRes (σ α : Type) where
  st : SState σ α
  node : Option NRef
  rewards : List ℚ
  state_p : Option σ
  terminal : Bool
  expand_chance_node : Bool
deriving DecidableEq

/-- The selection loop of `ApproxIQUCT.act` (lines 174-204).  Faithful points:
the decision branch descends into the next unexplored child (incrementing
`explored_children` and ending selection) before ever scoring, otherwise picks the
`ucb`-maximal child; the chance branch transitions, records the reward, and then
— exactly as the source's `for`/`if`/`else`/`break` does — tests the sampled state
against the FIRST child only: a match descends, a mismatch marks for expansion. -/
def selectLoop [Inhabited σ] [Inhabited α] [DecidableEq α] (ag : Agent σ α) (env : Env σ α) :
    Nat → SState σ α → NRef → List ℚ → Option σ → Bool → Except Err (SelRes σ α)
  | 0, _, _, _, _, _ => throw .fuel
  | fuel + 1, st, node, rewards, sp, terminal =>
    if (st.dnode 0).children.isEmpty then
      pure ⟨st, some node, rewards, sp, terminal, false⟩
    else
      match node with
      | .dn i =>
        let d := st.dnode i
        if d.is_terminal then
          pure ⟨st, d.parent.map NRef.cn, rewards, sp, terminal, false⟩
        else if d.explored_children < d.children.length then
          let cid := d.children.getD d.explored_children 0
          pure ⟨st.setDnode i { d with explored_children := d.explored_children + 1 },
                some (.cn cid), rewards, sp, terminal, false⟩
        else do
          let best ← maxByE (ucb ag env st) d.children
          selectLoop ag env fuel st (.cn best) rewards sp terminal
      | .cn i =>
        let c := st.cnode i
        let p := st.dnode c.parent
        let tr := env.transition p.state c.action st.tick
        let st' : SState σ α :=
          { st with tick := st.tick + 1, evLog := st.evLog ++ [.transAt i] }
        let rewards' := rewards ++ [tr.2.1]
        if c.children.isEmpty then
          pure ⟨st', some (.cn i), rewards', some tr.1, tr.2.2, true⟩
        else
          let d0 := c.children.getD 0 0
          if env.equality_operator (st'.dnode d0).state tr.1 then
            selectLoop ag env fuel st' (.dn d0) rewards' (some tr.1) tr.2.2
          else
            pure ⟨st', some (.cn i), rewards', some tr.1, tr.2.2, true⟩

/-- The expansion phase of `ApproxIQUCT.act` (lines 206-218): first the
`expand_chance_node` case appends a fresh decision node for the sampled state,
then the decision-node case either steps back to the parent (terminal) or creates
one chance node per action, shuffles them, and descends into the first. -/
def expandPhase [Inhabited σ] [Inhabited α] [DecidableEq α] (ag : Agent σ α) (env : Env σ α)
    (st₀ : SState σ α) (node₀ : Option NRef) (sp : Option σ) (terminal : Bool)
    (flag : Bool) : Except Err (SState σ α × Option NRef) := do
  let r ←
    match flag, node₀ with
    | true, some (.cn i) =>
      match sp with
      | none => throw Err.bug
      | some s' =>
        let c := st₀.cnode i
        let did := st₀.dnodes.length
        let d : DecisionNode σ := ⟨some i, s', terminal, c.depth + 1, [], 0, 0⟩
        pure (⟨{ st₀ with
                  dnodes := st₀.dnodes ++ [d],
                  cnodes := st₀.cnodes.set i { c with children := c.children ++ [did] } },
               some (NRef.dn did)⟩ : SState σ α × Option NRef)
    | _, _ => pure (st₀, node₀)
  let st := r.1
  match r.2 with
  | some (.dn i) =>
    let d := st.dnode i
    if terminal then
      pure (st, d.parent.map NRef.cn)
    else
      let base := st.cnodes.length
      let newCs := env.actions.map
        (fun a => mkChance i a d.depth d.state env.equality_operator st.histories)
      let ids := (List.range env.actions.length).map (· + base)
      let shuffled := ag.shuffle st.tick ids
      match shuffled with
      | [] => throw .indexErr
      | c0 :: _ =>
        pure ({ st with
                 cnodes := st.cnodes ++ newCs,
                 dnodes := st.dnodes.set i
                   { d with children := shuffled,
                            explored_children := d.explored_children + 1 },
                 tick := st.tick + 1 },
              some (.cn c0))
  | _ => pure (st, r.2)

/-- `gamma ** t` (explicit recursion so that concrete runs reduce). -/
def qpow (q : ℚ) : Nat → ℚ
  | 0 => 1
  | n + 1 => qpow q n * q

/-- The evaluation phase of `ApproxIQUCT.act` (lines 220-230): the default rollout
policy from a start state, accumulating `estimate += reward * gamma^t`, stopping
on `terminal` or when `ndepth + t > max_depth`.  Returns `(estimate, terminal,
tick)`.  Called with `fuel = max_depth + 2`, which the depth cutoff makes
sufficient: the loop runs at most `max_depth + 1` iterations. -/
def evalLoop (env : Env σ α) (gamma : ℚ) (maxd ndepth : Nat) :
    Nat → Nat → σ → ℚ → Bool → Nat → ℚ × Bool × Nat
  | _, _, _, est, true, tick => (est, true, tick)
  | 0, _, _, est, false, tick => (est, false, tick)
  | fuel + 1, t, s, est, false, tick =>
    let a := env.sample tick
    let tr := env.transition s a (tick + 1)
    let est' := est + tr.2.1 * qpow gamma t
    if ndepth + (t + 1) > maxd then (est', tr.2.2, tick + 2)
    else if tr.2.2 then (est', true, tick + 2)
    else evalLoop env gamma maxd ndepth fuel (t + 1) tr.1 est' false (tick + 2)

/-- The popped reward of one backpropagation iteration (`rewards.pop()` guarded
by `if len(rewards) != 0`): `none` when no rewards remain, else the most recently
recorded one. -/
def bpFolded (rewards : List ℚ) : Option ℚ :=
  if rewards.isEmpty then none else some (rewards.getLastD 0)

/-- The state after the append/log half of one backpropagation iteration at
chance node `i`: the running estimate is appended to `sampled_returns` and the
iteration is logged. -/
def bpMid [Inhabited σ] [Inhabited α] (st : SState σ α) (i : Nat) (rewards : List ℚ)
    (est : ℚ) : SState σ α :=
  { st.setCnode i { st.cnode i with
      sampled_returns := (st.cnode i).sampled_returns ++ [est] } with
    evLog := st.evLog ++ [Event.bp i (st.cnode i).parent est (bpFolded rewards)] }

/-- One backpropagation iteration at chance node `i` (lines 234-237): append the
running estimate to `sampled_returns`, pop the most recently recorded reward (if
any remain) as `estimate = reward + gamma * estimate`, increment the parent
decision node's visit count.  Returns the new state, the next node
(`node.parent.parent`), the remaining rewards and the new estimate. -/
def bpStep (gamma : ℚ) [Inhabited σ] [Inhabited α] (st : SState σ α) (i : Nat)
    (rewards : List ℚ) (est : ℚ) : SState σ α × Option NRef × List ℚ × ℚ :=
  ((bpMid st i rewards est).setDnode (st.cnode i).parent
     { (bpMid st i rewards est).dnode (st.cnode i).parent with
       visits := ((bpMid st i rewards est).dnode (st.cnode i).parent).visits + 1 },
   ((bpMid st i rewards est).dnode (st.cnode i).parent).parent.map NRef.cn,
   rewards.dropLast,
   match bpFolded rewards with | none => est | some r => r + gamma * est)

/-- The backpropagation phase of `ApproxIQUCT.act` (lines 232-238): iterate
`bpStep` up the tree until the walk steps past the root (`node = None`). -/
def backpropLoop (gamma : ℚ) [Inhabited σ] [Inhabited α] :
    Nat → SState σ α → Option NRef → List ℚ → ℚ → Except Err (SState σ α)
  | 0, _, _, _, _ => throw .fuel
  | fuel + 1, st, node, rewards, est =>
    match node with
    | none => pure st
    | some (.dn _) => throw .attrErr
    | some (.cn i) =>
      let r := bpStep gamma st i rewards est
      backpropLoop gamma fuel r.1 r.2.1 r.2.2.1 r.2.2.2

/-- One rollout of `ApproxIQUCT.act`: selection, expansion, evaluation,
backpropagation.  Evaluation of `node.parent.state` with `node = None` (the
terminal-root path) raises `AttributeError` (`Err.noneParent`). -/
def rolloutStep [Inhabited σ] [Inhabited α] [DecidableEq α] (ag : Agent σ α)
    (env : Env σ α) (done : Bool) (st : SState σ α) : Except Err (SState σ α) := do
  let r ← selectLoop ag env (st.dnodes.length + st.cnodes.length + 2) st (.dn 0) [] none done
  let e ← expandPhase ag env r.st r.node r.state_p r.terminal r.expand_chance_node
  match e.2 with
  | none => throw .noneParent
  | some (.dn _) => throw .attrErr
  | some (.cn i) =>
    let st₁ := e.1
    let c := st₁.cnode i
    let p := st₁.dnode c.parent
    let ev := evalLoop env ag.gamma ag.max_depth c.depth (ag.max_depth + 2)
      0 p.state 0 r.terminal st₁.tick
    let st₂ := { st₁ with tick := ev.2.2 }
    backpropLoop ag.gamma (st₂.cnodes.length + 2) st₂ (some (.cn i)) r.rewards ev.1

/-- `for _ in range(n)` over `rolloutStep`. -/
def runRollouts [Inhabited σ] [Inhabited α] [DecidableEq α] (ag : Agent σ α)
    (env : Env σ α) (done : Bool) : Nat → SState σ α → Except Err (SState σ α)
  | 0, st => pure st
  | n + 1, st => do
    let st' ← rolloutStep ag env done st
    runRollouts ag env done n st'

/-- Append a `HistoryTuple` to entry `j` of the histories store (the
`h.data.append(...)` of `update_histories`). -/
def appendTuple [Inhabited σ] [Inhabited α] (st : SState σ α) (j : Nat)
    (t : HistoryTuple) : SState σ α :=
  match st.histories.get? j with
  | none => st
  | some h => { st with histories := st.histories.set j { h with data := h.data ++ [t] } }

/-- The first `History` entry matching `(state, action)` — `update_histories`
uses `break`, so the FIRST match wins (unlike `ChanceNode.__init__`). -/
def findHistFirst [DecidableEq α] (histories : List (History σ α)) (eqOp : σ → σ → Bool)
    (s : σ) (a : α) : Option Nat :=
  histories.findIdx? (fun h => h.corresponds_to s a eqOp)

/-- The per-child body of `update_histories`'s `for child in node.children` loop:
children without sampled returns are skipped; otherwise a `HistoryTuple` is
appended to the first matching history (or a fresh history is created) and the
recursion (`rec`) descends into each grandchild decision node. -/
def uhStep [Inhabited σ] [Inhabited α] [DecidableEq α] (env : Env σ α)
    (rec : SState σ α → Nat → Except Err (SState σ α))
    (st : SState σ α) (cid : Nat) : Except Err (SState σ α) := do
  let c := st.cnode cid
  if c.sampled_returns.isEmpty then pure st
  else do
    let sv ← snapshot_value c.sampled_returns
    let pstate := (st.dnode c.parent).state
    let st :=
      match findHistFirst st.histories env.equality_operator pstate c.action with
      | some j => appendTuple st j ⟨c.depth, sv⟩
      | none =>
        { st with histories := st.histories ++ [⟨pstate, c.action, [⟨c.depth, sv⟩]⟩] }
    c.children.foldlM (fun st gid => rec st gid) st

/-- `ApproxIQUCT.update_histories(node, env)` (lines 92-111), fueled recursion:
iterate `uhStep` over the decision node's chance children; children without
sampled returns are skipped entirely (no recursion below them). -/
def update_histories [Inhabited σ] [Inhabited α] [DecidableEq α] (env : Env σ α) :
    Nat → SState σ α → Nat → Except Err (SState σ α)
  | 0, _, _ => throw .fuel
  | fuel + 1, st, did =>
    (st.dnode did).children.foldlM (uhStep env (update_histories env fuel)) st

/-- `ApproxIQUCT.extract_data(node)` (lines 135-154).  NOTE: despite its docstring
("Recursive function."), the source iterates only over `node.children` — it never
recurses into grandchildren; the embedding reproduces that. -/
def extract_data [Inhabited σ] [Inhabited α] (env : Env σ α) (st : SState σ α)
    (did : Nat) : Except Err (List (α × List ℚ × ℚ)) :=
  (st.dnode did).children.foldlM
    (fun data cid => do
      let c := st.cnode cid
      (histContents st c).foldlM
        (fun data h => do
          let sv ← snapshot_value c.sampled_returns
          pure (data ++
            [(c.action,
              env.encode (st.dnode c.parent).state ++ [(h.depth : ℚ), h.value],
              sv)]))
        data)
    []

/-- `ApproxIQUCT.update_model(root_node)` (lines 156-162): extract the batch and
call `model.update(data)` iff it is non-empty (recorded in `updates`). -/
def update_model [Inhabited σ] [Inhabited α] (env : Env σ α) (st : SState σ α) :
    Except Err (SState σ α) := do
  let data ← extract_data env st 0
  if data.isEmpty then pure st
  else pure { st with updates := st.updates ++ [data] }

/-- The state `act` starts from: a fresh root decision node labelled with the
environment's current state, carrying the agent's persistent histories. -/
def initState (env : Env σ α) (histories : List (History σ α)) (done : Bool) :
    SState σ α :=
  ⟨[⟨none, env.state, done, 0, [], 0, 0⟩], [], histories, 0, [], []⟩

/-- `ApproxIQUCT.act(env, done)` (lines 164-241): build a fresh tree, run the
rollouts, update histories and model, and return the action of the root child
maximising `inferred_value` (with the final state, for inspection). -/
def act [Inhabited σ] [Inhabited α] [DecidableEq α] (ag : Agent σ α) (env : Env σ α)
    (histories : List (History σ α)) (done : Bool) : Except Err (α × SState σ α) := do
  let st ← runRollouts ag env done ag.rollouts (initState env histories done)
  let st ← update_histories env (st.dnodes.length + 1) st 0
  let st ← update_model env st
  let best ← maxByE (inferred_value ag env st) (st.dnode 0).children
  pure ((st.cnode best).action, st)


/-! ## Simp toolkit for the `Except` monad -/

@[simp] theorem exc_bind_ok {A B : Type} (a : A) (f : A → Except Err B) :
    (Except.ok a >>= f) = f a := rfl

@[simp] theorem exc_bind_err {A B : Type} (e : Err) (f : A → Except Err B) :
    ((Except.error e : Except Err A) >>= f) = Except.error e := rfl

@[simp] theorem exc_pure {A : Type} (a : A) : (pure a : Except Err A) = Except.ok a := rfl

@[simp] theorem exc_throw {A : Type} (e : Err) : (throw e : Except Err A) = Except.error e := rfl

@[simp] theorem exc_map_ok {A B : Type} (f : A → B) (a : A) :
    (f <$> (Except.ok a : Except Err A)) = Except.ok (f a) := rfl

@[simp] theorem exc_map_err {A B : Type} (f : A → B) (e : Err) :
    (f <$> (Except.error e : Except Err A)) = Except.error e := rfl

@[simp] theorem exc_ok_ne_err {A : Type} (a : A) (e : Err) :
    (Except.ok a : Except Err A) ≠ Except.error e := by
  intro h; cases h

@[simp] theorem exc_err_inj {A : Type} (e e' : Err) :
    ((Except.error e : Except Err A) = Except.error e') ↔ e = e' := by
  constructor
  · intro h; cases h; rfl
  · intro h; cases h; rfl

/-! ## Concrete environments used for evaluation runs

`envA`/`agA`: a deterministic single-action environment (`0 → 1 → 2`, state `2`
terminal, reward `1` per step) with one pre-existing history entry for state `1`.
`envB`/`agB`: a single-action environment whose root transition outcome depends on
the draw counter (`11` on draw 3, `12` from draw 4 on), every outcome terminal —
this makes one chance node accumulate several child decision nodes. -/

def envA : Env Nat Nat :=
  { state := 0, actions := [0],
    transition := fun s _ _ =>
      if s = 0 then (1, 1, false) else if s = 1 then (2, 1, true) else (2, 0, true),
    equality_operator := fun a b => a == b,
    sample := fun _ => 0,
    encode := fun s => [(s : ℚ)] }

def agA : Agent Nat Nat :=
  { gamma := 1, rollouts := 3, max_depth := 2, ucb_constant := 1,
    predict := fun _ _ => 0, sqrtFn := id, logFn := fun _ => 0,
    shuffle := fun _ l => l }

/-- One pre-existing history entry: key `(state 1, action 0)`, one tuple. -/
def histA : List (History Nat Nat) := [⟨1, 0, [⟨5, 9⟩]⟩]

/-- `agA` with only 2 rollouts. -/
def agA2 : Agent Nat Nat := { agA with rollouts := 2 }

def envB : Env Nat Nat :=
  { state := 0, actions := [0],
    transition := fun s _ t =>
      if s = 0 then ((if t = 3 then 11 else if 4 ≤ t then 12 else 10), 1, true)
      else (99, 0, true),
    equality_operator := fun a b => a == b,
    sample := fun _ => 0,
    encode := fun s => [(s : ℚ)] }

def agB : Agent Nat Nat := { agA with rollouts := 4 }

/-- Project the final state out of an `act` result (junk fallback on error). -/
def okActState (env : Env σ α) (r : Except Err (α × SState σ α)) : SState σ α :=
  match r with
  | .ok p => p.2
  | .error _ => initState env [] false

/-- Project the state out of a phase result (junk fallback on error). -/
def okState (env : Env σ α) (r : Except Err (SState σ α)) : SState σ α :=
  match r with
  | .ok s => s
  | .error _ => initState env [] false

/-- A hand-built mid-search state for exercising the chance-node child-matching
step in isolation: the root's single chance node `0` has two terminal child
decision nodes with states `11` and `12`, and the next draw (tick `5`) samples
state `12` from the root. -/
def stC1 : SState Nat Nat :=
  { dnodes := [⟨none, 0, false, 0, [0], 1, 3⟩,
               ⟨some 0, 11, true, 1, [], 0, 0⟩,
               ⟨some 0, 12, true, 1, [], 0, 0⟩],
    cnodes := [⟨0, 0, 0, [1, 2], [1, 0, 0], none⟩],
    histories := [], tick := 5, evLog := [], updates := [] }

/-- C1, evaluation at the failing input.  At `stC1` the selection step at chance
node `0` samples next state `12` (draw 5); the existing child decision node `2`
has exactly that state, yet the code sets `expand_chance_node` and stops instead
of descending into it, because the source's matching loop breaks after testing
only `children[0]`.  The claim's behaviour — "reuse the matching child if found,
mark for expansion only when no existing child matches" — is violated. -/
theorem c1_first_child_only_eval :
    (envB.transition (stC1.dnode 0).state 0 5).1 = 12 ∧
    envB.equality_operator (stC1.dnode 2).state 12 = true ∧
    2 ∈ (stC1.cnode 0).children ∧
    (selectLoop agB envB 9 stC1 (.dn 0) [] none false).toOption.map
      (fun r => (r.node, r.state_p, r.expand_chance_node)) =
      some (some (.cn 0), some 12, true) := by
  decide

/-- C4, counterexample to the claim as stated: with a terminal root, `act` does
not return a decision among the root's children — it raises (`node.parent.state`
on `node = None` in the evaluation phase). -/
theorem c4_terminal_root_raises_cx :
    act agA envA [] true = .error .noneParent := by
  rfl

/-- C2, evaluation at the failing input.  In the finished tree of this `act` run,
chance node `1` is a grandchild (root's children `[0]`, chance node `0`'s children
`[1]`, decision node `1`'s children `[1]`), has sampled returns and a history
slice holding two `HistoryTuple`s — yet `updates = []`: `extract_data`, despite
its "Recursive function." docstring, iterates only over the root's direct
children, found no history there, produced an empty batch, and `update_model`
skipped the model update.  The claim requires one training example per tuple of
every chance node of the whole tree (two examples here). -/
theorem c2_extract_data_not_recursive_eval :
    (act agA envA histA false).toOption.map (fun p =>
      ((p.2.dnode 0).children, (p.2.cnode 0).children, (p.2.dnode 1).children,
       (p.2.cnode 1).sampled_returns.isEmpty,
       histContents p.2 (p.2.cnode 1),
       p.2.updates)) =
    some ([0], [1], [1], false, [⟨5, 9⟩, ⟨1, 1/2⟩], []) := by
  with_unfolding_all rfl

/-- The state of the `envA`/`histA` run after its three rollouts, before the
histories update. -/
def c3r : SState Nat Nat :=
  okState envA (runRollouts agA envA false 3 (initState envA histA false))

/-- `c3r` after `update_histories`. -/
def c3h : SState Nat Nat :=
  okState envA (update_histories envA (c3r.dnodes.length + 1) c3r 0)

/-- C3, counterexample.  Chance node `1` was constructed (during the rollouts)
with `history` aliasing histories entry `0`, whose data was `[⟨5, 9⟩]` both at
construction time and still at the end of the rollouts.  The node object is not
touched by `update_histories`, yet afterwards the contents of its `history`
attribute read `[⟨5, 9⟩, ⟨1, 1/2⟩]`: the attribute is a live reference
(`self.history = h.data`), not a frozen copy, so an operation performed after
construction did change its contents — refuting the claim. -/
theorem c3_history_alias_cx :
    (runRollouts agA envA false 3 (initState envA histA false)).isOk = true ∧
    (c3r.cnode 1).history = some 0 ∧
    c3r.histories = histA ∧
    histContents c3r (c3r.cnode 1) = [⟨5, 9⟩] ∧
    (update_histories envA (c3r.dnodes.length + 1) c3r 0).isOk = true ∧
    c3h.cnode 1 = c3r.cnode 1 ∧
    histContents c3h (c3h.cnode 1) = [⟨5, 9⟩, ⟨1, 1/2⟩] := by
  with_unfolding_all exact ⟨rfl, rfl, rfl, rfl, rfl, rfl, rfl⟩

/-- C6, counterexample to the "only if one was recorded for that chance node"
part.  In this two-rollout run, no selection transition is ever requested at
chance node `1` (no `transAt 1` event anywhere in the log), yet the second
rollout's backpropagation folds a reward at node `1`'s iteration
(`bp 1 1 1 (some 1)`): the popped reward had been recorded at its grandparent
chance node `0`. -/
theorem c6_fold_without_reward_cx :
    (act agA2 envA histA false).toOption.map (fun p =>
      (p.2.evLog.contains (Event.transAt 1),
       p.2.evLog.contains (Event.bp 1 1 1 (some 1)))) =
    some (false, true) := by
  with_unfolding_all rfl

/-- C8, evaluation at the failing input.  After this `act` run, chance node `0`
has three child decision nodes `[1, 2, 3]`, and children `2` and `3` carry the
same state `12` (equal under the environment's equality test): the children are
not pairwise distinct, because the matching loop tested the sampled state `12`
only against child `1` (state `11`) before expanding. -/
theorem c8_duplicate_children_eval :
    (act agB envB [] false).toOption.map (fun p =>
      ((p.2.dnode 0).children, (p.2.cnode 0).children,
       (p.2.dnode 2).state, (p.2.dnode 3).state,
       envB.equality_operator (p.2.dnode 2).state (p.2.dnode 3).state)) =
    some ([0], [1, 2, 3], 12, 12, true) := by
  with_unfolding_all rfl


section C4Amended

variable [Inhabited σ] [Inhabited α] [DecidableEq α]

/-- C4, amended.  With a terminal root (and at least one rollout, as the
configuration requires), `act` performs no rollout-driven expansion — the
selection phase returns the initial state untouched and the expansion phase
maps the terminal root to its parent `None` without modifying the state — and
then fails with the `AttributeError` from `node.parent.state` on `None`,
instead of returning an action. -/
theorem c4_terminal_root_amended (ag : Agent σ α) (env : Env σ α)
    (h₀ : List (History σ α)) (hr : 1 ≤ ag.rollouts) :
    act ag env h₀ true = .error .noneParent ∧
    selectLoop ag env
        ((initState env h₀ true).dnodes.length + (initState env h₀ true).cnodes.length + 2)
        (initState env h₀ true) (.dn 0) [] none true =
      .ok ⟨initState env h₀ true, some (.dn 0), [], none, true, false⟩ ∧
    expandPhase ag env (initState env h₀ true) (some (.dn 0)) none true false =
      .ok (initState env h₀ true, none) := by
  obtain ⟨n, hn⟩ : ∃ n, ag.rollouts = n + 1 := ⟨ag.rollouts - 1, (Nat.succ_pred_eq_of_pos hr).symm⟩
  refine ⟨?_, ?_, ?_⟩
  · simp [act, hn, runRollouts, rolloutStep, selectLoop, expandPhase, initState,
      SState.dnode]
  · simp [selectLoop, initState, SState.dnode]
  · simp [expandPhase, initState, SState.dnode]

/-- Witness for `c4_terminal_root_amended` at a concrete input. -/
theorem c4_terminal_root_amended_witness :
    1 ≤ agA.rollouts ∧ act agA envA [] true = .error .noneParent :=
  ⟨by decide, (c4_terminal_root_amended agA envA [] (by decide)).1⟩

end C4Amended

/-- C3, amended.  The `history` attribute of a chance node is a live reference to
the matching `History` entry's data list (`self.history = h.data`), not a frozen
copy: the node object itself is untouched, but appending a tuple to the aliased
entry — which is exactly what `update_histories` does after the rollouts via
`h.data.append(...)` (`appendTuple`) — changes the contents of the node's
`history` attribute by that same tuple. -/
theorem c3_history_live_alias [Inhabited σ] [Inhabited α] (st : SState σ α)
    (cid j : Nat) (t : HistoryTuple) (halias : (st.cnode cid).history = some j)
    (hj : j < st.histories.length) :
    (appendTuple st j t).cnode cid = st.cnode cid ∧
    histContents (appendTuple st j t) ((appendTuple st j t).cnode cid) =
      histContents st (st.cnode cid) ++ [t] := by
  obtain ⟨h, hh⟩ : ∃ h, st.histories[j]? = some h :=
    ⟨st.histories[j], List.getElem?_eq_getElem hj⟩
  have hcn : (appendTuple st j t).cnode cid = st.cnode cid := by
    simp [appendTuple, hh, SState.cnode]
  refine ⟨hcn, ?_⟩
  rw [hcn]
  simp [appendTuple, hh, histContents, halias, List.getElem?_set_eq_of_lt _ hj]

/-- Witness for `c3_history_live_alias` at a concrete input: chance node `1` of
the finished `envA` rollout state aliases histories entry `0`. -/
theorem c3_history_live_alias_witness :
    ((c3r.cnode 1).history = some 0 ∧ 0 < c3r.histories.length) ∧
    ((appendTuple c3r 0 ⟨1, 1/2⟩).cnode 1 = c3r.cnode 1 ∧
     histContents (appendTuple c3r 0 ⟨1, 1/2⟩) ((appendTuple c3r 0 ⟨1, 1/2⟩).cnode 1) =
       histContents c3r (c3r.cnode 1) ++ [⟨1, 1/2⟩]) :=
  ⟨⟨by with_unfolding_all rfl, by with_unfolding_all decide⟩,
   c3_history_live_alias c3r 1 0 ⟨1, 1/2⟩ (by with_unfolding_all rfl)
     (by with_unfolding_all decide)⟩

/-! ## Arena read/write lemmas -/

section ArenaLemmas

variable [Inhabited σ] [Inhabited α]

@[simp] theorem dnode_setCnode (st : SState σ α) (i : Nat) (c : ChanceNode α) (j : Nat) :
    (st.setCnode i c).dnode j = st.dnode j := rfl

@[simp] theorem cnode_setDnode (st : SState σ α) (i : Nat) (d : DecisionNode σ) (j : Nat) :
    (st.setDnode i d).cnode j = st.cnode j := rfl

theorem cnode_setCnode_self (st : SState σ α) (i : Nat) (c : ChanceNode α)
    (hi : i < st.cnodes.length) : (st.setCnode i c).cnode i = c := by
  simp [SState.cnode, SState.setCnode, List.getElem?_set_eq_of_lt _ hi]

theorem cnode_setCnode_ne (st : SState σ α) (i : Nat) (c : ChanceNode α) (j : Nat)
    (h : i ≠ j) : (st.setCnode i c).cnode j = st.cnode j := by
  simp [SState.cnode, SState.setCnode, List.getElem?_set_ne h]

theorem dnode_setDnode_self (st : SState σ α) (i : Nat) (d : DecisionNode σ)
    (hi : i < st.dnodes.length) : (st.setDnode i d).dnode i = d := by
  simp [SState.dnode, SState.setDnode, List.getElem?_set_eq_of_lt _ hi]

theorem dnode_setDnode_ne (st : SState σ α) (i : Nat) (d : DecisionNode σ) (j : Nat)
    (h : i ≠ j) : (st.setDnode i d).dnode j = st.dnode j := by
  simp [SState.dnode, SState.setDnode, List.getElem?_set_ne h]

theorem cnode_stale (st : SState σ α) (i : Nat) (hi : ¬ i < st.cnodes.length)
    (c : ChanceNode α) : (st.setCnode i c).cnode i = st.cnode i := by
  simp [SState.cnode, SState.setCnode, List.set_eq_of_length_le (Nat.le_of_not_lt hi)]

theorem dnode_stale (st : SState σ α) (i : Nat) (hi : ¬ i < st.dnodes.length)
    (d : DecisionNode σ) : (st.setDnode i d).dnode i = st.dnode i := by
  simp [SState.dnode, SState.setDnode, List.set_eq_of_length_le (Nat.le_of_not_lt hi)]

theorem dnodes_eq_singleton (stX : SState σ α) (h1 : stX.dnodes.length = 1) :
    stX.dnodes = [stX.dnode 0] := by
  cases hd : stX.dnodes with
  | nil => rw [hd] at h1; cases h1
  | cons a l =>
    cases l with
    | nil => simp [SState.dnode, hd]
    | cons b m => rw [hd] at h1; simp at h1

end ArenaLemmas

/-! ## C6: characterization of the backpropagation loop -/

section Backprop

variable [Inhabited σ] [Inhabited α]

/-- The running estimate at the start of the `k`-th backpropagation iteration:
base estimate `est`; `rev` is the selection rewards in reverse recording order,
folded one per iteration while they last. -/
def estAt (gamma est : ℚ) (rev : List ℚ) : Nat → ℚ
  | 0 => est
  | k + 1 =>
    match rev[k]? with
    | some r => r + gamma * estAt gamma est rev k
    | none => estAt gamma est rev k

/-- The estimates appended to chance node `cid` by a list of backprop events. -/
def bpEsts (cid : Nat) : List Event → List ℚ
  | [] => []
  | .bp c _ e _ :: rest => (if c = cid then [e] else []) ++ bpEsts cid rest
  | _ :: rest => bpEsts cid rest

/-- The number of visit increments received by decision node `did` according to a
list of backprop events. -/
def bpVisits (did : Nat) : List Event → Nat
  | [] => 0
  | .bp _ pd _ _ :: rest => (if pd = did then 1 else 0) + bpVisits did rest
  | _ :: rest => bpVisits did rest

/-- The ascent chain of chance-node ids followed by backpropagation
(`node`, then `node.parent.parent`, ...), cut off by fuel. -/
def ascChain (st : SState σ α) : Nat → Option NRef → List Nat
  | 0, _ => []
  | _ + 1, none => []
  | _ + 1, some (.dn _) => []
  | fuel + 1, some (.cn i) =>
    i :: ascChain st fuel (((st.dnode (st.cnode i).parent).parent).map NRef.cn)

theorem ascChain_congr (stA stB : SState σ α)
    (hc : ∀ j, (stA.cnode j).parent = (stB.cnode j).parent)
    (hd : ∀ j, (stA.dnode j).parent = (stB.dnode j).parent) :
    ∀ f n, ascChain stA f n = ascChain stB f n := by
  intro f
  induction f with
  | zero => intro n; rfl
  | succ f ih =>
    intro n
    match n with
    | none => rfl
    | some (.dn _) => rfl
    | some (.cn i) =>
      show i :: _ = i :: _
      rw [hc i, hd ((stB.cnode i).parent)]
      exact congrArg _ (ih _)

theorem estAt_shift (gamma est : ℚ) (rev : List ℚ) (k : Nat) :
    estAt gamma (match rev[0]? with | some r => r + gamma * est | none => est)
        rev.tail k
      = estAt gamma est rev (k + 1) := by
  induction k with
  | zero => rfl
  | succ k ih =>
    show (match rev.tail[k]? with
      | some r => r + gamma * estAt gamma _ rev.tail k
      | none => estAt gamma _ rev.tail k) = _
    rw [List.getElem?_tail, ih]
    rfl

theorem folded_head (rewards : List ℚ) :
    (if rewards.isEmpty then none else some (rewards.getLastD 0))
      = rewards.reverse[0]? := by
  rw [← List.head?_eq_getElem?, List.head?_reverse]
  match rewards with
  | [] => rfl
  | a :: l =>
    simp [List.getLastD_eq_getLast?]
    cases h : (a :: l).getLast? with
    | none => simp [List.getLast?_eq_getLast] at h
    | some b => rfl

section BpStepLemmas

variable (gamma : ℚ) (st : SState σ α) (i : Nat) (rews : List ℚ) (e : ℚ)

theorem bpFolded_eq (rewards : List ℚ) : bpFolded rewards = rewards.reverse[0]? :=
  folded_head rewards

theorem bpMid_dnode (j : Nat) : (bpMid st i rews e).dnode j = st.dnode j := rfl

theorem bpMid_cnode_self (hi : i < st.cnodes.length) :
    (bpMid st i rews e).cnode i
      = { st.cnode i with sampled_returns := (st.cnode i).sampled_returns ++ [e] } := by
  show (st.setCnode i _).cnode i = _
  exact cnode_setCnode_self st i _ hi

theorem bpMid_cnode_ne (j : Nat) (h : i ≠ j) :
    (bpMid st i rews e).cnode j = st.cnode j := by
  show (st.setCnode i _).cnode j = _
  exact cnode_setCnode_ne st i _ j h

theorem bpMid_cnode_stale (hi : ¬ i < st.cnodes.length) :
    (bpMid st i rews e).cnode i = st.cnode i := by
  show (st.setCnode i _).cnode i = _
  exact cnode_stale st i hi _

theorem bpStep_next :
    (bpStep gamma st i rews e).2.1 = ((st.dnode (st.cnode i).parent).parent).map NRef.cn :=
  rfl

theorem bpStep_rews : (bpStep gamma st i rews e).2.2.1 = rews.dropLast := rfl

theorem bpStep_est :
    (bpStep gamma st i rews e).2.2.2
      = match rews.reverse[0]? with | some r => r + gamma * e | none => e := by
  show (match bpFolded rews with | none => e | some r => r + gamma * e) = _
  rw [bpFolded_eq]
  cases rews.reverse[0]? <;> rfl

theorem bpStep_evLog :
    (bpStep gamma st i rews e).1.evLog
      = st.evLog ++ [Event.bp i (st.cnode i).parent e (rews.reverse[0]?)] := by
  show (bpMid st i rews e).evLog = _
  show st.evLog ++ [Event.bp i (st.cnode i).parent e (bpFolded rews)] = _
  rw [bpFolded_eq]

theorem bpStep_histories : (bpStep gamma st i rews e).1.histories = st.histories := rfl

theorem bpStep_tick : (bpStep gamma st i rews e).1.tick = st.tick := rfl

theorem bpStep_updates : (bpStep gamma st i rews e).1.updates = st.updates := rfl

theorem bpStep_clen : (bpStep gamma st i rews e).1.cnodes.length = st.cnodes.length := by
  show ((bpMid st i rews e).setDnode _ _).cnodes.length = _
  show (bpMid st i rews e).cnodes.length = _
  show ((st.setCnode i _).cnodes).length = _
  simp [SState.setCnode]

theorem bpStep_dlen : (bpStep gamma st i rews e).1.dnodes.length = st.dnodes.length := by
  show ((bpMid st i rews e).dnodes.set _ _).length = _
  simp [bpMid, SState.setCnode]

theorem bpStep_cnode (j : Nat) :
    (bpStep gamma st i rews e).1.cnode j = (bpMid st i rews e).cnode j := rfl

theorem bpStep_cnode_parent (j : Nat) :
    ((bpStep gamma st i rews e).1.cnode j).parent = (st.cnode j).parent := by
  rw [bpStep_cnode]
  by_cases hj : i = j
  · subst hj
    by_cases hi : i < st.cnodes.length
    · rw [bpMid_cnode_self st i rews e hi]
    · rw [bpMid_cnode_stale st i rews e hi]
  · rw [bpMid_cnode_ne st i rews e j hj]

theorem bpStep_cnode_children (j : Nat) :
    ((bpStep gamma st i rews e).1.cnode j).children = (st.cnode j).children := by
  rw [bpStep_cnode]
  by_cases hj : i = j
  · subst hj
    by_cases hi : i < st.cnodes.length
    · rw [bpMid_cnode_self st i rews e hi]
    · rw [bpMid_cnode_stale st i rews e hi]
  · rw [bpMid_cnode_ne st i rews e j hj]

theorem bpStep_cnode_history (j : Nat) :
    ((bpStep gamma st i rews e).1.cnode j).history = (st.cnode j).history := by
  rw [bpStep_cnode]
  by_cases hj : i = j
  · subst hj
    by_cases hi : i < st.cnodes.length
    · rw [bpMid_cnode_self st i rews e hi]
    · rw [bpMid_cnode_stale st i rews e hi]
  · rw [bpMid_cnode_ne st i rews e j hj]

theorem bpStep_cnode_returns (j : Nat) (hi : i < st.cnodes.length) :
    ((bpStep gamma st i rews e).1.cnode j).sampled_returns
      = (st.cnode j).sampled_returns ++ (if i = j then [e] else []) := by
  rw [bpStep_cnode]
  by_cases hj : i = j
  · subst hj
    rw [bpMid_cnode_self st i rews e hi]
    simp
  · rw [bpMid_cnode_ne st i rews e j hj]
    simp [hj]

theorem bpStep_dnode (j : Nat) :
    (bpStep gamma st i rews e).1.dnode j
      = if (st.cnode i).parent = j ∧ (st.cnode i).parent < st.dnodes.length
        then { st.dnode j with visits := (st.dnode j).visits + 1 }
        else st.dnode j := by
  show ((bpMid st i rews e).setDnode (st.cnode i).parent _).dnode j = _
  by_cases hj : (st.cnode i).parent = j
  · by_cases hp : (st.cnode i).parent < st.dnodes.length
    · subst hj
      rw [dnode_setDnode_self _ _ _ (by simpa [bpMid, SState.setCnode] using hp)]
      rw [bpMid_dnode]
      simp [hp]
    · subst hj
      rw [dnode_stale _ _ (by simpa [bpMid, SState.setCnode] using hp)]
      rw [bpMid_dnode]
      simp [hp]
  · rw [dnode_setDnode_ne _ _ _ _ hj, bpMid_dnode]
    simp [hj]

theorem bpStep_dnode_parent (j : Nat) :
    ((bpStep gamma st i rews e).1.dnode j).parent = (st.dnode j).parent := by
  rw [bpStep_dnode]
  split <;> rfl

theorem bpStep_dnode_visits (j : Nat) (hp : (st.cnode i).parent < st.dnodes.length) :
    ((bpStep gamma st i rews e).1.dnode j).visits
      = (st.dnode j).visits + (if (st.cnode i).parent = j then 1 else 0) := by
  rw [bpStep_dnode]
  by_cases hj : (st.cnode i).parent = j
  · subst hj
    simp [hp]
  · simp [hj]

end BpStepLemmas

/-- C6, amended.  Characterization of one backpropagation walk
(`backpropLoop` from a chance node): writing `rev` for the selection rewards in
reverse recording order and `ch` for the ascent chain of chance nodes from the
evaluated node to the root, the walk emits exactly one event per chain node, in
order; the `k`-th iteration, at chain node `ch[k]`, appends the running estimate
`estAt k` to that node's `sampled_returns`, folds a reward iff unconsumed rewards
remain (`rev[k]?` is `some`, i.e. `k <` number of recorded rewards) — the reward
folded being the most recent unconsumed one `rev[k]`, with no regard to which
chance node it was recorded at — and increments the parent decision node's visit
count by one.  (This corrects the claim's "a reward is folded in at a chance node
only if one was recorded for that chance node during selection".) -/
theorem c6_backprop_amended (gamma : ℚ) (fuel : Nat) (st : SState σ α)
    (node : Option NRef) (rewards : List ℚ) (est : ℚ) (st' : SState σ α)
    (hok : backpropLoop gamma fuel st node rewards est = .ok st')
    (hv : ∀ i ∈ ascChain st fuel node,
      i < st.cnodes.length ∧ (st.cnode i).parent < st.dnodes.length) :
    ∃ bps : List Event,
      st'.evLog = st.evLog ++ bps ∧
      (∀ k : Nat, bps[k]? = (ascChain st fuel node)[k]?.map (fun cid =>
        Event.bp cid (st.cnode cid).parent (estAt gamma est rewards.reverse k)
          rewards.reverse[k]?)) ∧
      (∀ cid, (st'.cnode cid).sampled_returns
        = (st.cnode cid).sampled_returns ++ bpEsts cid bps) ∧
      (∀ did, (st'.dnode did).visits = (st.dnode did).visits + bpVisits did bps) := by
  induction fuel generalizing st node rewards est st' with
  | zero => exact absurd hok (by simp [backpropLoop])
  | succ fuel ih =>
    match node with
    | none =>
      have hst : st' = st := by
        have h : (pure st : Except Err (SState σ α)) = .ok st' := hok
        simpa using h.symm
      subst hst
      exact ⟨[], by simp, by intro k; simp [ascChain], by intro cid; simp [bpEsts],
             by intro did; simp [bpVisits]⟩
    | some (.dn j) => exact absurd hok (by simp [backpropLoop])
    | some (.cn i) =>
      have hi : i < st.cnodes.length := (hv i (by simp [ascChain])).1
      have hpi : (st.cnode i).parent < st.dnodes.length := (hv i (by simp [ascChain])).2
      simp only [backpropLoop] at hok
      -- the chain seen from the stepped state is the chain seen from `st`
      have hcongr : ∀ f n, ascChain (bpStep gamma st i rewards est).1 f n
          = ascChain st f n :=
        ascChain_congr _ st (bpStep_cnode_parent gamma st i rewards est)
          (bpStep_dnode_parent gamma st i rewards est)
      have hnext : (bpStep gamma st i rewards est).2.1
          = ((st.dnode (st.cnode i).parent).parent).map NRef.cn :=
        bpStep_next gamma st i rewards est
      have hchain : ascChain st (fuel + 1) (some (.cn i))
          = i :: ascChain st fuel (((st.dnode (st.cnode i).parent).parent).map NRef.cn) :=
        rfl
      -- transported validity for the recursive call
      have hv' : ∀ j ∈ ascChain (bpStep gamma st i rewards est).1 fuel
          (bpStep gamma st i rewards est).2.1,
          j < (bpStep gamma st i rewards est).1.cnodes.length ∧
          ((bpStep gamma st i rewards est).1.cnode j).parent
            < (bpStep gamma st i rewards est).1.dnodes.length := by
        intro j hj
        rw [hcongr, hnext] at hj
        have hmem : j ∈ ascChain st (fuel + 1) (some (.cn i)) := by
          rw [hchain]; exact List.mem_cons_of_mem _ hj
        refine ⟨?_, ?_⟩
        · rw [bpStep_clen]; exact (hv j hmem).1
        · rw [bpStep_dlen, bpStep_cnode_parent]; exact (hv j hmem).2
      obtain ⟨bpsRest, hlog, hpos, hret, hvis⟩ :=
        ih (bpStep gamma st i rewards est).1 (bpStep gamma st i rewards est).2.1
          (bpStep gamma st i rewards est).2.2.1 (bpStep gamma st i rewards est).2.2.2
          st' hok hv'
      refine ⟨Event.bp i (st.cnode i).parent est (rewards.reverse[0]?) :: bpsRest,
        ?_, ?_, ?_, ?_⟩
      · rw [hlog, bpStep_evLog, List.append_assoc]
        rfl
      · intro k
        match k with
        | 0 =>
          rw [hchain]
          simp [estAt]
        | k + 1 =>
          rw [List.getElem?_cons_succ, hpos k, hcongr, hnext, hchain,
            List.getElem?_cons_succ]
          cases hcv : (ascChain st fuel
              (((st.dnode (st.cnode i).parent).parent).map NRef.cn))[k]? with
          | none => rfl
          | some cid =>
            simp only [Option.map_some']
            rw [bpStep_cnode_parent gamma st i rewards est cid, bpStep_est, bpStep_rews,
              show rewards.dropLast.reverse = rewards.reverse.tail from
                (List.tail_reverse rewards).symm,
              estAt_shift gamma est rewards.reverse k, List.getElem?_tail]
      · intro cid
        rw [hret cid, bpStep_cnode_returns gamma st i rewards est cid hi]
        rw [List.append_assoc]
        congr 1
      · intro did
        rw [hvis did, bpStep_dnode_visits gamma st i rewards est did hpi]
        show _ = _ + bpVisits did (Event.bp i _ est _ :: bpsRest)
        simp [bpVisits]
        omega

/-- The result of a small concrete backpropagation walk on `stC1` (one chance
node, one recorded reward). -/
def c6w : SState Nat Nat :=
  okState envA (backpropLoop (1 : ℚ) 3 stC1 (some (.cn 0)) [2] 5)

/-- Witness for `c6_backprop_amended` at a concrete input. -/
theorem c6_backprop_amended_witness :
    (backpropLoop (1 : ℚ) 3 stC1 (some (.cn 0)) [2] 5 = .ok c6w ∧
     ∀ i ∈ ascChain stC1 3 (some (.cn 0)),
       i < stC1.cnodes.length ∧ (stC1.cnode i).parent < stC1.dnodes.length) ∧
    (∃ bps : List Event,
      c6w.evLog = stC1.evLog ++ bps ∧
      (∀ k : Nat, bps[k]? = (ascChain stC1 3 (some (.cn 0)))[k]?.map (fun cid =>
        Event.bp cid (stC1.cnode cid).parent (estAt 1 5 ([(2 : ℚ)]).reverse k)
          ([(2 : ℚ)]).reverse[k]?)) ∧
      (∀ cid, (c6w.cnode cid).sampled_returns
        = (stC1.cnode cid).sampled_returns ++ bpEsts cid bps) ∧
      (∀ did, (c6w.dnode did).visits = (stC1.dnode did).visits + bpVisits did bps)) :=
  ⟨⟨by with_unfolding_all rfl, by decide⟩,
   c6_backprop_amended 1 3 stC1 (some (.cn 0)) [2] 5 c6w
     (by with_unfolding_all rfl) (by decide)⟩

end Backprop

/-! ## C9: fewer rollouts than actions -/

section C9

variable [Inhabited σ] [Inhabited α] [DecidableEq α]

/-- The discovery order of the root's children in a fresh `act` call: the shuffle
of the freshly created chance-node ids (base id 0). -/
def ids0 (ag : Agent σ α) (env : Env σ α) : List Nat :=
  ag.shuffle 0 ((List.range env.actions.length).map (· + 0))

/-- Invariant of the rollout phase of a fresh `act` call while fewer rollouts
than actions have been performed: the tree is the root (children `ids`, `j` of
them explored, `j` visits) plus one chance node per action; the first `j`
children in discovery order carry sampled returns, the rest none; no histories. -/
def C9Inv (env : Env σ α) (ids : List Nat) (j : Nat) (st : SState σ α) : Prop :=
  st.dnodes = [⟨none, env.state, false, 0, ids, j, j⟩] ∧
  st.cnodes.length = env.actions.length ∧
  (∀ c, c < st.cnodes.length →
    (st.cnode c).parent = 0 ∧ (st.cnode c).children = [] ∧ (st.cnode c).history = none) ∧
  (∀ m, m < j → m < ids.length → (st.cnode (ids.getD m 0)).sampled_returns ≠ []) ∧
  (∀ m, j ≤ m → m < ids.length → (st.cnode (ids.getD m 0)).sampled_returns = []) ∧
  st.histories = []

theorem getD_mem_of_lt (l : List Nat) (m : Nat) (hm : m < l.length) : l.getD m 0 ∈ l := by
  rw [List.getD_eq_getElem?_getD, List.getElem?_eq_getElem hm]
  simp [List.getElem_mem]

theorem nodup_getD_ne (l : List Nat) (hnd : l.Nodup) (m n : Nat)
    (hm : m < l.length) (hn : n < l.length) (hmn : m ≠ n) :
    l.getD m 0 ≠ l.getD n 0 := by
  rw [List.getD_eq_getElem?_getD, List.getD_eq_getElem?_getD,
    List.getElem?_eq_getElem hm, List.getElem?_eq_getElem hn]
  intro h
  exact hmn (hnd.getElem_inj_iff.1 (by simpa using h))

theorem c9_step (ag : Agent σ α) (env : Env σ α) (ids : List Nat) (j : Nat)
    (st : SState σ α) (hInv : C9Inv env ids j st)
    (hlen : ids.length = env.actions.length)
    (hmem : ∀ x ∈ ids, x < env.actions.length)
    (hnd : ids.Nodup)
    (hj1 : 1 ≤ j) (hjk : j < env.actions.length) :
    ∃ st', rolloutStep ag env false st = .ok st' ∧ C9Inv env ids (j + 1) st' := by
  obtain ⟨hdn, hclen, hcn, hfull, hempty, hhist⟩ := hInv
  have hroot : st.dnode 0 = ⟨none, env.state, false, 0, ids, j, j⟩ := by
    simp [SState.dnode, hdn]
  have hjlen : j < ids.length := by rw [hlen]; exact hjk
  have hids_ne : ids.isEmpty = false := by
    cases ids with
    | nil => simp at hjlen
    | cons a l => rfl
  set cid := ids.getD j 0 with hcid_def
  have hcid_mem : cid ∈ ids := getD_mem_of_lt ids j hjlen
  have hcid : cid < st.cnodes.length := by rw [hclen]; exact hmem cid hcid_mem
  set rootj : DecisionNode σ := ⟨none, env.state, false, 0, ids, j, j⟩ with hrootj
  set stS : SState σ α :=
    st.setDnode 0 { rootj with explored_children := j + 1 } with hstS
  -- selection ends at the unexplored child `cid`
  have hsel : selectLoop ag env (st.dnodes.length + st.cnodes.length + 2) st
      (.dn 0) [] none false =
      .ok ⟨stS, some (.cn cid), [], none, false, false⟩ := by
    have hfuel : st.dnodes.length + st.cnodes.length + 2
        = (st.dnodes.length + st.cnodes.length + 1) + 1 := rfl
    rw [hfuel, selectLoop]
    simp only [hroot, hids_ne, Bool.false_eq_true, if_false]
    rw [if_pos hjlen]
    rfl
  -- expansion is a no-op
  have hexp : expandPhase ag env stS (some (.cn cid)) none false false
      = .ok (stS, some (.cn cid)) := rfl
  -- reads of stS
  have hSc : ∀ c, stS.cnode c = st.cnode c := fun c => rfl
  have hSclen : stS.cnodes.length = st.cnodes.length := rfl
  have hSd0 : stS.dnode 0 = { rootj with explored_children := j + 1 } := by
    apply dnode_setDnode_self
    rw [hdn]; simp
  have hcp : (st.cnode cid).parent = 0 := (hcn cid hcid).1
  -- evaluation (an arbitrary estimate) and backpropagation
  set evv : ℚ × Bool × Nat := evalLoop env ag.gamma ag.max_depth ((stS.cnode cid).depth)
      (ag.max_depth + 2) 0 ((stS.dnode ((stS.cnode cid).parent)).state) 0 false stS.tick
      with hevv
  set stE : SState σ α := { stS with tick := evv.2.2 } with hstE
  set stB : SState σ α := (bpStep ag.gamma stE cid [] evv.1).1 with hstB
  have hEd0 : stE.dnode 0 = { rootj with explored_children := j + 1 } := hSd0
  have hEdlen : stE.dnodes.length = st.dnodes.length := by
    simp [hstE, hstS, SState.setDnode]
  have hEclen : stE.cnodes.length = st.cnodes.length := rfl
  have hcpE : (stE.cnode cid).parent = 0 := hcp
  have hnext : (bpStep ag.gamma stE cid [] evv.1).2.1 = none := by
    rw [bpStep_next, hcpE, hEd0]
    rfl
  have hbp : backpropLoop ag.gamma (stE.cnodes.length + 2) stE (some (.cn cid)) [] evv.1
      = .ok stB := by
    have hf2 : stE.cnodes.length + 2 = (stE.cnodes.length + 1) + 1 := rfl
    rw [hf2]
    simp only [backpropLoop]
    rw [hnext]
    simp only [backpropLoop]
    rfl
  have hrun : rolloutStep ag env false st = .ok stB := by
    simp only [rolloutStep]
    rw [hsel]
    simp only [exc_bind_ok]
    rw [hexp]
    simp only [exc_bind_ok]
    exact hbp
  refine ⟨stB, hrun, ?_, ?_, ?_, ?_, ?_, ?_⟩
  · -- the root now records j+1 explored children and j+1 visits
    have hlen1 : stB.dnodes.length = 1 := by
      rw [hstB, bpStep_dlen, hEdlen, hdn]
      rfl
    have hval : stB.dnode 0 = ⟨none, env.state, false, 0, ids, j + 1, j + 1⟩ := by
      rw [hstB, bpStep_dnode, hcpE]
      rw [if_pos ⟨rfl, by rw [hEdlen, hdn]; simp⟩]
      rw [hEd0]
    rw [dnodes_eq_singleton stB hlen1, hval]
  · rw [hstB, bpStep_clen]
    exact hclen
  · intro c hc
    have hc' : c < st.cnodes.length := by
      rw [hstB, bpStep_clen] at hc
      exact hc
    refine ⟨?_, ?_, ?_⟩
    · rw [hstB, bpStep_cnode_parent]
      exact (hcn c hc').1
    · rw [hstB, bpStep_cnode_children]
      exact (hcn c hc').2.1
    · rw [hstB, bpStep_cnode_history]
      exact (hcn c hc').2.2
  · intro m hm hmlen
    have hret := bpStep_cnode_returns ag.gamma stE cid [] evv.1 (ids.getD m 0)
      (by rw [hEclen]; exact hcid)
    rw [hstB, hret]
    by_cases hmj : m = j
    · subst hmj
      rw [if_pos hcid_def.symm]
      simp
    · have hne : cid ≠ ids.getD m 0 := by
        rw [hcid_def]
        exact nodup_getD_ne ids hnd j m hjlen hmlen (fun h => hmj h.symm)
      rw [if_neg hne]
      have hmlt : m < j := Nat.lt_of_le_of_ne (Nat.lt_succ_iff.1 hm) hmj
      have := hfull m hmlt hmlen
      simpa using this
  · intro m hm hmlen
    have hret := bpStep_cnode_returns ag.gamma stE cid [] evv.1 (ids.getD m 0)
      (by rw [hEclen]; exact hcid)
    rw [hstB, hret]
    have hne : cid ≠ ids.getD m 0 := by
      rw [hcid_def]
      refine nodup_getD_ne ids hnd j m hjlen hmlen ?_
      intro h
      omega
    rw [if_neg hne]
    have := hempty m (Nat.le_of_succ_le hm) hmlen
    simpa using this
  · rw [hstB, bpStep_histories]
    exact hhist

theorem ids0_perm (ag : Agent σ α) (env : Env σ α)
    (HS : ∀ n l, (ag.shuffle n l).Perm l) :
    (ids0 ag env).Perm (List.range env.actions.length) := by
  refine (HS 0 _).trans ?_
  rw [show (List.range env.actions.length).map (· + 0) = List.range env.actions.length by simp]

theorem ids0_length (ag : Agent σ α) (env : Env σ α)
    (HS : ∀ n l, (ag.shuffle n l).Perm l) :
    (ids0 ag env).length = env.actions.length := by
  have := (ids0_perm ag env HS).length_eq
  simpa using this

theorem ids0_mem (ag : Agent σ α) (env : Env σ α)
    (HS : ∀ n l, (ag.shuffle n l).Perm l) :
    ∀ x ∈ ids0 ag env, x < env.actions.length := by
  intro x hx
  have := (ids0_perm ag env HS).mem_iff.1 hx
  simpa using this

theorem ids0_nodup (ag : Agent σ α) (env : Env σ α)
    (HS : ∀ n l, (ag.shuffle n l).Perm l) :
    (ids0 ag env).Nodup :=
  (ids0_perm ag env HS).nodup_iff.2 (List.nodup_range _)

theorem c9_first (ag : Agent σ α) (env : Env σ α)
    (HS : ∀ n l, (ag.shuffle n l).Perm l) (hk : 1 ≤ env.actions.length) :
    ∃ st₁, rolloutStep ag env false (initState env [] false) = .ok st₁ ∧
      C9Inv env (ids0 ag env) 1 st₁ := by
  set st₀ : SState σ α := initState env [] false with hst₀
  have hids_len : (ids0 ag env).length = env.actions.length := ids0_length ag env HS
  have hids_mem : ∀ x ∈ ids0 ag env, x < env.actions.length := ids0_mem ag env HS
  have hids_nd : (ids0 ag env).Nodup := ids0_nodup ag env HS
  obtain ⟨c0, rest, hc0⟩ : ∃ c0 rest, ids0 ag env = c0 :: rest := by
    cases h : ids0 ag env with
    | nil =>
      exfalso
      rw [h] at hids_len
      simp at hids_len
      omega
    | cons a l => exact ⟨a, l, rfl⟩
  have hsel : selectLoop ag env
      (st₀.dnodes.length + st₀.cnodes.length + 2) st₀ (.dn 0) [] none false =
      .ok ⟨st₀, some (.dn 0), [], none, false, false⟩ := by
    have hfuel : st₀.dnodes.length + st₀.cnodes.length + 2
        = (st₀.dnodes.length + st₀.cnodes.length + 1) + 1 := rfl
    rw [hfuel]
    simp only [selectLoop]
    simp [hst₀, initState, SState.dnode]
  set newCs : List (ChanceNode α) := env.actions.map
      (fun a => mkChance 0 a 0 env.state env.equality_operator []) with hnewCs
  set stX : SState σ α :=
    ⟨[⟨none, env.state, false, 0, c0 :: rest, 1, 0⟩], newCs, [], 1, [], []⟩ with hstX
  have hshuf : ag.shuffle st₀.tick
      ((List.range env.actions.length).map (· + st₀.cnodes.length)) = c0 :: rest := by
    rw [← hc0]
    rfl
  have hexp : expandPhase ag env st₀ (some (.dn 0)) none false false
      = .ok (stX, some (.cn c0)) := by
    simp only [expandPhase, exc_pure, exc_bind_ok]
    rw [show st₀.dnode 0 = ⟨none, env.state, false, 0, [], 0, 0⟩ by
      simp [hst₀, initState, SState.dnode]]
    simp only [Bool.false_eq_true, if_false]
    rw [hshuf]
    rfl
  have hc0lt : c0 < env.actions.length :=
    hids_mem c0 (by rw [hc0]; exact List.mem_cons_self c0 rest)
  have hnewlen : newCs.length = env.actions.length := by simp [hnewCs]
  have hXfields : ∀ c, c < env.actions.length →
      (stX.cnode c).parent = 0 ∧ (stX.cnode c).children = [] ∧
      (stX.cnode c).history = none ∧ (stX.cnode c).sampled_returns = [] := by
    intro c hcl
    have h2 : stX.cnodes[c]? =
        some (mkChance 0 (env.actions.get ⟨c, hcl⟩) 0 env.state env.equality_operator []) := by
      show newCs[c]? = _
      rw [hnewCs, List.getElem?_map, List.getElem?_eq_getElem hcl]
      rfl
    have h3 : stX.cnode c
        = mkChance 0 (env.actions.get ⟨c, hcl⟩) 0 env.state env.equality_operator [] := by
      simp [SState.cnode, h2]
    rw [h3]
    exact ⟨rfl, rfl, rfl, rfl⟩
  -- evaluation and backpropagation
  set evv : ℚ × Bool × Nat := evalLoop env ag.gamma ag.max_depth ((stX.cnode c0).depth)
      (ag.max_depth + 2) 0 ((stX.dnode ((stX.cnode c0).parent)).state) 0 false stX.tick
      with hevv
  set stE : SState σ α := { stX with tick := evv.2.2 } with hstE
  set stB : SState σ α := (bpStep ag.gamma stE c0 [] evv.1).1 with hstB
  have hcpE : (stE.cnode c0).parent = 0 := (hXfields c0 hc0lt).1
  have hEd0 : stE.dnode 0 = ⟨none, env.state, false, 0, c0 :: rest, 1, 0⟩ := by
    simp [hstE, hstX, SState.dnode]
  have hEdlen : stE.dnodes.length = 1 := by simp [hstE, hstX]
  have hEclen : stE.cnodes.length = env.actions.length := by
    show newCs.length = _
    exact hnewlen
  have hnext : (bpStep ag.gamma stE c0 [] evv.1).2.1 = none := by
    rw [bpStep_next, hcpE, hEd0]
    rfl
  have hbp : backpropLoop ag.gamma (stE.cnodes.length + 2) stE (some (.cn c0)) [] evv.1
      = .ok stB := by
    have hf2 : stE.cnodes.length + 2 = (stE.cnodes.length + 1) + 1 := rfl
    rw [hf2]
    simp only [backpropLoop]
    rw [hnext]
    simp only [backpropLoop]
    rfl
  have hrun : rolloutStep ag env false st₀ = .ok stB := by
    simp only [rolloutStep]
    rw [hsel]
    simp only [exc_bind_ok]
    rw [hexp]
    simp only [exc_bind_ok]
    exact hbp
  refine ⟨stB, hrun, ?_, ?_, ?_, ?_, ?_, ?_⟩
  · have hlen1 : stB.dnodes.length = 1 := by
      rw [hstB, bpStep_dlen, hEdlen]
    have hval : stB.dnode 0 = ⟨none, env.state, false, 0, ids0 ag env, 1, 1⟩ := by
      rw [hstB, bpStep_dnode, hcpE]
      rw [if_pos ⟨rfl, by rw [hEdlen]; omega⟩]
      rw [hEd0, hc0]
    rw [dnodes_eq_singleton stB hlen1, hval]
  · rw [hstB, bpStep_clen]
    exact hEclen
  · intro c hc
    have hc' : c < env.actions.length := by
      rw [hstB, bpStep_clen, hEclen] at hc
      exact hc
    refine ⟨?_, ?_, ?_⟩
    · rw [hstB, bpStep_cnode_parent]
      exact (hXfields c hc').1
    · rw [hstB, bpStep_cnode_children]
      exact (hXfields c hc').2.1
    · rw [hstB, bpStep_cnode_history]
      exact (hXfields c hc').2.2.1
  · intro m hm hmlen
    interval_cases m
    have hg0 : (ids0 ag env).getD 0 0 = c0 := by rw [hc0]; rfl
    rw [hg0]
    have hret := bpStep_cnode_returns ag.gamma stE c0 [] evv.1 c0
      (by rw [hEclen]; exact hc0lt)
    rw [hstB, hret, if_pos rfl]
    simp
  · intro m hm hmlen
    have hg0 : (ids0 ag env).getD 0 0 = c0 := by rw [hc0]; rfl
    have hne : c0 ≠ (ids0 ag env).getD m 0 := by
      rw [← hg0]
      exact nodup_getD_ne (ids0 ag env) hids_nd 0 m (by rw [hc0]; simp) hmlen (by omega)
    have hmm2 : (ids0 ag env).getD m 0 < env.actions.length :=
      hids_mem ((ids0 ag env).getD m 0) (getD_mem_of_lt (ids0 ag env) m hmlen)
    have hret := bpStep_cnode_returns ag.gamma stE c0 [] evv.1 ((ids0 ag env).getD m 0)
      (by rw [hEclen]; exact hc0lt)
    rw [hstB, hret, if_neg hne]
    have hXe : (stX.cnode ((ids0 ag env).getD m 0)).sampled_returns = [] :=
      (hXfields _ hmm2).2.2.2
    simpa using hXe
  · rw [hstB, bpStep_histories]

theorem cnode_congr (s' s : SState σ α) (h : s'.cnodes = s.cnodes) (x : Nat) :
    s'.cnode x = s.cnode x := by
  simp [SState.cnode, h]

theorem dnode_congr (s' s : SState σ α) (h : s'.dnodes = s.dnodes) (x : Nat) :
    s'.dnode x = s.dnode x := by
  simp [SState.dnode, h]

theorem histContents_none (s : SState σ α) (c : ChanceNode α) (h : c.history = none) :
    histContents s c = [] := by
  simp [histContents, h]

theorem cnode_oor (s : SState σ α) (x : Nat) (hx : ¬ x < s.cnodes.length) :
    s.cnode x = ⟨0, default, 0, [], [], none⟩ := by
  simp [SState.cnode, List.getElem?_eq_none (Nat.le_of_not_lt hx)]

theorem snapshot_ok (returns : List ℚ) (h : returns.isEmpty = false) :
    ∃ v, snapshot_value returns = .ok v := by
  have hlen : ¬ returns.length = 0 := by
    intro h0
    rw [List.length_eq_zero] at h0
    subst h0
    cases h
  exact ⟨returns.sum / (returns.length : ℚ), by rw [snapshot_value, if_neg hlen]; rfl⟩

theorem appendTuple_dnodes (s : SState σ α) (j : Nat) (t : HistoryTuple) :
    (appendTuple s j t).dnodes = s.dnodes := by
  unfold appendTuple
  split <;> rfl

theorem appendTuple_cnodes (s : SState σ α) (j : Nat) (t : HistoryTuple) :
    (appendTuple s j t).cnodes = s.cnodes := by
  unfold appendTuple
  split <;> rfl

theorem uhStep_flat (env : Env σ α) (rec : SState σ α → Nat → Except Err (SState σ α))
    (s : SState σ α) (cid : Nat)
    (hch : ∀ x, (s.cnode x).children = ([] : List Nat)) :
    ∃ s', uhStep env rec s cid = .ok s' ∧ s'.dnodes = s.dnodes ∧ s'.cnodes = s.cnodes := by
  by_cases he : (s.cnode cid).sampled_returns.isEmpty
  · exact ⟨s, by simp [uhStep, he], rfl, rfl⟩
  · obtain ⟨v, hv⟩ := snapshot_ok (s.cnode cid).sampled_returns
      (Bool.not_eq_true _ ▸ Bool.of_not_eq_true he)
    cases hf : findHistFirst s.histories env.equality_operator
        (s.dnode (s.cnode cid).parent).state (s.cnode cid).action with
    | some j =>
      refine ⟨appendTuple s j ⟨(s.cnode cid).depth, v⟩, ?_,
        appendTuple_dnodes s j _, appendTuple_cnodes s j _⟩
      simp only [uhStep, he, Bool.false_eq_true, if_false, hv, exc_bind_ok, hf]
      rw [hch cid]
      rfl
    | none =>
      refine ⟨{ s with histories := s.histories ++
        [⟨(s.dnode (s.cnode cid).parent).state, (s.cnode cid).action,
          [⟨(s.cnode cid).depth, v⟩]⟩] }, ?_, rfl, rfl⟩
      simp only [uhStep, he, Bool.false_eq_true, if_false, hv, exc_bind_ok, hf]
      rw [hch cid]
      rfl

theorem foldlM_uhStep_flat (env : Env σ α)
    (rec : SState σ α → Nat → Except Err (SState σ α)) :
    ∀ (l : List Nat) (s : SState σ α),
      (∀ x, (s.cnode x).children = ([] : List Nat)) →
      ∃ s', l.foldlM (uhStep env rec) s = .ok s' ∧
        s'.dnodes = s.dnodes ∧ s'.cnodes = s.cnodes := by
  intro l
  induction l with
  | nil => exact fun s _ => ⟨s, rfl, rfl, rfl⟩
  | cons x xs ih =>
    intro s hch
    obtain ⟨s₁, h1, hd1, hc1⟩ := uhStep_flat env rec s x hch
    obtain ⟨s₂, h2, hd2, hc2⟩ := ih s₁ (fun y => by rw [cnode_congr s₁ s hc1]; exact hch y)
    refine ⟨s₂, ?_, by rw [hd2, hd1], by rw [hc2, hc1]⟩
    rw [List.foldlM_cons, h1]
    simpa using h2

theorem extract_flat (env : Env σ α) (s : SState σ α)
    (hh : ∀ x, histContents s (s.cnode x) = []) :
    extract_data env s 0 = .ok [] := by
  unfold extract_data
  have : ∀ (l : List Nat) (acc : List (α × List ℚ × ℚ)),
      l.foldlM (fun data cid =>
        (histContents s (s.cnode cid)).foldlM
          (fun data h => do
            let sv ← snapshot_value (s.cnode cid).sampled_returns
            pure (data ++
              [((s.cnode cid).action,
                env.encode (s.dnode (s.cnode cid).parent).state ++ [(h.depth : ℚ), h.value],
                sv)]))
          data) acc = .ok acc := by
    intro l
    induction l with
    | nil => intro acc; rfl
    | cons x xs ih =>
      intro acc
      rw [List.foldlM_cons, hh x]
      simpa using ih acc
  exact this _ []

theorem maxStep_some (f : Nat → Except Err ℚ) (best : Nat × ℚ) (y : Nat) (v : ℚ)
    (hv : f y = .ok v) : ∃ best', maxStep f best y = .ok best' := by
  by_cases h : best.2 < v
  · exact ⟨(y, v), by simp [maxStep, hv, h]⟩
  · exact ⟨best, by simp [maxStep, hv, h]⟩

theorem foldlM_maxStep_err (f : Nat → Except Err ℚ) :
    ∀ (xs : List Nat) (n : Nat), n < xs.length →
      (∀ m, m < n → ∃ v, f (xs.getD m 0) = .ok v) →
      f (xs.getD n 0) = .error Err.zeroDiv →
      ∀ acc : Nat × ℚ, xs.foldlM (maxStep f) acc = .error Err.zeroDiv := by
  intro xs
  induction xs with
  | nil => intro n hn; exact absurd hn (by simp)
  | cons y ys ih =>
    intro n hn hok herr acc
    match n with
    | 0 =>
      have hy : f y = .error Err.zeroDiv := herr
      rw [List.foldlM_cons]
      have : maxStep f acc y = .error Err.zeroDiv := by
        simp [maxStep, hy]
      rw [this]
      rfl
    | m + 1 =>
      obtain ⟨v, hv⟩ := hok 0 (Nat.succ_pos m)
      obtain ⟨acc', hacc⟩ := maxStep_some f acc y v hv
      rw [List.foldlM_cons, hacc]
      have := ih m (by simpa using hn)
        (fun m' hm' => hok (m' + 1) (by omega)) herr acc'
      simpa using this

theorem maxByE_err (f : Nat → Except Err ℚ) (l : List Nat) (n : Nat)
    (hn : n < l.length) (h1 : 1 ≤ n)
    (hok : ∀ m, m < n → ∃ v, f (l.getD m 0) = .ok v)
    (herr : f (l.getD n 0) = .error Err.zeroDiv) :
    maxByE f l = .error Err.zeroDiv := by
  match l, hn with
  | x :: xs, hn =>
    obtain ⟨v, hv⟩ := hok 0 h1
    have hx : f x = .ok v := hv
    show (do
      let v ← f x
      let r ← xs.foldlM (maxStep f) (x, v)
      pure r.1 : Except Err Nat) = .error Err.zeroDiv
    rw [hx, exc_bind_ok]
    match n, h1 with
    | n' + 1, _ =>
      rw [foldlM_maxStep_err f xs n' (by simpa using hn)
        (fun m hm => hok (m + 1) (by omega)) herr (x, v)]
      rfl

theorem c9_run (ag : Agent σ α) (env : Env σ α) (ids : List Nat)
    (hlen : ids.length = env.actions.length)
    (hmem : ∀ x ∈ ids, x < env.actions.length) (hnd : ids.Nodup) :
    ∀ (n j : Nat) (st : SState σ α), C9Inv env ids j st → 1 ≤ j →
      j + n ≤ env.actions.length →
      ∃ st', runRollouts ag env false n st = .ok st' ∧ C9Inv env ids (j + n) st' := by
  intro n
  induction n with
  | zero =>
    intro j st hInv hj1 hjn
    exact ⟨st, rfl, by simpa using hInv⟩
  | succ n ih =>
    intro j st hInv hj1 hjn
    obtain ⟨st', hstep, hInv'⟩ := c9_step ag env ids j st hInv hlen hmem hnd hj1 (by omega)
    obtain ⟨st'', hrun, hInv''⟩ := ih (j + 1) st' hInv' (by omega) (by omega)
    refine ⟨st'', ?_, ?_⟩
    · simp only [runRollouts]
      rw [hstep]
      simpa using hrun
    · have : j + (n + 1) = j + 1 + n := by omega
      rw [this]
      exact hInv''

/-- C9: with a non-terminal root over `k ≥ 1` enumerated actions and fewer
rollouts than actions (fresh agent, `random.shuffle` a true permutation), the
rollout phase completes leaving a root child chance node with empty
`sampled_returns`, and `act` — whose final `max(root.children,
key=self.inferred_value)` evaluates `inferred_value`, hence `snapshot_value`, on
that child — fails with the `ZeroDivisionError` instead of returning an action.
Contrapositive: a normal return requires `rollouts ≥` number of actions. -/
theorem c9_rollouts_lt_actions_zero_div (ag : Agent σ α) (env : Env σ α)
    (HS : ∀ n l, (ag.shuffle n l).Perm l)
    (h1 : 1 ≤ ag.rollouts) (hlt : ag.rollouts < env.actions.length) :
    (∃ stN, runRollouts ag env false ag.rollouts (initState env [] false) = .ok stN ∧
      ∃ cid ∈ (stN.dnode 0).children, (stN.cnode cid).sampled_returns = []) ∧
    act ag env [] false = .error .zeroDiv := by
  have hk : 1 ≤ env.actions.length := by omega
  have hlen := ids0_length ag env HS
  have hmem := ids0_mem ag env HS
  have hnd := ids0_nodup ag env HS
  obtain ⟨st₁, hfirst, hInv1⟩ := c9_first ag env HS hk
  obtain ⟨stN, hrunN, hInvN⟩ := c9_run ag env (ids0 ag env) hlen hmem hnd
    (ag.rollouts - 1) 1 st₁ hInv1 le_rfl (by omega)
  have hNval : 1 + (ag.rollouts - 1) = ag.rollouts := by omega
  rw [hNval] at hInvN
  obtain ⟨hdn, hclen, hcn, hfull, hempty, hhist⟩ := hInvN
  have hroll : runRollouts ag env false ag.rollouts (initState env [] false) = .ok stN := by
    obtain ⟨n', hn'⟩ : ∃ n', ag.rollouts = n' + 1 := ⟨ag.rollouts - 1, by omega⟩
    rw [hn']
    simp only [runRollouts]
    rw [hfirst]
    have hn'' : n' = ag.rollouts - 1 := by omega
    rw [hn'']
    simpa using hrunN
  have hrootN : stN.dnode 0 = ⟨none, env.state, false, 0, ids0 ag env, ag.rollouts, ag.rollouts⟩ := by
    simp [SState.dnode, hdn]
  have hNlt : ag.rollouts < (ids0 ag env).length := by rw [hlen]; exact hlt
  have hcidN : (ids0 ag env).getD ag.rollouts 0 < env.actions.length :=
    hmem _ (getD_mem_of_lt _ _ hNlt)
  have hemptyN : (stN.cnode ((ids0 ag env).getD ag.rollouts 0)).sampled_returns = [] :=
    hempty ag.rollouts le_rfl hNlt
  constructor
  · exact ⟨stN, hroll, (ids0 ag env).getD ag.rollouts 0,
      by rw [hrootN]; exact getD_mem_of_lt _ _ hNlt, hemptyN⟩
  -- the post-rollout pipeline
  have hflat : ∀ x, (stN.cnode x).children = ([] : List Nat) := by
    intro x
    by_cases hx : x < stN.cnodes.length
    · exact (hcn x hx).2.1
    · rw [cnode_oor stN x hx]
  obtain ⟨stH, hH, hHd, hHc⟩ := foldlM_uhStep_flat env
    (update_histories env stN.dnodes.length) ((stN.dnode 0).children) stN hflat
  have hupd : update_histories env (stN.dnodes.length + 1) stN 0 = .ok stH := by
    simp only [update_histories]
    exact hH
  have hhistflat : ∀ x, histContents stH (stH.cnode x) = [] := by
    intro x
    rw [cnode_congr stH stN hHc]
    apply histContents_none
    by_cases hx : x < stN.cnodes.length
    · exact (hcn x hx).2.2
    · rw [cnode_oor stN x hx]
  have hext : extract_data env stH 0 = .ok [] := extract_flat env stH hhistflat
  have hum : update_model env stH = .ok stH := by
    simp only [update_model]
    rw [hext]
    rfl
  have hHroot : stH.dnode 0 = ⟨none, env.state, false, 0, ids0 ag env, ag.rollouts, ag.rollouts⟩ := by
    rw [dnode_congr stH stN hHd]
    exact hrootN
  have hmax : maxByE (inferred_value ag env stH) ((stH.dnode 0).children)
      = .error Err.zeroDiv := by
    rw [hHroot]
    apply maxByE_err (inferred_value ag env stH) (ids0 ag env) ag.rollouts hNlt h1
    · intro m hm
      have hmlt : m < (ids0 ag env).length := by omega
      have hxk : (ids0 ag env).getD m 0 < env.actions.length :=
        hmem _ (getD_mem_of_lt _ _ hmlt)
      have hne : (stN.cnode ((ids0 ag env).getD m 0)).sampled_returns ≠ [] :=
        hfull m hm hmlt
      obtain ⟨v, hv⟩ := snapshot_ok (stN.cnode ((ids0 ag env).getD m 0)).sampled_returns
        (by cases h : (stN.cnode ((ids0 ag env).getD m 0)).sampled_returns with
          | nil => exact absurd h hne
          | cons a l => rfl)
      refine ⟨v, ?_⟩
      rw [inferred_value, cnode_congr stH stN hHc]
      rw [if_pos (by rw [histContents_none stH _ ((hcn _ (by rw [hclen]; exact hxk)).2.2)]; rfl)]
      exact hv
    · rw [inferred_value, cnode_congr stH stN hHc]
      rw [if_pos (by rw [histContents_none stH _ ((hcn _ (by rw [hclen]; exact hcidN)).2.2)]; rfl)]
      rw [snapshot_value, if_pos (by rw [hemptyN]; rfl)]
      rfl
  show (do
    let st ← runRollouts ag env false ag.rollouts (initState env [] false)
    let st ← update_histories env (st.dnodes.length + 1) st 0
    let st ← update_model env st
    let best ← maxByE (inferred_value ag env st) (st.dnode 0).children
    pure ((st.cnode best).action, st) : Except Err (α × SState σ α)) = .error .zeroDiv
  rw [hroll, exc_bind_ok, hupd, exc_bind_ok, hum, exc_bind_ok, hmax]
  rfl

/-- A two-action environment (every transition terminal), for the C9 witness. -/
def envC : Env Nat Nat :=
  { state := 0, actions := [0, 1],
    transition := fun s _ _ => (s + 1, 1, true),
    equality_operator := fun a b => a == b,
    sample := fun _ => 0,
    encode := fun s => [(s : ℚ)] }

/-- `agA` with a single rollout. -/
def agC : Agent Nat Nat := { agA with rollouts := 1 }

/-- Witness for `c9_rollouts_lt_actions_zero_div` at a concrete input
(1 rollout, 2 actions). -/
theorem c9_rollouts_lt_actions_zero_div_witness :
    ((∀ n l, (agC.shuffle n l).Perm l) ∧ 1 ≤ agC.rollouts ∧
      agC.rollouts < envC.actions.length) ∧
    ((∃ stN, runRollouts agC envC false agC.rollouts (initState envC [] false) = .ok stN ∧
        ∃ cid ∈ (stN.dnode 0).children, (stN.cnode cid).sampled_returns = []) ∧
      act agC envC [] false = .error .zeroDiv) :=
  ⟨⟨fun _ l => List.Perm.refl l, by decide, by decide⟩,
   c9_rollouts_lt_actions_zero_div agC envC (fun _ l => List.Perm.refl l)
     (by decide) (by decide)⟩

end C9

/-! ## Search-tree invariant (for C5, C7, C10) -/

section Inv

variable [Inhabited σ] [Inhabited α] [DecidableEq α]

instance optForallSome (o : Option Nat) (P : Nat → Prop) [DecidablePred P] :
    Decidable (∀ p, o = some p → P p) :=
  match o with
  | none => isTrue (fun _ h => by cases h)
  | some x =>
    decidable_of_iff (P x) ⟨fun h p hp => by cases hp; exact h, fun h => h x rfl⟩

/-- The well-formedness invariant of the search tree, holding at every rollout
boundary of `act`:
* the root (decision node `0`) exists and is the unique parentless decision node;
* parent/child references of both node kinds are in range and mutually
  consistent;
* every decision node has explored at most as many children as it has, at most
  as many as its visit count, and each explored child (a prefix of the children
  list in discovery order) carries at least one sampled return;
* a chance node with children carries at least one sampled return. -/
def Inv (st : SState σ α) : Prop :=
  0 < st.dnodes.length ∧
  (∀ i, i < st.dnodes.length → ((st.dnode i).parent = none → i = 0)) ∧
  ((st.dnode 0).parent = none) ∧
  (∀ i, i < st.dnodes.length → ∀ p, (st.dnode i).parent = some p →
    p < st.cnodes.length ∧ i ∈ (st.cnode p).children) ∧
  (∀ c, c < st.cnodes.length → (st.cnode c).parent < st.dnodes.length) ∧
  (∀ i, i < st.dnodes.length → ∀ c ∈ (st.dnode i).children,
    c < st.cnodes.length ∧ (st.cnode c).parent = i) ∧
  (∀ c, c < st.cnodes.length → ∀ d ∈ (st.cnode c).children,
    d < st.dnodes.length ∧ (st.dnode d).parent = some c) ∧
  (∀ i, i < st.dnodes.length →
    (st.dnode i).explored_children ≤ (st.dnode i).children.length ∧
    (st.dnode i).explored_children ≤ (st.dnode i).visits ∧
    (∀ m, m < (st.dnode i).explored_children →
      (st.cnode ((st.dnode i).children.getD m 0)).sampled_returns ≠ [])) ∧
  (∀ c, c < st.cnodes.length → (st.cnode c).children ≠ [] →
    (st.cnode c).sampled_returns ≠ []) ∧
  (∀ c, c < st.cnodes.length → c ∈ (st.dnode (st.cnode c).parent).children) ∧
  (∀ c, c < st.cnodes.length → (st.cnode c).depth = (st.dnode (st.cnode c).parent).depth) ∧
  (∀ i, i < st.dnodes.length → ∀ p, (st.dnode i).parent = some p →
    (st.dnode i).depth = (st.cnode p).depth + 1)

theorem inv_init (env : Env σ α) (h₀ : List (History σ α)) (done : Bool) :
    Inv (initState env h₀ done) := by
  refine ⟨by simp [initState], ?_, by simp [initState, SState.dnode],
    ?_, ?_, ?_, ?_, ?_, ?_, ?_, ?_, ?_⟩
  · intro i hi _
    simp [initState] at hi
    omega
  · intro i hi p hp
    simp [initState] at hi
    subst hi
    simp [initState, SState.dnode] at hp
  · intro c hc
    simp [initState] at hc
  · intro i hi c hcm
    simp [initState] at hi
    subst hi
    simp [initState, SState.dnode] at hcm
  · intro c hc
    simp [initState] at hc
  · intro i hi
    simp [initState] at hi
    subst hi
    simp [initState, SState.dnode]
  · intro c hc
    simp [initState] at hc
  · intro c hc
    simp [initState] at hc
  · intro c hc
    simp [initState] at hc
  · intro i hi p hp
    simp [initState] at hi
    subst hi
    simp [initState, SState.dnode] at hp

theorem foldlM_maxStep_mem (f : Nat → Except Err ℚ) :
    ∀ (xs : List Nat) (acc r : Nat × ℚ),
      xs.foldlM (maxStep f) acc = .ok r → r.1 = acc.1 ∨ r.1 ∈ xs := by
  intro xs
  induction xs with
  | nil =>
    intro acc r h
    left
    cases h
    rfl
  | cons y ys ih =>
    intro acc r h
    rw [List.foldlM_cons] at h
    cases hms : maxStep f acc y with
    | error e => rw [hms] at h; cases h
    | ok acc' =>
      rw [hms, exc_bind_ok] at h
      have hstep : acc'.1 = acc.1 ∨ acc'.1 = y := by
        unfold maxStep at hms
        cases hf : f y with
        | error e => rw [hf] at hms; cases hms
        | ok w =>
          rw [hf, exc_bind_ok] at hms
          by_cases hlt : acc.2 < w
          · rw [if_pos hlt] at hms; cases hms; right; rfl
          · rw [if_neg hlt] at hms; cases hms; left; rfl
      rcases ih acc' r h with h1 | h2
      · rcases hstep with h3 | h4
        · left; rw [h1, h3]
        · right; rw [h1, h4]; exact List.mem_cons_self y ys
      · right; exact List.mem_cons_of_mem y h2

theorem maxByE_cons (f : Nat → Except Err ℚ) (x : Nat) (xs : List Nat) :
    maxByE f (x :: xs) = (do
      let v ← f x
      let r ← xs.foldlM (maxStep f) (x, v)
      pure r.1 : Except Err Nat) := rfl

theorem maxByE_ok_mem (f : Nat → Except Err ℚ) (l : List Nat) (r : Nat)
    (h : maxByE f l = .ok r) : r ∈ l := by
  match l with
  | [] => cases h
  | x :: xs =>
    rw [maxByE_cons] at h
    cases hf : f x with
    | error e => rw [hf] at h; cases h
    | ok v =>
      rw [hf, exc_bind_ok] at h
      cases hfold : xs.foldlM (maxStep f) (x, v) with
      | error e => rw [hfold] at h; cases h
      | ok rr =>
        rw [hfold, exc_bind_ok] at h
        cases h
        rcases foldlM_maxStep_mem f xs (x, v) rr hfold with h1 | h2
        · rw [h1]; exact List.mem_cons_self x xs
        · exact List.mem_cons_of_mem x h2

theorem foldlM_maxStep_err_any (f : Nat → Except Err ℚ) :
    ∀ (xs : List Nat) (acc : Nat × ℚ) (e : Err),
      xs.foldlM (maxStep f) acc = .error e → ∃ x ∈ xs, f x = .error e := by
  intro xs
  induction xs with
  | nil => intro acc e h; cases h
  | cons y ys ih =>
    intro acc e h
    rw [List.foldlM_cons] at h
    cases hms : maxStep f acc y with
    | error e' =>
      rw [hms] at h
      cases h
      have : f y = .error e := by
        unfold maxStep at hms
        cases hf : f y with
        | error e'' => rw [hf] at hms; cases hms; rfl
        | ok w =>
          rw [hf, exc_bind_ok] at hms
          by_cases hlt : acc.2 < w
          · rw [if_pos hlt] at hms; cases hms
          · rw [if_neg hlt] at hms; cases hms
      exact ⟨y, List.mem_cons_self y ys, this⟩
    | ok acc' =>
      rw [hms, exc_bind_ok] at h
      obtain ⟨x, hx, hfx⟩ := ih acc' e h
      exact ⟨x, List.mem_cons_of_mem y hx, hfx⟩

theorem maxByE_err_shape (f : Nat → Except Err ℚ) (l : List Nat) (e : Err)
    (h : maxByE f l = .error e) : e = .valueError ∨ ∃ x ∈ l, f x = .error e := by
  match l with
  | [] =>
    cases h
    exact Or.inl rfl
  | x :: xs =>
    rw [maxByE_cons] at h
    cases hf : f x with
    | error e' =>
      rw [hf] at h
      cases h
      exact Or.inr ⟨x, List.mem_cons_self x xs, hf⟩
    | ok v =>
      rw [hf, exc_bind_ok] at h
      cases hfold : xs.foldlM (maxStep f) (x, v) with
      | error e' =>
        rw [hfold] at h
        cases h
        obtain ⟨y, hy, hfy⟩ := foldlM_maxStep_err_any f xs (x, v) e hfold
        exact Or.inr ⟨y, List.mem_cons_of_mem x hy, hfy⟩
      | ok rr => rw [hfold, exc_bind_ok] at h; cases h

theorem inferred_value_ok (ag : Agent σ α) (env : Env σ α) (st : SState σ α) (cid : Nat)
    (h : (st.cnode cid).sampled_returns ≠ []) :
    ∃ v, inferred_value ag env st cid = .ok v := by
  have hne : (st.cnode cid).sampled_returns.isEmpty = false := by
    cases hr : (st.cnode cid).sampled_returns with
    | nil => exact absurd hr h
    | cons a l => rfl
  obtain ⟨v, hv⟩ := snapshot_ok _ hne
  unfold inferred_value
  by_cases hh : (histContents st (st.cnode cid)).isEmpty
  · exact ⟨v, by rw [if_pos hh]; exact hv⟩
  · refine ⟨ag.predict (st.cnode cid).action
      (env.encode (st.dnode (st.cnode cid).parent).state ++
        [(((st.cnode cid).depth : ℚ)), v]), ?_⟩
    rw [if_neg hh, hv, exc_bind_ok, exc_pure]

theorem inferred_value_err (ag : Agent σ α) (env : Env σ α) (st : SState σ α)
    (cid : Nat) (e : Err) (h : inferred_value ag env st cid = .error e) :
    e = .zeroDiv := by
  unfold inferred_value at h
  by_cases hh : (histContents st (st.cnode cid)).isEmpty
  · rw [if_pos hh] at h
    unfold snapshot_value at h
    by_cases hl : (st.cnode cid).sampled_returns.length = 0
    · rw [if_pos hl] at h; cases h; rfl
    · rw [if_neg hl] at h; cases h
  · rw [if_neg hh] at h
    unfold snapshot_value at h
    by_cases hl : (st.cnode cid).sampled_returns.length = 0
    · rw [if_pos hl] at h; cases h; rfl
    · rw [if_neg hl, exc_pure, exc_bind_ok] at h; cases h

theorem ucb_ok (ag : Agent σ α) (env : Env σ α) (st : SState σ α) (cid : Nat)
    (h1 : (st.cnode cid).sampled_returns ≠ [])
    (h2 : (st.dnode (st.cnode cid).parent).visits ≠ 0) :
    ∃ v, ucb ag env st cid = .ok v := by
  obtain ⟨v, hv⟩ := inferred_value_ok ag env st cid h1
  refine ⟨v + ag.ucb_constant * ag.sqrtFn
    (ag.logFn (((st.dnode (st.cnode cid).parent).visits : ℚ)) /
      (((st.cnode cid).sampled_returns.length : ℚ))), ?_⟩
  unfold ucb
  rw [if_neg (by
    push_neg
    exact ⟨fun hl => h1 (List.length_eq_zero.1 hl), h2⟩)]
  rw [hv, exc_bind_ok, exc_pure]

section BpMore

variable (gamma : ℚ) (st : SState σ α) (i : Nat) (rews : List ℚ) (e : ℚ)

theorem bpStep_cnode_action (j : Nat) :
    ((bpStep gamma st i rews e).1.cnode j).action = (st.cnode j).action := by
  rw [bpStep_cnode]
  by_cases hj : i = j
  · subst hj
    by_cases hi : i < st.cnodes.length
    · rw [bpMid_cnode_self st i rews e hi]
    · rw [bpMid_cnode_stale st i rews e hi]
  · rw [bpMid_cnode_ne st i rews e j hj]

theorem bpStep_cnode_depth (j : Nat) :
    ((bpStep gamma st i rews e).1.cnode j).depth = (st.cnode j).depth := by
  rw [bpStep_cnode]
  by_cases hj : i = j
  · subst hj
    by_cases hi : i < st.cnodes.length
    · rw [bpMid_cnode_self st i rews e hi]
    · rw [bpMid_cnode_stale st i rews e hi]
  · rw [bpMid_cnode_ne st i rews e j hj]

theorem bpStep_dnode_state (j : Nat) :
    ((bpStep gamma st i rews e).1.dnode j).state = (st.dnode j).state := by
  rw [bpStep_dnode]
  split <;> rfl

theorem bpStep_dnode_terminal (j : Nat) :
    ((bpStep gamma st i rews e).1.dnode j).is_terminal = (st.dnode j).is_terminal := by
  rw [bpStep_dnode]
  split <;> rfl

theorem bpStep_dnode_depth (j : Nat) :
    ((bpStep gamma st i rews e).1.dnode j).depth = (st.dnode j).depth := by
  rw [bpStep_dnode]
  split <;> rfl

theorem bpStep_dnode_children (j : Nat) :
    ((bpStep gamma st i rews e).1.dnode j).children = (st.dnode j).children := by
  rw [bpStep_dnode]
  split <;> rfl

theorem bpStep_dnode_explored (j : Nat) :
    ((bpStep gamma st i rews e).1.dnode j).explored_children
      = (st.dnode j).explored_children := by
  rw [bpStep_dnode]
  split <;> rfl

theorem bpStep_dnode_visits_ge (j : Nat) :
    (st.dnode j).visits ≤ ((bpStep gamma st i rews e).1.dnode j).visits := by
  rw [bpStep_dnode]
  split
  · exact Nat.le_succ _
  · exact Nat.le_refl _

end BpMore

end Inv

section BpSpec

variable [Inhabited σ] [Inhabited α] [DecidableEq α]

theorem bp_step_eq (gamma : ℚ) (fuel : Nat) (st : SState σ α) (i : Nat)
    (rews : List ℚ) (est : ℚ) :
    backpropLoop gamma (fuel + 1) st (some (.cn i)) rews est
      = backpropLoop gamma fuel (bpStep gamma st i rews est).1
          (bpStep gamma st i rews est).2.1 (bpStep gamma st i rews est).2.2.1
          (bpStep gamma st i rews est).2.2.2 := rfl

/-- Everything the rollout analysis needs from one successful run of the
backpropagation loop started at a chance node `i` of a well-wired tree: sizes,
histories and update batches are untouched, only ghost `bp` events are logged,
all structural node fields are preserved, visit counts only grow (and the start
node's parent gains at least one), `sampled_returns` only receive appends,
chance nodes at depth at least the start node's get exactly the start append,
a chance node whose returns changed is the start node or already had a return,
and some root child gains a return. -/
theorem bp_spec (gamma : ℚ) :
    ∀ (fuel : Nat) (st : SState σ α) (i : Nat) (rews : List ℚ) (est : ℚ)
      (st' : SState σ α),
      backpropLoop gamma fuel st (some (.cn i)) rews est = .ok st' →
      (∀ c, c < st.cnodes.length → (st.cnode c).parent < st.dnodes.length) →
      (∀ c, c < st.cnodes.length → c ∈ (st.dnode (st.cnode c).parent).children) →
      (∀ j, j < st.dnodes.length → (st.dnode j).parent = none → j = 0) →
      (∀ j, j < st.dnodes.length → ∀ p, (st.dnode j).parent = some p →
        p < st.cnodes.length ∧ j ∈ (st.cnode p).children) →
      (∀ c, c < st.cnodes.length → (st.cnode c).children ≠ [] →
        (st.cnode c).sampled_returns ≠ []) →
      (∀ c, c < st.cnodes.length →
        (st.cnode c).depth = (st.dnode (st.cnode c).parent).depth) →
      (∀ j, j < st.dnodes.length → ∀ p, (st.dnode j).parent = some p →
        (st.dnode j).depth = (st.cnode p).depth + 1) →
      i < st.cnodes.length →
      st'.dnodes.length = st.dnodes.length ∧
      st'.cnodes.length = st.cnodes.length ∧
      st'.histories = st.histories ∧
      st'.updates = st.updates ∧
      (∃ L, st'.evLog = st.evLog ++ L ∧ ∀ ev ∈ L, ∀ c, ev ≠ Event.transAt c) ∧
      (∀ j, (st'.cnode j).parent = (st.cnode j).parent ∧
            (st'.cnode j).action = (st.cnode j).action ∧
            (st'.cnode j).depth = (st.cnode j).depth ∧
            (st'.cnode j).children = (st.cnode j).children ∧
            (st'.cnode j).history = (st.cnode j).history ∧
            ∃ ext, (st'.cnode j).sampled_returns = (st.cnode j).sampled_returns ++ ext) ∧
      (∀ j, (st'.dnode j).parent = (st.dnode j).parent ∧
            (st'.dnode j).state = (st.dnode j).state ∧
            (st'.dnode j).is_terminal = (st.dnode j).is_terminal ∧
            (st'.dnode j).depth = (st.dnode j).depth ∧
            (st'.dnode j).children = (st.dnode j).children ∧
            (st'.dnode j).explored_children = (st.dnode j).explored_children ∧
            (st.dnode j).visits ≤ (st'.dnode j).visits) ∧
      (st.dnode ((st.cnode i).parent)).visits + 1
        ≤ (st'.dnode ((st.cnode i).parent)).visits ∧
      (∀ j, (st.cnode i).depth ≤ (st.cnode j).depth →
        (st'.cnode j).sampled_returns
          = (st.cnode j).sampled_returns ++ (if j = i then [est] else [])) ∧
      (∀ j, (st'.cnode j).sampled_returns ≠ (st.cnode j).sampled_returns →
        j = i ∨ (st.cnode j).sampled_returns ≠ []) ∧
      (∃ c ∈ (st.dnode 0).children,
        (st.cnode c).sampled_returns.length + 1
          ≤ (st'.cnode c).sampled_returns.length) := by
  intro fuel
  induction fuel with
  | zero =>
    intro st i rews est st' h
    cases h
  | succ fuel ih =>
    intro st i rews est st' h hW5 hW4b hW2 hW4 hW8 hD1 hD2 hi
    rw [bp_step_eq, bpStep_rews, bpStep_next] at h
    have hp : (st.cnode i).parent < st.dnodes.length := hW5 i hi
    cases hnext : (st.dnode (st.cnode i).parent).parent with
    | none =>
      rw [hnext] at h
      simp only [Option.map_none'] at h
      cases fuel with
      | zero => cases h
      | succ fuel =>
        have h2 : (Except.ok ((bpStep gamma st i rews est).1) : Except Err (SState σ α))
            = Except.ok st' := h
        cases h2
        refine ⟨bpStep_dlen gamma st i rews est, bpStep_clen gamma st i rews est,
          bpStep_histories gamma st i rews est, bpStep_updates gamma st i rews est,
          ⟨[Event.bp i (st.cnode i).parent est (rews.reverse[0]?)],
            bpStep_evLog gamma st i rews est, ?_⟩, ?_, ?_, ?_, ?_, ?_, ?_⟩
        · intro ev hev c
          rcases List.mem_singleton.1 hev with rfl
          intro hcon
          cases hcon
        · intro j
          exact ⟨bpStep_cnode_parent gamma st i rews est j,
            bpStep_cnode_action gamma st i rews est j,
            bpStep_cnode_depth gamma st i rews est j,
            bpStep_cnode_children gamma st i rews est j,
            bpStep_cnode_history gamma st i rews est j,
            if i = j then [est] else [], bpStep_cnode_returns gamma st i rews est j hi⟩
        · intro j
          exact ⟨bpStep_dnode_parent gamma st i rews est j,
            bpStep_dnode_state gamma st i rews est j,
            bpStep_dnode_terminal gamma st i rews est j,
            bpStep_dnode_depth gamma st i rews est j,
            bpStep_dnode_children gamma st i rews est j,
            bpStep_dnode_explored gamma st i rews est j,
            bpStep_dnode_visits_ge gamma st i rews est j⟩
        · rw [bpStep_dnode_visits gamma st i rews est ((st.cnode i).parent) hp, if_pos rfl]
        · intro j _
          rw [bpStep_cnode_returns gamma st i rews est j hi]
          by_cases hji : j = i
          · subst hji
            rfl
          · rw [if_neg hji, if_neg (fun hij => hji hij.symm)]
        · intro j hne
          by_cases hij : i = j
          · exact Or.inl hij.symm
          · rw [bpStep_cnode_returns gamma st i rews est j hi, if_neg hij,
              List.append_nil] at hne
            exact absurd rfl hne
        · refine ⟨i, ?_, ?_⟩
          · have hmem := hW4b i hi
            rwa [hW2 ((st.cnode i).parent) hp hnext] at hmem
          · rw [bpStep_cnode_returns gamma st i rews est i hi, if_pos rfl]
            simp
    | some q =>
      rw [hnext] at h
      simp only [Option.map_some'] at h
      have hq := hW4 ((st.cnode i).parent) hp q hnext
      have hres := ih ((bpStep gamma st i rews est).1) q rews.dropLast
        ((bpStep gamma st i rews est).2.2.2) st' h
        (by
          intro c hc
          rw [bpStep_clen] at hc
          rw [bpStep_cnode_parent, bpStep_dlen]
          exact hW5 c hc)
        (by
          intro c hc
          rw [bpStep_clen] at hc
          rw [bpStep_cnode_parent, bpStep_dnode_children]
          exact hW4b c hc)
        (by
          intro j hj hpn
          rw [bpStep_dlen] at hj
          rw [bpStep_dnode_parent] at hpn
          exact hW2 j hj hpn)
        (by
          intro j hj p2 hp2
          rw [bpStep_dlen] at hj
          rw [bpStep_dnode_parent] at hp2
          rw [bpStep_clen]
          refine ⟨(hW4 j hj p2 hp2).1, ?_⟩
          rw [bpStep_cnode_children]
          exact (hW4 j hj p2 hp2).2)
        (by
          intro c hc hcne
          rw [bpStep_clen] at hc
          rw [bpStep_cnode_children] at hcne
          rw [bpStep_cnode_returns gamma st i rews est c hi]
          intro h0
          exact hW8 c hc hcne (List.append_eq_nil.1 h0).1)
        (by
          intro c hc
          rw [bpStep_clen] at hc
          rw [bpStep_cnode_depth, bpStep_cnode_parent, bpStep_dnode_depth]
          exact hD1 c hc)
        (by
          intro j hj p2 hp2
          rw [bpStep_dlen] at hj
          rw [bpStep_dnode_parent] at hp2
          rw [bpStep_dnode_depth, bpStep_cnode_depth]
          exact hD2 j hj p2 hp2)
        (by
          rw [bpStep_clen]
          exact hq.1)
      obtain ⟨e1, e2, e3, e4, ⟨L2, hL2, hLev⟩, hcn, hdn, hpv, hex, hch, c0, hc0mem, hc0len⟩
        := hres
      have hdq : (st.cnode q).depth + 1 = (st.cnode i).depth := by
        have h1 := hD1 i hi
        have h2 := hD2 ((st.cnode i).parent) hp q hnext
        omega
      refine ⟨e1.trans (bpStep_dlen gamma st i rews est),
        e2.trans (bpStep_clen gamma st i rews est),
        e3.trans (bpStep_histories gamma st i rews est),
        e4.trans (bpStep_updates gamma st i rews est),
        ⟨Event.bp i (st.cnode i).parent est (rews.reverse[0]?) :: L2, ?_, ?_⟩,
        ?_, ?_, ?_, ?_, ?_, ?_⟩
      · rw [hL2, bpStep_evLog]
        simp
      · intro ev hev c
        rcases List.mem_cons.1 hev with rfl | hev2
        · intro hcon
          cases hcon
        · exact hLev ev hev2 c
      · intro j
        refine ⟨(hcn j).1.trans (bpStep_cnode_parent gamma st i rews est j),
          (hcn j).2.1.trans (bpStep_cnode_action gamma st i rews est j),
          (hcn j).2.2.1.trans (bpStep_cnode_depth gamma st i rews est j),
          (hcn j).2.2.2.1.trans (bpStep_cnode_children gamma st i rews est j),
          (hcn j).2.2.2.2.1.trans (bpStep_cnode_history gamma st i rews est j), ?_⟩
        obtain ⟨ext2, hext2⟩ := (hcn j).2.2.2.2.2
        refine ⟨(if i = j then [est] else []) ++ ext2, ?_⟩
        rw [hext2, bpStep_cnode_returns gamma st i rews est j hi, List.append_assoc]
      · intro j
        refine ⟨(hdn j).1.trans (bpStep_dnode_parent gamma st i rews est j),
          (hdn j).2.1.trans (bpStep_dnode_state gamma st i rews est j),
          (hdn j).2.2.1.trans (bpStep_dnode_terminal gamma st i rews est j),
          (hdn j).2.2.2.1.trans (bpStep_dnode_depth gamma st i rews est j),
          (hdn j).2.2.2.2.1.trans (bpStep_dnode_children gamma st i rews est j),
          (hdn j).2.2.2.2.2.1.trans (bpStep_dnode_explored gamma st i rews est j),
          le_trans (bpStep_dnode_visits_ge gamma st i rews est j) (hdn j).2.2.2.2.2.2⟩
      · have hstep : (((bpStep gamma st i rews est).1).dnode ((st.cnode i).parent)).visits
            = (st.dnode ((st.cnode i).parent)).visits + 1 := by
          rw [bpStep_dnode_visits gamma st i rews est ((st.cnode i).parent) hp, if_pos rfl]
        have hmono := (hdn ((st.cnode i).parent)).2.2.2.2.2.2
        omega
      · intro j hdj
        have hjne : j ≠ q := by
          intro hjq
          subst hjq
          omega
        have hstep := hex j (by
          rw [bpStep_cnode_depth, bpStep_cnode_depth]
          omega)
        rw [bpStep_cnode_returns gamma st i rews est j hi] at hstep
        rw [hstep, if_neg hjne, List.append_nil]
        by_cases hji : j = i
        · subst hji
          rfl
        · rw [if_neg hji, if_neg (fun hij => hji hij.symm)]
      · intro j hne
        by_cases hij : i = j
        · exact Or.inl hij.symm
        · have hr1 : (((bpStep gamma st i rews est).1).cnode j).sampled_returns
              = (st.cnode j).sampled_returns := by
            rw [bpStep_cnode_returns gamma st i rews est j hi, if_neg hij, List.append_nil]
          by_cases hne1 : (st'.cnode j).sampled_returns
              = (((bpStep gamma st i rews est).1).cnode j).sampled_returns
          · rw [hne1, hr1] at hne
            exact absurd rfl hne
          · rcases hch j hne1 with hjq | hnem
            · right
              rw [hjq]
              exact hW8 q hq.1 (List.ne_nil_of_mem hq.2)
            · right
              rw [← hr1]
              exact hnem
      · refine ⟨c0, ?_, ?_⟩
        · have := hc0mem
          rwa [bpStep_dnode_children gamma st i rews est 0] at this
        · have hle : (st.cnode c0).sampled_returns.length
              ≤ (((bpStep gamma st i rews est).1).cnode c0).sampled_returns.length := by
            rw [bpStep_cnode_returns gamma st i rews est c0 hi]
            rw [List.length_append]
            omega
          omega

end BpSpec

section SelSpec

variable [Inhabited σ] [Inhabited α] [DecidableEq α]

theorem sel_dn_eq (ag : Agent σ α) (env : Env σ α) (fuel : Nat) (st : SState σ α)
    (i : Nat) (rewards : List ℚ) (sp : Option σ) (terminal : Bool) :
    selectLoop ag env (fuel + 1) st (.dn i) rewards sp terminal =
      if (st.dnode 0).children.isEmpty then
        pure ⟨st, some (.dn i), rewards, sp, terminal, false⟩
      else if (st.dnode i).is_terminal then
        pure ⟨st, ((st.dnode i).parent).map NRef.cn, rewards, sp, terminal, false⟩
      else if (st.dnode i).explored_children < (st.dnode i).children.length then
        pure ⟨st.setDnode i { st.dnode i with
                explored_children := (st.dnode i).explored_children + 1 },
              some (.cn ((st.dnode i).children.getD (st.dnode i).explored_children 0)),
              rewards, sp, terminal, false⟩
      else
        (do
          let best ← maxByE (ucb ag env st) (st.dnode i).children
          selectLoop ag env fuel st (.cn best) rewards sp terminal) := rfl

theorem sel_cn_eq (ag : Agent σ α) (env : Env σ α) (fuel : Nat) (st : SState σ α)
    (i : Nat) (rewards : List ℚ) (sp : Option σ) (terminal : Bool) :
    selectLoop ag env (fuel + 1) st (.cn i) rewards sp terminal =
      if (st.dnode 0).children.isEmpty then
        pure ⟨st, some (.cn i), rewards, sp, terminal, false⟩
      else
        if (st.cnode i).children.isEmpty then
          pure ⟨{ st with tick := st.tick + 1, evLog := st.evLog ++ [Event.transAt i] },
                some (.cn i),
                rewards ++ [(env.transition (st.dnode (st.cnode i).parent).state
                  (st.cnode i).action st.tick).2.1],
                some (env.transition (st.dnode (st.cnode i).parent).state
                  (st.cnode i).action st.tick).1,
                (env.transition (st.dnode (st.cnode i).parent).state
                  (st.cnode i).action st.tick).2.2,
                true⟩
        else if env.equality_operator
            (st.dnode ((st.cnode i).children.getD 0 0)).state
            (env.transition (st.dnode (st.cnode i).parent).state
              (st.cnode i).action st.tick).1 then
          selectLoop ag env fuel
            { st with tick := st.tick + 1, evLog := st.evLog ++ [Event.transAt i] }
            (.dn ((st.cnode i).children.getD 0 0))
            (rewards ++ [(env.transition (st.dnode (st.cnode i).parent).state
              (st.cnode i).action st.tick).2.1])
            (some (env.transition (st.dnode (st.cnode i).parent).state
              (st.cnode i).action st.tick).1)
            (env.transition (st.dnode (st.cnode i).parent).state
              (st.cnode i).action st.tick).2.2
        else
          pure ⟨{ st with tick := st.tick + 1, evLog := st.evLog ++ [Event.transAt i] },
                some (.cn i),
                rewards ++ [(env.transition (st.dnode (st.cnode i).parent).state
                  (st.cnode i).action st.tick).2.1],
                some (env.transition (st.dnode (st.cnode i).parent).state
                  (st.cnode i).action st.tick).1,
                (env.transition (st.dnode (st.cnode i).parent).state
                  (st.cnode i).action st.tick).2.2,
                true⟩ := rfl

theorem mem_getD (l : List Nat) (x : Nat) (hx : x ∈ l) :
    ∃ m, m < l.length ∧ l.getD m 0 = x := by
  obtain ⟨n, hn, hval⟩ := List.mem_iff_getElem.1 hx
  exact ⟨n, hn, by rw [List.getD_eq_getElem l 0 hn]; exact hval⟩

/-- Inside a selection loop run from a well-formed tree, every `ucb` evaluation
succeeds: it is only reached once every child of the decision node is explored,
so each scored chance node has a sampled return and the parent has a visit. -/
theorem ucb_all_ok (ag : Agent σ α) (env : Env σ α) (st : SState σ α) (i : Nat)
    (hi : i < st.dnodes.length)
    (hW6 : ∀ j, j < st.dnodes.length → ∀ c ∈ (st.dnode j).children,
      c < st.cnodes.length ∧ (st.cnode c).parent = j)
    (hJ : ∀ j, j < st.dnodes.length →
      (st.dnode j).explored_children ≤ (st.dnode j).children.length ∧
      (st.dnode j).explored_children ≤ (st.dnode j).visits ∧
      (∀ m, m < (st.dnode j).explored_children →
        (st.cnode ((st.dnode j).children.getD m 0)).sampled_returns ≠ []))
    (hfull : ¬ (st.dnode i).explored_children < (st.dnode i).children.length) :
    ∀ x ∈ (st.dnode i).children, ∃ v, ucb ag env st x = .ok v := by
  intro x hx
  obtain ⟨hxc, hxp⟩ := hW6 i hi x hx
  obtain ⟨m, hm, hval⟩ := mem_getD _ x hx
  obtain ⟨hJ1, hJ2, hJ3⟩ := hJ i hi
  have hret : (st.cnode x).sampled_returns ≠ [] := by
    rw [← hval]
    exact hJ3 m (by omega)
  have hlen : 0 < (st.dnode i).children.length :=
    List.length_pos.2 (List.ne_nil_of_mem hx)
  have hvis : (st.dnode (st.cnode x).parent).visits ≠ 0 := by
    rw [hxp]
    omega
  exact ucb_ok ag env st x hret hvis

/-- The selection loop never raises the division/log domain error: `ucb` is only
evaluated on fully explored children, which all carry sampled returns and a
positive parent visit count. -/
theorem selectLoop_no_sd (ag : Agent σ α) (env : Env σ α) :
    ∀ (fuel : Nat) (st : SState σ α) (node : NRef) (rewards : List ℚ)
      (sp : Option σ) (terminal : Bool),
      (∀ j, j < st.dnodes.length → ∀ c ∈ (st.dnode j).children,
        c < st.cnodes.length ∧ (st.cnode c).parent = j) →
      (∀ j, j < st.dnodes.length →
        (st.dnode j).explored_children ≤ (st.dnode j).children.length ∧
        (st.dnode j).explored_children ≤ (st.dnode j).visits ∧
        (∀ m, m < (st.dnode j).explored_children →
          (st.cnode ((st.dnode j).children.getD m 0)).sampled_returns ≠ [])) →
      selectLoop ag env fuel st node rewards sp terminal ≠ .error .scoreDomain := by
  intro fuel
  induction fuel with
  | zero =>
    intro st node rewards sp terminal _ _ h
    exact Err.noConfusion (Except.error.inj h)
  | succ fuel ih =>
    intro st node rewards sp terminal hW6 hJ
    match node with
    | .dn i =>
      rw [sel_dn_eq]
      by_cases hroot : (st.dnode 0).children.isEmpty = true
      · rw [if_pos hroot]
        exact fun h => Except.noConfusion h
      · rw [if_neg hroot]
        by_cases hterm : (st.dnode i).is_terminal = true
        · rw [if_pos hterm]
          exact fun h => Except.noConfusion h
        · rw [if_neg hterm]
          by_cases hlt : (st.dnode i).explored_children < (st.dnode i).children.length
          · rw [if_pos hlt]
            exact fun h => Except.noConfusion h
          · rw [if_neg hlt]
            by_cases hi : i < st.dnodes.length
            · cases hbest : maxByE (ucb ag env st) (st.dnode i).children with
              | error e =>
                intro h
                have he : e = Err.scoreDomain := Except.error.inj h
                subst he
                rcases maxByE_err_shape _ _ _ hbest with hve | ⟨x, hx, hfx⟩
                · cases hve
                · obtain ⟨v, hv⟩ := ucb_all_ok ag env st i hi hW6 hJ hlt x hx
                  rw [hv] at hfx
                  exact Except.noConfusion hfx
              | ok best =>
                exact ih st (.cn best) rewards sp terminal hW6 hJ
            · have hdef : st.dnode i = ⟨none, default, false, 0, [], 0, 0⟩ := by
                unfold SState.dnode
                rw [List.get?_eq_none.2 (by omega : st.dnodes.length ≤ i)]
              rw [hdef]
              intro h
              exact Err.noConfusion (Except.error.inj h)
    | .cn i =>
      rw [sel_cn_eq]
      by_cases hroot : (st.dnode 0).children.isEmpty = true
      · rw [if_pos hroot]
        exact fun h => Except.noConfusion h
      · rw [if_neg hroot]
        by_cases hce : (st.cnode i).children.isEmpty = true
        · rw [if_pos hce]
          exact fun h => Except.noConfusion h
        · rw [if_neg hce]
          by_cases heq : env.equality_operator
              (st.dnode ((st.cnode i).children.getD 0 0)).state
              (env.transition (st.dnode (st.cnode i).parent).state
                (st.cnode i).action st.tick).1 = true
          · rw [if_pos heq]
            exact ih _ (.dn ((st.cnode i).children.getD 0 0)) _ _ _ hW6 hJ
          · rw [if_neg heq]
            exact fun h => Except.noConfusion h

/-- Validity of the current node handle during selection: a decision node is in
range and its parent (if any) is a chance node holding a sampled return; a
chance node is in range and holds a sampled return. -/
def nodeOK [Inhabited σ] [Inhabited α] (st : SState σ α) : NRef → Prop
  | .dn i => i < st.dnodes.length ∧
      (∀ p, (st.dnode i).parent = some p →
        p < st.cnodes.length ∧ (st.cnode p).sampled_returns ≠ [])
  | .cn i => i < st.cnodes.length ∧ (st.cnode i).sampled_returns ≠ []

/-- Full characterization of a successful selection run from a well-formed
tree: histories, update batches and chance nodes are untouched, the log gains
only transition events at valid chance nodes that already carry a sampled
return, and the run ends in one of three shapes: without touching decision
nodes (immediately at a childless root, stepping past the root, or stopping at
a valid chance node, with the expansion flag set only at a chance node that
carries a return and a sampled next state), or by descending into the next
unexplored child of one decision node, incrementing its exploration counter. -/
theorem selectLoop_spec (ag : Agent σ α) (env : Env σ α) :
    ∀ (fuel : Nat) (st : SState σ α) (node : NRef) (rewards : List ℚ)
      (sp : Option σ) (terminal : Bool) (r : SelRes σ α),
      selectLoop ag env fuel st node rewards sp terminal = .ok r →
      (∀ j, j < st.dnodes.length → ∀ c ∈ (st.dnode j).children,
        c < st.cnodes.length ∧ (st.cnode c).parent = j) →
      (∀ c, c < st.cnodes.length → ∀ d ∈ (st.cnode c).children,
        d < st.dnodes.length ∧ (st.dnode d).parent = some c) →
      (∀ j, j < st.dnodes.length →
        (st.dnode j).explored_children ≤ (st.dnode j).children.length ∧
        (st.dnode j).explored_children ≤ (st.dnode j).visits ∧
        (∀ m, m < (st.dnode j).explored_children →
          (st.cnode ((st.dnode j).children.getD m 0)).sampled_returns ≠ [])) →
      nodeOK st node →
      r.st.histories = st.histories ∧
      r.st.updates = st.updates ∧
      r.st.cnodes = st.cnodes ∧
      (∃ L, r.st.evLog = st.evLog ++ L ∧
        ∀ ev ∈ L, ∃ c, ev = Event.transAt c ∧ c < st.cnodes.length ∧
          (st.cnode c).sampled_returns ≠ []) ∧
      ((r.st.dnodes = st.dnodes ∧ r.expand_chance_node = false ∧
          ((r.node = some node ∧ r.st = st ∧ r.terminal = terminal ∧
             (st.dnode 0).children = [])
           ∨ r.node = none
           ∨ ∃ p, r.node = some (.cn p) ∧ p < st.cnodes.length ∧
               (st.cnode p).sampled_returns ≠ []))
       ∨ (r.st.dnodes = st.dnodes ∧ r.expand_chance_node = true ∧
          ∃ c s2, r.node = some (.cn c) ∧ c < st.cnodes.length ∧
            (st.cnode c).sampled_returns ≠ [] ∧ r.state_p = some s2)
       ∨ (∃ i, i < st.dnodes.length ∧ (st.dnode i).is_terminal = false ∧
          (st.dnode i).explored_children < (st.dnode i).children.length ∧
          r.st.dnodes = st.dnodes.set i { st.dnode i with
            explored_children := (st.dnode i).explored_children + 1 } ∧
          r.node = some (.cn ((st.dnode i).children.getD
            (st.dnode i).explored_children 0)) ∧
          r.expand_chance_node = false)) := by
  intro fuel
  induction fuel with
  | zero =>
    intro st node rewards sp terminal r h
    cases h
  | succ fuel ih =>
    intro st node rewards sp terminal r h hW6 hW7 hJ hnode
    match node with
    | .dn i =>
      obtain ⟨hi, hpar⟩ := hnode
      rw [sel_dn_eq] at h
      by_cases hroot : (st.dnode 0).children.isEmpty = true
      · rw [if_pos hroot] at h
        cases h
        exact ⟨rfl, rfl, rfl, ⟨[], by simp, by simp⟩,
          Or.inl ⟨rfl, rfl, Or.inl ⟨rfl, rfl, rfl, List.isEmpty_iff.1 hroot⟩⟩⟩
      · rw [if_neg hroot] at h
        by_cases hterm : (st.dnode i).is_terminal = true
        · rw [if_pos hterm] at h
          cases h
          refine ⟨rfl, rfl, rfl, ⟨[], by simp, by simp⟩, Or.inl ⟨rfl, rfl, ?_⟩⟩
          cases hpp : (st.dnode i).parent with
          | none => exact Or.inr (Or.inl rfl)
          | some p =>
            exact Or.inr (Or.inr ⟨p, rfl, (hpar p hpp).1, (hpar p hpp).2⟩)
        · rw [if_neg hterm] at h
          by_cases hlt : (st.dnode i).explored_children < (st.dnode i).children.length
          · rw [if_pos hlt] at h
            cases h
            have hterm2 : (st.dnode i).is_terminal = false := by
              revert hterm
              cases (st.dnode i).is_terminal <;> simp
            exact ⟨rfl, rfl, rfl, ⟨[], by simp [SState.setDnode], by simp⟩,
              Or.inr (Or.inr ⟨i, hi, hterm2, hlt, rfl, rfl, rfl⟩)⟩
          · rw [if_neg hlt] at h
            cases hbest : maxByE (ucb ag env st) (st.dnode i).children with
            | error e =>
              rw [hbest] at h
              have h2 : (Except.error e : Except Err (SelRes σ α)) = Except.ok r := h
              cases h2
            | ok best =>
              rw [hbest] at h
              have h2 : selectLoop ag env fuel st (.cn best) rewards sp terminal
                  = Except.ok r := h
              have hmem := maxByE_ok_mem _ _ _ hbest
              obtain ⟨hbc, hbp⟩ := hW6 i hi best hmem
              obtain ⟨m, hm, hval⟩ := mem_getD _ best hmem
              have hretb : (st.cnode best).sampled_returns ≠ [] := by
                rw [← hval]
                exact (hJ i hi).2.2 m (by omega)
              obtain ⟨g1, g2, g3, ⟨L, hL, hLev⟩, hdisj⟩ :=
                ih st (.cn best) rewards sp terminal r h2 hW6 hW7 hJ ⟨hbc, hretb⟩
              refine ⟨g1, g2, g3, ⟨L, hL, hLev⟩, ?_⟩
              rcases hdisj with ⟨hd, hf, hinner⟩ | hB | hC
              · refine Or.inl ⟨hd, hf, ?_⟩
                rcases hinner with ⟨_, _, _, hche⟩ | hn | hp
                · exact absurd (by rw [hche]; rfl) hroot
                · exact Or.inr (Or.inl hn)
                · exact Or.inr (Or.inr hp)
              · exact Or.inr (Or.inl hB)
              · exact Or.inr (Or.inr hC)
    | .cn i =>
      obtain ⟨hic, hir⟩ := hnode
      rw [sel_cn_eq] at h
      by_cases hroot : (st.dnode 0).children.isEmpty = true
      · rw [if_pos hroot] at h
        cases h
        exact ⟨rfl, rfl, rfl, ⟨[], by simp, by simp⟩,
          Or.inl ⟨rfl, rfl, Or.inl ⟨rfl, rfl, rfl, List.isEmpty_iff.1 hroot⟩⟩⟩
      · rw [if_neg hroot] at h
        by_cases hce : (st.cnode i).children.isEmpty = true
        · rw [if_pos hce] at h
          cases h
          refine ⟨rfl, rfl, rfl, ⟨[Event.transAt i], rfl, ?_⟩,
            Or.inr (Or.inl ⟨rfl, rfl, i, _, rfl, hic, hir, rfl⟩)⟩
          intro ev hev
          rcases List.mem_singleton.1 hev with rfl
          exact ⟨i, rfl, hic, hir⟩
        · rw [if_neg hce] at h
          have hcne : (st.cnode i).children ≠ [] := fun h0 => hce (by rw [h0]; rfl)
          by_cases heq : env.equality_operator
              (st.dnode ((st.cnode i).children.getD 0 0)).state
              (env.transition (st.dnode (st.cnode i).parent).state
                (st.cnode i).action st.tick).1 = true
          · rw [if_pos heq] at h
            have hd0mem : (st.cnode i).children.getD 0 0 ∈ (st.cnode i).children :=
              getD_mem_of_lt _ 0 (List.length_pos.2 hcne)
            obtain ⟨hd0len, hd0par⟩ := hW7 i hic _ hd0mem
            have hd0ok : ∀ p, (st.dnode ((st.cnode i).children.getD 0 0)).parent = some p →
                p < st.cnodes.length ∧ (st.cnode p).sampled_returns ≠ [] := by
              intro p hp
              have := Option.some.inj (hd0par.symm.trans hp)
              subst this
              exact ⟨hic, hir⟩
            obtain ⟨g1, g2, g3, ⟨L, hL, hLev⟩, hdisj⟩ :=
              ih { st with tick := st.tick + 1, evLog := st.evLog ++ [Event.transAt i] }
                (.dn ((st.cnode i).children.getD 0 0))
                (rewards ++ [(env.transition (st.dnode (st.cnode i).parent).state
                  (st.cnode i).action st.tick).2.1])
                (some (env.transition (st.dnode (st.cnode i).parent).state
                  (st.cnode i).action st.tick).1)
                (env.transition (st.dnode (st.cnode i).parent).state
                  (st.cnode i).action st.tick).2.2
                r h hW6 hW7 hJ
                ⟨hd0len, hd0ok⟩
            refine ⟨g1, g2, g3, ⟨Event.transAt i :: L, by rw [hL]; simp, ?_⟩, ?_⟩
            · intro ev hev
              rcases List.mem_cons.1 hev with rfl | hev2
              · exact ⟨i, rfl, hic, hir⟩
              · exact hLev ev hev2
            · rcases hdisj with ⟨hd, hf, hinner⟩ | hB | hC
              · refine Or.inl ⟨hd, hf, ?_⟩
                rcases hinner with ⟨_, _, _, hche⟩ | hn | hp
                · exact absurd (by rw [show (st.dnode 0).children = [] from hche]; rfl)
                    hroot
                · exact Or.inr (Or.inl hn)
                · exact Or.inr (Or.inr hp)
              · exact Or.inr (Or.inl hB)
              · exact Or.inr (Or.inr hC)
          · rw [if_neg heq] at h
            cases h
            refine ⟨rfl, rfl, rfl, ⟨[Event.transAt i], rfl, ?_⟩,
              Or.inr (Or.inl ⟨rfl, rfl, i, _, rfl, hic, hir, rfl⟩)⟩
            intro ev hev
            rcases List.mem_singleton.1 hev with rfl
            exact ⟨i, rfl, hic, hir⟩

end SelSpec

section RolloutMaster

variable [Inhabited σ] [Inhabited α] [DecidableEq α]

/-- `sum(len(child.sampled_returns) for child in root.children)` — the quantity
of claim C7. -/
def rootMass (st : SState σ α) : Nat :=
  ((st.dnode 0).children.map (fun c => (st.cnode c).sampled_returns.length)).sum

theorem sum_map_mono (f g : Nat → Nat) :
    ∀ (l : List Nat), (∀ x ∈ l, f x ≤ g x) → (l.map f).sum ≤ (l.map g).sum := by
  intro l
  induction l with
  | nil => intro _; exact Nat.le_refl _
  | cons x xs ih =>
    intro hm
    simp only [List.map_cons, List.sum_cons]
    have h1 := hm x (List.mem_cons_self x xs)
    have h2 := ih (fun y hy => hm y (List.mem_cons_of_mem x hy))
    omega

theorem sum_map_succ (f g : Nat → Nat) :
    ∀ (l : List Nat), (∀ x ∈ l, f x ≤ g x) →
      ∀ c ∈ l, f c + 1 ≤ g c → (l.map f).sum + 1 ≤ (l.map g).sum := by
  intro l
  induction l with
  | nil => intro _ c hc; exact absurd hc (by simp)
  | cons x xs ih =>
    intro hm c hc hstrict
    simp only [List.map_cons, List.sum_cons]
    rcases List.mem_cons.1 hc with rfl | hcx
    · have h2 := sum_map_mono f g xs (fun y hy => hm y (List.mem_cons_of_mem c hy))
      omega
    · have h1 := hm x (List.mem_cons_self x xs)
      have h2 := ih (fun y hy => hm y (List.mem_cons_of_mem x hy)) c hcx hstrict
      omega

theorem mem_range_map_add (n b x : Nat) :
    x ∈ (List.range n).map (· + b) ↔ b ≤ x ∧ x < b + n := by
  simp only [List.mem_map, List.mem_range]
  constructor
  · rintro ⟨a, ha, rfl⟩
    omega
  · rintro ⟨h1, h2⟩
    exact ⟨x - b, by omega, by omega⟩

theorem cnode_app_old (s sB : SState σ α) (cs : List (ChanceNode α))
    (h : sB.cnodes = s.cnodes ++ cs) (j : Nat) (hj : j < s.cnodes.length) :
    sB.cnode j = s.cnode j := by
  unfold SState.cnode
  rw [h, List.get?_append hj]

theorem cnode_app_map (s sB : SState σ α) (f : α → ChanceNode α) (acts : List α)
    (h : sB.cnodes = s.cnodes ++ acts.map f) (k : Nat) (hk : k < acts.length) :
    sB.cnode (s.cnodes.length + k) = f (acts.get ⟨k, hk⟩) := by
  unfold SState.cnode
  rw [h, List.get?_append_right (by omega),
    show s.cnodes.length + k - s.cnodes.length = k by omega,
    List.get?_map, List.get?_eq_get hk]
  rfl

theorem cnode_set_self (s sB : SState σ α) (c : ChanceNode α) (p : Nat)
    (h : sB.cnodes = s.cnodes.set p c) (hp : p < s.cnodes.length) :
    sB.cnode p = c := by
  unfold SState.cnode
  rw [h, List.get?_set_eq_of_lt]
  exact hp

theorem cnode_set_ne (s sB : SState σ α) (c : ChanceNode α) (p : Nat)
    (h : sB.cnodes = s.cnodes.set p c) (j : Nat) (hj : j ≠ p) :
    sB.cnode j = s.cnode j := by
  unfold SState.cnode
  rw [h, List.get?_set_ne _ _ (fun hc => hj hc.symm)]

theorem dnode_app_old (s sB : SState σ α) (ds : List (DecisionNode σ))
    (h : sB.dnodes = s.dnodes ++ ds) (j : Nat) (hj : j < s.dnodes.length) :
    sB.dnode j = s.dnode j := by
  unfold SState.dnode
  rw [h, List.get?_append hj]

theorem dnode_app_self (s sB : SState σ α) (d : DecisionNode σ)
    (h : sB.dnodes = s.dnodes ++ [d]) :
    sB.dnode s.dnodes.length = d := by
  unfold SState.dnode
  rw [h, List.get?_concat_length]

theorem dnode_set_self (s sB : SState σ α) (d : DecisionNode σ) (i : Nat)
    (h : sB.dnodes = s.dnodes.set i d) (hi : i < s.dnodes.length) :
    sB.dnode i = d := by
  unfold SState.dnode
  rw [h, List.get?_set_eq_of_lt]
  exact hi

theorem dnode_set_ne (s sB : SState σ α) (d : DecisionNode σ) (i : Nat)
    (h : sB.dnodes = s.dnodes.set i d) (j : Nat) (hj : j ≠ i) :
    sB.dnode j = s.dnode j := by
  unfold SState.dnode
  rw [h, List.get?_set_ne _ _ (fun hc => hj hc.symm)]

theorem expand_cn_eq (ag : Agent σ α) (env : Env σ α) (st₀ : SState σ α) (p : Nat)
    (sp : Option σ) (terminal : Bool) :
    expandPhase ag env st₀ (some (.cn p)) sp terminal false = pure (st₀, some (.cn p)) := rfl

theorem expand_none_eq (ag : Agent σ α) (env : Env σ α) (st₀ : SState σ α)
    (sp : Option σ) (terminal : Bool) :
    expandPhase ag env st₀ none sp terminal false = pure (st₀, none) := rfl

theorem expand_dn_eq (ag : Agent σ α) (env : Env σ α) (st₀ : SState σ α) (i : Nat)
    (sp : Option σ) (terminal : Bool) :
    expandPhase ag env st₀ (some (.dn i)) sp terminal false =
      if terminal then pure (st₀, ((st₀.dnode i).parent).map NRef.cn)
      else
        match ag.shuffle st₀.tick
            ((List.range env.actions.length).map (· + st₀.cnodes.length)) with
        | [] => throw .indexErr
        | c0 :: _ =>
          pure ({ st₀ with
                   cnodes := st₀.cnodes ++ env.actions.map
                     (fun a => mkChance i a (st₀.dnode i).depth (st₀.dnode i).state
                        env.equality_operator st₀.histories),
                   dnodes := st₀.dnodes.set i
                     { st₀.dnode i with
                       children := ag.shuffle st₀.tick
                         ((List.range env.actions.length).map (· + st₀.cnodes.length)),
                       explored_children := (st₀.dnode i).explored_children + 1 },
                   tick := st₀.tick + 1 },
                 some (.cn c0)) := rfl

theorem expand_flag_eq (ag : Agent σ α) (env : Env σ α) (st₀ : SState σ α) (i : Nat)
    (s2 : σ) (terminal : Bool) :
    expandPhase ag env st₀ (some (.cn i)) (some s2) terminal true =
      expandPhase ag env
        { st₀ with
          dnodes := st₀.dnodes ++
            [⟨some i, s2, terminal, (st₀.cnode i).depth + 1, [], 0, 0⟩],
          cnodes := st₀.cnodes.set i { st₀.cnode i with
            children := (st₀.cnode i).children ++ [st₀.dnodes.length] } }
        (some (.dn st₀.dnodes.length)) (some s2) terminal false := rfl

/-- The pre-backpropagation well-formedness: all structural clauses of `Inv`,
but the exploration-counter clauses may be off by the one slot that the current
rollout just explored — the slot holds `istar`, the chance node backpropagation
is about to start from, and the parent may still owe one visit. -/
def InvB (st : SState σ α) (istar : Nat) : Prop :=
  0 < st.dnodes.length ∧
  (∀ i, i < st.dnodes.length → ((st.dnode i).parent = none → i = 0)) ∧
  ((st.dnode 0).parent = none) ∧
  (∀ i, i < st.dnodes.length → ∀ p, (st.dnode i).parent = some p →
    p < st.cnodes.length ∧ i ∈ (st.cnode p).children) ∧
  (∀ c, c < st.cnodes.length → (st.cnode c).parent < st.dnodes.length) ∧
  (∀ i, i < st.dnodes.length → ∀ c ∈ (st.dnode i).children,
    c < st.cnodes.length ∧ (st.cnode c).parent = i) ∧
  (∀ c, c < st.cnodes.length → ∀ d ∈ (st.cnode c).children,
    d < st.dnodes.length ∧ (st.dnode d).parent = some c) ∧
  (∀ c, c < st.cnodes.length → (st.cnode c).children ≠ [] →
    (st.cnode c).sampled_returns ≠ []) ∧
  (∀ c, c < st.cnodes.length → c ∈ (st.dnode (st.cnode c).parent).children) ∧
  (∀ c, c < st.cnodes.length → (st.cnode c).depth = (st.dnode (st.cnode c).parent).depth) ∧
  (∀ i, i < st.dnodes.length → ∀ p, (st.dnode i).parent = some p →
    (st.dnode i).depth = (st.cnode p).depth + 1) ∧
  istar < st.cnodes.length ∧
  (∀ i, i < st.dnodes.length →
    (st.dnode i).explored_children ≤ (st.dnode i).children.length) ∧
  (∀ i, i < st.dnodes.length →
    (st.dnode i).explored_children ≤ (st.dnode i).visits ∨
    (i = (st.cnode istar).parent ∧
      (st.dnode i).explored_children ≤ (st.dnode i).visits + 1)) ∧
  (∀ i, i < st.dnodes.length → ∀ m, m < (st.dnode i).explored_children →
    (st.cnode ((st.dnode i).children.getD m 0)).sampled_returns ≠ [] ∨
    (st.dnode i).children.getD m 0 = istar)

theorem inv_imp_invB (st : SState σ α) (istar : Nat) (hInv : Inv st)
    (histar : istar < st.cnodes.length) : InvB st istar := by
  obtain ⟨h1, h2, h3, h4, h5, h6, h7, hJ, h8, h9, h10, h11⟩ := hInv
  exact ⟨h1, h2, h3, h4, h5, h6, h7, h8, h9, h10, h11, histar,
    fun i hi => (hJ i hi).1,
    fun i hi => Or.inl (hJ i hi).2.1,
    fun i hi m hm => Or.inl ((hJ i hi).2.2 m hm)⟩

/-- Backpropagation from a chance node of an almost-well-formed tree restores
the full invariant, adds at least one sampled return to some root child, logs
only backpropagation events, changes emptiness of `sampled_returns` only at the
start node (which receives exactly the running estimate when it had none), and
preserves the start node's structural fields. -/
theorem bp_finish (gamma : ℚ) (fuel : Nat) (stM st' : SState σ α) (istar : Nat)
    (rews : List ℚ) (est : ℚ)
    (hbp : backpropLoop gamma fuel stM (some (.cn istar)) rews est = .ok st')
    (hB : InvB stM istar) :
    Inv st' ∧
    rootMass stM + 1 ≤ rootMass st' ∧
    (∃ LB, st'.evLog = stM.evLog ++ LB ∧ ∀ ev ∈ LB, ∀ c, ev ≠ Event.transAt c) ∧
    (∀ c, (stM.cnode c).sampled_returns = [] → (st'.cnode c).sampled_returns ≠ [] →
      c = istar) ∧
    ((stM.cnode istar).sampled_returns = [] →
      (st'.cnode istar).sampled_returns = [est]) ∧
    (st'.cnode istar).depth = (stM.cnode istar).depth ∧
    (st'.cnode istar).parent = (stM.cnode istar).parent ∧
    (st'.dnode ((stM.cnode istar).parent)).state
      = (stM.dnode ((stM.cnode istar).parent)).state := by
  obtain ⟨h1, h2, h3, h4, h5, h6, h7, h8, h9, h10, h11, histar, hJ1, hJ2, hJ3⟩ := hB
  obtain ⟨e1, e2, e3, e4, ⟨LB, hLB, hLBev⟩, hcn, hdn, hpv, hex, hch, c0, hc0mem, hc0len⟩ :=
    bp_spec gamma fuel stM istar rews est st' hbp h5 h9 h2 h4 h8 h10 h11 histar
  refine ⟨⟨?_, ?_, ?_, ?_, ?_, ?_, ?_, ?_, ?_, ?_, ?_, ?_⟩, ?_, ⟨LB, hLB, hLBev⟩,
    ?_, ?_, (hcn istar).2.2.1, (hcn istar).1, (hdn ((stM.cnode istar).parent)).2.1⟩
  · rw [e1]
    exact h1
  · intro i hi hpn
    rw [e1] at hi
    rw [(hdn i).1] at hpn
    exact h2 i hi hpn
  · rw [(hdn 0).1]
    exact h3
  · intro i hi p hp
    rw [e1] at hi
    rw [(hdn i).1] at hp
    obtain ⟨hlt, hmem⟩ := h4 i hi p hp
    refine ⟨by rw [e2]; exact hlt, ?_⟩
    rw [(hcn p).2.2.2.1]
    exact hmem
  · intro c hc
    rw [e2] at hc
    rw [(hcn c).1, e1]
    exact h5 c hc
  · intro i hi c hcm
    rw [e1] at hi
    rw [(hdn i).2.2.2.2.1] at hcm
    obtain ⟨hlt, hpar⟩ := h6 i hi c hcm
    refine ⟨by rw [e2]; exact hlt, ?_⟩
    rw [(hcn c).1]
    exact hpar
  · intro c hc d hdm
    rw [e2] at hc
    rw [(hcn c).2.2.2.1] at hdm
    obtain ⟨hlt, hpar⟩ := h7 c hc d hdm
    refine ⟨by rw [e1]; exact hlt, ?_⟩
    rw [(hdn d).1]
    exact hpar
  · intro i hi
    rw [e1] at hi
    refine ⟨?_, ?_, ?_⟩
    · rw [(hdn i).2.2.2.2.2.1, (hdn i).2.2.2.2.1]
      exact hJ1 i hi
    · rw [(hdn i).2.2.2.2.2.1]
      rcases hJ2 i hi with hle | ⟨heq, hle⟩
      · exact le_trans hle (hdn i).2.2.2.2.2.2
      · have hmono := (hdn ((stM.cnode istar).parent)).2.2.2.2.2.2
        subst heq
        omega
    · intro m hm
      rw [(hdn i).2.2.2.2.2.1] at hm
      rw [(hdn i).2.2.2.2.1]
      rcases hJ3 i hi m hm with hne | hx
      · obtain ⟨ext, hext⟩ := (hcn ((stM.dnode i).children.getD m 0)).2.2.2.2.2
        rw [hext]
        intro h0
        exact hne (List.append_eq_nil.1 h0).1
      · rw [hx]
        have := hex istar (Nat.le_refl _)
        rw [if_pos rfl] at this
        rw [this]
        simp
  · intro c hc hcne
    rw [e2] at hc
    rw [(hcn c).2.2.2.1] at hcne
    obtain ⟨ext, hext⟩ := (hcn c).2.2.2.2.2
    rw [hext]
    intro h0
    exact h8 c hc hcne (List.append_eq_nil.1 h0).1
  · intro c hc
    rw [e2] at hc
    rw [(hcn c).1, (hdn ((stM.cnode c).parent)).2.2.2.2.1]
    exact h9 c hc
  · intro c hc
    rw [e2] at hc
    rw [(hcn c).2.2.1, (hcn c).1, (hdn ((stM.cnode c).parent)).2.2.2.1]
    exact h10 c hc
  · intro i hi p hp
    rw [e1] at hi
    rw [(hdn i).1] at hp
    rw [(hdn i).2.2.2.1, (hcn p).2.2.1]
    exact h11 i hi p hp
  · unfold rootMass
    rw [(hdn 0).2.2.2.2.1]
    refine sum_map_succ _ _ ((stM.dnode 0).children) ?_ c0 hc0mem hc0len
    intro x _
    obtain ⟨ext, hext⟩ := (hcn x).2.2.2.2.2
    rw [hext]
    simp
  · intro c hcE hcN
    rcases hch c (by rw [hcE]; exact hcN) with h | h
    · exact h
    · exact absurd hcE h
  · intro hE
    have := hex istar (Nat.le_refl _)
    rw [if_pos rfl, hE, List.nil_append] at this
    exact this

theorem invB_congr (sA sB : SState σ α) (istar : Nat)
    (hd : sB.dnodes = sA.dnodes) (hc : sB.cnodes = sA.cnodes)
    (h : InvB sA istar) : InvB sB istar := by
  have hdN : ∀ j, sB.dnode j = sA.dnode j := dnode_congr sB sA hd
  have hcN : ∀ j, sB.cnode j = sA.cnode j := cnode_congr sB sA hc
  unfold InvB
  simp only [hd, hc, hdN, hcN]
  exact h

/-- Expanding a childless decision node `i` (creating one chance child per
action, shuffling them in, and stepping into the first) yields a pre-backprop
well-formed state with the first shuffled child as the node to back up from. -/
theorem invB_expand (ag : Agent σ α) (env : Env σ α) (st₀ stE : SState σ α)
    (i c0 : Nat) (rest : List Nat)
    (hInv : Inv st₀) (hi : i < st₀.dnodes.length)
    (hch0 : (st₀.dnode i).children = [])
    (HS : ∀ n (l : List Nat), (ag.shuffle n l).Perm l)
    (hsh : ag.shuffle st₀.tick
        ((List.range env.actions.length).map (· + st₀.cnodes.length)) = c0 :: rest)
    (hEd : stE.dnodes = st₀.dnodes.set i
      { st₀.dnode i with
        children := (c0 :: rest),
        explored_children := (st₀.dnode i).explored_children + 1 })
    (hEc : stE.cnodes = st₀.cnodes ++ env.actions.map
      (fun a => mkChance i a (st₀.dnode i).depth (st₀.dnode i).state
         env.equality_operator st₀.histories)) :
    InvB stE c0 ∧
    (stE.cnode c0).parent = i ∧
    (stE.cnode c0).sampled_returns = [] ∧
    (∀ c, c < st₀.cnodes.length → stE.cnode c = st₀.cnode c) ∧
    (∀ c, ¬ c < st₀.cnodes.length → (stE.cnode c).sampled_returns = []) ∧
    (∀ j, j ≠ i → stE.dnode j = st₀.dnode j) ∧
    stE.dnode i = { st₀.dnode i with
      children := (c0 :: rest),
      explored_children := (st₀.dnode i).explored_children + 1 } := by
  obtain ⟨w1, w2, w3, w4, w5, w6, w7, wJ, w8, w9, w10, w11⟩ := hInv
  have hdO : ∀ j, j ≠ i → stE.dnode j = st₀.dnode j :=
    fun j hj => dnode_set_ne st₀ stE _ i hEd j hj
  have hdI : stE.dnode i = { st₀.dnode i with
      children := (c0 :: rest),
      explored_children := (st₀.dnode i).explored_children + 1 } :=
    dnode_set_self st₀ stE _ i hEd hi
  have hdlen : stE.dnodes.length = st₀.dnodes.length := by rw [hEd]; simp
  have hclen : stE.cnodes.length = st₀.cnodes.length + env.actions.length := by
    rw [hEc]; simp
  have hcO : ∀ c, c < st₀.cnodes.length → stE.cnode c = st₀.cnode c :=
    fun c hc => cnode_app_old st₀ stE _ hEc c hc
  have hcNw : ∀ c, st₀.cnodes.length ≤ c → c < st₀.cnodes.length + env.actions.length →
      (stE.cnode c).parent = i ∧ (stE.cnode c).sampled_returns = [] ∧
      (stE.cnode c).children = [] ∧ (stE.cnode c).depth = (st₀.dnode i).depth := by
    intro c h1 h2
    have hmap := cnode_app_map st₀ stE _ env.actions hEc (c - st₀.cnodes.length) (by omega)
    rw [show st₀.cnodes.length + (c - st₀.cnodes.length) = c by omega] at hmap
    rw [hmap]
    exact ⟨rfl, rfl, rfl, rfl⟩
  have hmemids : ∀ x, x ∈ c0 :: rest ↔
      (st₀.cnodes.length ≤ x ∧ x < st₀.cnodes.length + env.actions.length) := by
    intro x
    rw [← mem_range_map_add env.actions.length st₀.cnodes.length x]
    have hperm := HS st₀.tick
      ((List.range env.actions.length).map (· + st₀.cnodes.length))
    rw [hsh] at hperm
    exact ⟨fun hx => hperm.mem_iff.1 hx, fun hx => hperm.mem_iff.2 hx⟩
  have hc0ids : st₀.cnodes.length ≤ c0 ∧ c0 < st₀.cnodes.length + env.actions.length :=
    (hmemids c0).1 (List.mem_cons_self c0 rest)
  have hdparent : ∀ j, (stE.dnode j).parent = (st₀.dnode j).parent := by
    intro j
    by_cases hj : j = i
    · subst hj; rw [hdI]
    · rw [hdO j hj]
  have hddepth : ∀ j, (stE.dnode j).depth = (st₀.dnode j).depth := by
    intro j
    by_cases hj : j = i
    · subst hj; rw [hdI]
    · rw [hdO j hj]
  have hexpl0 : (st₀.dnode i).explored_children = 0 := by
    have := (wJ i hi).1
    rw [hch0] at this
    simpa using this
  have hnoparold : ∀ c, c < st₀.cnodes.length → (st₀.cnode c).parent ≠ i := by
    intro c hc hpc
    have h9 := w9 c hc
    rw [hpc, hch0] at h9
    exact absurd h9 (by simp)
  refine ⟨⟨?_, ?_, ?_, ?_, ?_, ?_, ?_, ?_, ?_, ?_, ?_, ?_, ?_, ?_, ?_⟩,
    (hcNw c0 hc0ids.1 hc0ids.2).1, (hcNw c0 hc0ids.1 hc0ids.2).2.1, hcO,
    ?_, hdO, hdI⟩
  · omega
  · intro j hj hpn
    rw [hdlen] at hj
    rw [hdparent] at hpn
    exact w2 j hj hpn
  · rw [hdparent]
    exact w3
  · intro j hj p hp
    rw [hdlen] at hj
    rw [hdparent] at hp
    obtain ⟨hplt, hpmem⟩ := w4 j hj p hp
    refine ⟨by omega, ?_⟩
    rw [hcO p hplt]
    exact hpmem
  · intro c hc
    rw [hclen] at hc
    by_cases hcold : c < st₀.cnodes.length
    · rw [hcO c hcold, hdlen]
      exact w5 c hcold
    · rw [(hcNw c (by omega) hc).1, hdlen]
      exact hi
  · intro j hj c hcm
    rw [hdlen] at hj
    by_cases hji : j = i
    · subst hji
      rw [hdI] at hcm
      have hcm2 : c ∈ c0 :: rest := hcm
      have hcids := (hmemids c).1 hcm2
      exact ⟨by omega, (hcNw c hcids.1 hcids.2).1⟩
    · rw [hdO j hji] at hcm
      obtain ⟨hclt, hcp⟩ := w6 j hj c hcm
      refine ⟨by omega, ?_⟩
      rw [hcO c hclt]
      exact hcp
  · intro c hc d hdm
    rw [hclen] at hc
    by_cases hcold : c < st₀.cnodes.length
    · rw [hcO c hcold] at hdm
      obtain ⟨hdlt, hdp⟩ := w7 c hcold d hdm
      refine ⟨by omega, ?_⟩
      rw [hdparent, hdp]
    · rw [(hcNw c (by omega) hc).2.2.1] at hdm
      exact absurd hdm (by simp)
  · intro c hc hcne
    rw [hclen] at hc
    by_cases hcold : c < st₀.cnodes.length
    · rw [hcO c hcold] at hcne ⊢
      exact w8 c hcold hcne
    · rw [(hcNw c (by omega) hc).2.2.1] at hcne
      exact absurd rfl hcne
  · intro c hc
    rw [hclen] at hc
    by_cases hcold : c < st₀.cnodes.length
    · rw [hcO c hcold]
      have hpne := hnoparold c hcold
      rw [hdO _ hpne]
      exact w9 c hcold
    · rw [(hcNw c (by omega) hc).1, hdI]
      show c ∈ c0 :: rest
      exact (hmemids c).2 ⟨by omega, hc⟩
  · intro c hc
    rw [hclen] at hc
    by_cases hcold : c < st₀.cnodes.length
    · rw [hcO c hcold, hddepth]
      exact w10 c hcold
    · rw [(hcNw c (by omega) hc).2.2.2, (hcNw c (by omega) hc).1, hddepth]
  · intro j hj p hp
    rw [hdlen] at hj
    rw [hdparent] at hp
    rw [hddepth]
    obtain ⟨hplt, _⟩ := w4 j hj p hp
    rw [hcO p hplt]
    exact w11 j hj p hp
  · omega
  · intro j hj
    rw [hdlen] at hj
    by_cases hji : j = i
    · subst hji
      rw [hdI]
      show (st₀.dnode j).explored_children + 1 ≤ (c0 :: rest).length
      rw [hexpl0]
      simp
    · rw [hdO j hji]
      exact (wJ j hj).1
  · intro j hj
    rw [hdlen] at hj
    by_cases hji : j = i
    · subst hji
      rw [hdI, (hcNw c0 hc0ids.1 hc0ids.2).1]
      refine Or.inr ⟨rfl, ?_⟩
      show (st₀.dnode j).explored_children + 1 ≤ (st₀.dnode j).visits + 1
      have := (wJ j hj).2.1
      omega
    · rw [hdO j hji]
      exact Or.inl (wJ j hj).2.1
  · intro j hj m hm
    rw [hdlen] at hj
    by_cases hji : j = i
    · subst hji
      rw [hdI] at hm ⊢
      have hm2 : m < (st₀.dnode j).explored_children + 1 := hm
      rw [hexpl0] at hm2
      have hm0 : m = 0 := by omega
      subst hm0
      exact Or.inr rfl
    · rw [hdO j hji] at hm ⊢
      have hx := (wJ j hj).2.2 m hm
      have hmlen : m < (st₀.dnode j).children.length := by
        have := (wJ j hj).1
        omega
      have hxlt := (w6 j hj _ (getD_mem_of_lt _ m hmlen)).1
      rw [hcO _ hxlt]
      exact Or.inl hx
  · intro c hc
    by_cases hcin : c < st₀.cnodes.length + env.actions.length
    · exact ((hcNw c (by omega) hcin)).2.1
    · rw [cnode_oor stE c (by omega)]

/-- Appending a fresh decision node for a newly sampled state as a child of
chance node `p` (the `expand_chance_node` half of the expansion phase)
preserves the full invariant. -/
theorem inv_newdn (st₀ stD : SState σ α) (p : Nat) (s2 : σ) (term : Bool)
    (hInv : Inv st₀) (hp : p < st₀.cnodes.length)
    (hret : (st₀.cnode p).sampled_returns ≠ [])
    (hDd : stD.dnodes = st₀.dnodes ++
      [⟨some p, s2, term, (st₀.cnode p).depth + 1, [], 0, 0⟩])
    (hDc : stD.cnodes = st₀.cnodes.set p { st₀.cnode p with
      children := (st₀.cnode p).children ++ [st₀.dnodes.length] }) :
    Inv stD ∧
    stD.dnodes.length = st₀.dnodes.length + 1 ∧
    stD.cnodes.length = st₀.cnodes.length ∧
    (∀ j, j < st₀.dnodes.length → stD.dnode j = st₀.dnode j) ∧
    stD.dnode st₀.dnodes.length
      = ⟨some p, s2, term, (st₀.cnode p).depth + 1, [], 0, 0⟩ ∧
    (∀ c, (stD.cnode c).sampled_returns = (st₀.cnode c).sampled_returns) ∧
    (∀ c, (stD.cnode c).depth = (st₀.cnode c).depth) ∧
    (∀ c, (stD.cnode c).parent = (st₀.cnode c).parent) := by
  obtain ⟨w1, w2, w3, w4, w5, w6, w7, wJ, w8, w9, w10, w11⟩ := hInv
  have hdO : ∀ j, j < st₀.dnodes.length → stD.dnode j = st₀.dnode j :=
    fun j hj => dnode_app_old st₀ stD _ hDd j hj
  have hdN : stD.dnode st₀.dnodes.length
      = ⟨some p, s2, term, (st₀.cnode p).depth + 1, [], 0, 0⟩ :=
    dnode_app_self st₀ stD _ hDd
  have hdlen : stD.dnodes.length = st₀.dnodes.length + 1 := by rw [hDd]; simp
  have hclen : stD.cnodes.length = st₀.cnodes.length := by rw [hDc]; simp
  have hcP : stD.cnode p = { st₀.cnode p with
      children := (st₀.cnode p).children ++ [st₀.dnodes.length] } :=
    cnode_set_self st₀ stD _ p hDc hp
  have hcO : ∀ c, c ≠ p → stD.cnode c = st₀.cnode c :=
    fun c hc => cnode_set_ne st₀ stD _ p hDc c hc
  have hcret : ∀ c, (stD.cnode c).sampled_returns = (st₀.cnode c).sampled_returns := by
    intro c
    by_cases hcp : c = p
    · subst hcp; rw [hcP]
    · rw [hcO c hcp]
  have hcdep : ∀ c, (stD.cnode c).depth = (st₀.cnode c).depth := by
    intro c
    by_cases hcp : c = p
    · subst hcp; rw [hcP]
    · rw [hcO c hcp]
  have hcpar : ∀ c, (stD.cnode c).parent = (st₀.cnode c).parent := by
    intro c
    by_cases hcp : c = p
    · subst hcp; rw [hcP]
    · rw [hcO c hcp]
  have hcch : ∀ c, (stD.cnode c).children
      = (st₀.cnode c).children ++ (if c = p then [st₀.dnodes.length] else []) := by
    intro c
    by_cases hcp : c = p
    · subst hcp; rw [hcP, if_pos rfl]
    · rw [hcO c hcp, if_neg hcp, List.append_nil]
  refine ⟨⟨?_, ?_, ?_, ?_, ?_, ?_, ?_, ?_, ?_, ?_, ?_, ?_⟩,
    hdlen, hclen, hdO, hdN, hcret, hcdep, hcpar⟩
  · omega
  · intro j hj hpn
    rw [hdlen] at hj
    by_cases hjn : j = st₀.dnodes.length
    · subst hjn
      rw [hdN] at hpn
      cases hpn
    · rw [hdO j (by omega)] at hpn
      exact w2 j (by omega) hpn
  · rw [hdO 0 w1]
    exact w3
  · intro j hj q hq
    rw [hdlen] at hj
    by_cases hjn : j = st₀.dnodes.length
    · subst hjn
      rw [hdN] at hq
      cases hq
      refine ⟨by omega, ?_⟩
      rw [hcch p, if_pos rfl]
      simp
    · rw [hdO j (by omega)] at hq
      obtain ⟨hqlt, hqmem⟩ := w4 j (by omega) q hq
      refine ⟨by omega, ?_⟩
      rw [hcch q]
      exact List.mem_append_left _ hqmem
  · intro c hc
    rw [hclen] at hc
    rw [hcpar, hdlen]
    have := w5 c hc
    omega
  · intro j hj c hcm
    rw [hdlen] at hj
    by_cases hjn : j = st₀.dnodes.length
    · subst hjn
      rw [hdN] at hcm
      exact absurd hcm (by simp)
    · rw [hdO j (by omega)] at hcm
      obtain ⟨hclt, hcp2⟩ := w6 j (by omega) c hcm
      exact ⟨by omega, by rw [hcpar]; exact hcp2⟩
  · intro c hc d hdm
    rw [hclen] at hc
    rw [hcch] at hdm
    rcases List.mem_append.1 hdm with hold | hnew
    · obtain ⟨hdlt, hdp⟩ := w7 c hc d hold
      refine ⟨by omega, ?_⟩
      rw [hdO d hdlt]
      exact hdp
    · by_cases hcp2 : c = p
      · subst hcp2
        rw [if_pos rfl] at hnew
        rcases List.mem_singleton.1 hnew with rfl
        exact ⟨by omega, by rw [hdN]⟩
      · rw [if_neg hcp2] at hnew
        exact absurd hnew (by simp)
  · intro j hj
    rw [hdlen] at hj
    by_cases hjn : j = st₀.dnodes.length
    · subst hjn
      rw [hdN]
      exact ⟨by simp, by simp, by intro m hm; exact absurd hm (by simp)⟩
    · rw [hdO j (by omega)]
      refine ⟨(wJ j (by omega)).1, (wJ j (by omega)).2.1, ?_⟩
      intro m hm
      rw [hcret]
      exact (wJ j (by omega)).2.2 m hm
  · intro c hc hcne
    rw [hclen] at hc
    rw [hcret]
    by_cases hcp2 : c = p
    · subst hcp2
      exact hret
    · rw [hcch, if_neg hcp2, List.append_nil] at hcne
      exact w8 c hc hcne
  · intro c hc
    rw [hclen] at hc
    rw [hcpar]
    have hplt := w5 c hc
    rw [hdO _ hplt]
    exact w9 c hc
  · intro c hc
    rw [hclen] at hc
    rw [hcpar, hcdep]
    have hplt := w5 c hc
    rw [hdO _ hplt]
    exact w10 c hc
  · intro j hj q hq
    rw [hdlen] at hj
    by_cases hjn : j = st₀.dnodes.length
    · subst hjn
      rw [hdN] at hq ⊢
      cases hq
      rw [hcdep]
    · rw [hdO j (by omega)] at hq ⊢
      rw [hcdep]
      exact w11 j (by omega) q hq

/-- Descending into the next unexplored child during selection (incrementing
the exploration counter) leaves a pre-backprop well-formed state whose owed
slot is exactly that child. -/
theorem invB_increment (st₀ stC : SState σ α) (i : Nat)
    (hInv : Inv st₀) (hi : i < st₀.dnodes.length)
    (hlt : (st₀.dnode i).explored_children < (st₀.dnode i).children.length)
    (hCd : stC.dnodes = st₀.dnodes.set i { st₀.dnode i with
      explored_children := (st₀.dnode i).explored_children + 1 })
    (hCc : stC.cnodes = st₀.cnodes) :
    InvB stC ((st₀.dnode i).children.getD (st₀.dnode i).explored_children 0) ∧
    (stC.cnode ((st₀.dnode i).children.getD
      (st₀.dnode i).explored_children 0)).parent = i ∧
    (st₀.dnode i).children.getD (st₀.dnode i).explored_children 0
      < st₀.cnodes.length := by
  obtain ⟨w1, w2, w3, w4, w5, w6, w7, wJ, w8, w9, w10, w11⟩ := hInv
  have hcidm := getD_mem_of_lt _ (st₀.dnode i).explored_children hlt
  obtain ⟨hcidlt, hcidpar⟩ := w6 i hi _ hcidm
  have hdI : stC.dnode i = { st₀.dnode i with
      explored_children := (st₀.dnode i).explored_children + 1 } :=
    dnode_set_self st₀ stC _ i hCd hi
  have hdO : ∀ j, j ≠ i → stC.dnode j = st₀.dnode j :=
    fun j hj => dnode_set_ne st₀ stC _ i hCd j hj
  have hcE : ∀ c, stC.cnode c = st₀.cnode c := cnode_congr stC st₀ hCc
  have hdlen : stC.dnodes.length = st₀.dnodes.length := by rw [hCd]; simp
  have hclen : stC.cnodes.length = st₀.cnodes.length := by rw [hCc]
  have hdpar : ∀ j, (stC.dnode j).parent = (st₀.dnode j).parent := by
    intro j
    by_cases hj : j = i
    · subst hj; rw [hdI]
    · rw [hdO j hj]
  have hdch : ∀ j, (stC.dnode j).children = (st₀.dnode j).children := by
    intro j
    by_cases hj : j = i
    · subst hj; rw [hdI]
    · rw [hdO j hj]
  have hddep : ∀ j, (stC.dnode j).depth = (st₀.dnode j).depth := by
    intro j
    by_cases hj : j = i
    · subst hj; rw [hdI]
    · rw [hdO j hj]
  have hdvis : ∀ j, (stC.dnode j).visits = (st₀.dnode j).visits := by
    intro j
    by_cases hj : j = i
    · subst hj; rw [hdI]
    · rw [hdO j hj]
  refine ⟨⟨?_, ?_, ?_, ?_, ?_, ?_, ?_, ?_, ?_, ?_, ?_, ?_, ?_, ?_, ?_⟩,
    by rw [hcE]; exact hcidpar, hcidlt⟩
  · omega
  · intro j hj hpn
    rw [hdlen] at hj
    rw [hdpar] at hpn
    exact w2 j hj hpn
  · rw [hdpar]
    exact w3
  · intro j hj q hq
    rw [hdlen] at hj
    rw [hdpar] at hq
    obtain ⟨hqlt, hqm⟩ := w4 j hj q hq
    exact ⟨by omega, by rw [hcE]; exact hqm⟩
  · intro c hc
    rw [hclen] at hc
    rw [hcE, hdlen]
    exact w5 c hc
  · intro j hj c hcm
    rw [hdlen] at hj
    rw [hdch] at hcm
    obtain ⟨hclt, hcp⟩ := w6 j hj c hcm
    exact ⟨by omega, by rw [hcE]; exact hcp⟩
  · intro c hc d hdm
    rw [hclen] at hc
    rw [hcE] at hdm
    obtain ⟨hdlt, hdp⟩ := w7 c hc d hdm
    exact ⟨by omega, by rw [hdpar]; exact hdp⟩
  · intro c hc hcne
    rw [hclen] at hc
    rw [hcE] at hcne ⊢
    exact w8 c hc hcne
  · intro c hc
    rw [hclen] at hc
    rw [hcE, hdch]
    exact w9 c hc
  · intro c hc
    rw [hclen] at hc
    rw [hcE, hddep]
    exact w10 c hc
  · intro j hj q hq
    rw [hdlen] at hj
    rw [hdpar] at hq
    rw [hddep, hcE]
    exact w11 j hj q hq
  · rw [hclen]
    exact hcidlt
  · intro j hj
    rw [hdlen] at hj
    rw [hdch]
    by_cases hji : j = i
    · subst hji
      rw [hdI]
      show (st₀.dnode j).explored_children + 1 ≤ (st₀.dnode j).children.length
      omega
    · rw [hdO j hji]
      exact (wJ j hj).1
  · intro j hj
    rw [hdlen] at hj
    rw [hdvis]
    by_cases hji : j = i
    · subst hji
      rw [hdI]
      refine Or.inr ⟨by rw [hcE]; exact hcidpar.symm, ?_⟩
      show (st₀.dnode j).explored_children + 1 ≤ (st₀.dnode j).visits + 1
      have := (wJ j hj).2.1
      omega
    · rw [hdO j hji]
      exact Or.inl (wJ j hj).2.1
  · intro j hj m hm
    rw [hdlen] at hj
    rw [hdch, hcE]
    by_cases hji : j = i
    · subst hji
      rw [hdI] at hm
      have hm2 : m < (st₀.dnode j).explored_children + 1 := hm
      by_cases hmo : m < (st₀.dnode j).explored_children
      · exact Or.inl ((wJ j hj).2.2 m hmo)
      · have : m = (st₀.dnode j).explored_children := by omega
        subst this
        exact Or.inr rfl
    · rw [hdO j hji] at hm
      exact Or.inl ((wJ j hj).2.2 m hm)

/-- The evaluation-plus-backpropagation tail of one rollout, starting at chance
node `i` of `st₁` (the state after expansion). -/
def evalBackprop (ag : Agent σ α) (env : Env σ α) (term : Bool) (rews : List ℚ)
    (st₁ : SState σ α) (i : Nat) : Except Err (SState σ α) :=
  backpropLoop ag.gamma (st₁.cnodes.length + 2)
    { st₁ with tick := (evalLoop env ag.gamma ag.max_depth (st₁.cnode i).depth
        (ag.max_depth + 2) 0 (st₁.dnode ((st₁.cnode i).parent)).state 0 term
        st₁.tick).2.2 }
    (some (.cn i)) rews
    (evalLoop env ag.gamma ag.max_depth (st₁.cnode i).depth (ag.max_depth + 2) 0
      (st₁.dnode ((st₁.cnode i).parent)).state 0 term st₁.tick).1

theorem rolloutStep_eq (ag : Agent σ α) (env : Env σ α) (done : Bool)
    (st : SState σ α) :
    rolloutStep ag env done st =
      (do
        let r ← selectLoop ag env (st.dnodes.length + st.cnodes.length + 2) st
          (.dn 0) [] none done
        let e ← expandPhase ag env r.st r.node r.state_p r.terminal
          r.expand_chance_node
        match e.2 with
        | none => throw .noneParent
        | some (.dn _) => throw .attrErr
        | some (.cn i) => evalBackprop ag env r.terminal r.rewards e.1 i) := rfl

theorem inv_congr (sA sB : SState σ α)
    (hd : sB.dnodes = sA.dnodes) (hc : sB.cnodes = sA.cnodes)
    (h : Inv sA) : Inv sB := by
  have hdN : ∀ j, sB.dnode j = sA.dnode j := dnode_congr sB sA hd
  have hcN : ∀ j, sB.cnode j = sA.cnode j := cnode_congr sB sA hc
  unfold Inv
  simp only [hd, hc, hdN, hcN]
  exact h

theorem rootMass_ext (sA sB : SState σ α)
    (h0 : (sB.dnode 0).children = (sA.dnode 0).children)
    (hr : ∀ c ∈ (sA.dnode 0).children,
      (sB.cnode c).sampled_returns.length = (sA.cnode c).sampled_returns.length) :
    rootMass sB = rootMass sA := by
  unfold rootMass
  rw [h0]
  exact congrArg List.sum (List.map_congr_left (fun c hc => hr c hc))

/-- Running the evaluation/backpropagation tail from a pre-backprop well-formed
state restores the invariant, adds a sampled return to a root child, logs only
backpropagation events, flips emptiness only at the start node, and — when the
start node had no sampled return — stores exactly the default-policy estimate
evaluated from its parent decision node state. -/
theorem evalBackprop_finish (ag : Agent σ α) (env : Env σ α) (term : Bool)
    (rews : List ℚ) (st₁ : SState σ α) (i : Nat) (st' : SState σ α)
    (h : evalBackprop ag env term rews st₁ i = .ok st')
    (hB : InvB st₁ i) :
    Inv st' ∧
    rootMass st₁ + 1 ≤ rootMass st' ∧
    (∃ LB, st'.evLog = st₁.evLog ++ LB ∧ ∀ ev ∈ LB, ∀ c, ev ≠ Event.transAt c) ∧
    (∀ c, (st₁.cnode c).sampled_returns = [] → (st'.cnode c).sampled_returns ≠ [] →
      c = i) ∧
    ((st₁.cnode i).sampled_returns = [] →
      ∃ term2 tk, (st'.cnode i).sampled_returns
        = [(evalLoop env ag.gamma ag.max_depth (st'.cnode i).depth
            (ag.max_depth + 2) 0 (st'.dnode ((st'.cnode i).parent)).state 0
            term2 tk).1]) := by
  unfold evalBackprop at h
  have hB2 : InvB { st₁ with tick := (evalLoop env ag.gamma ag.max_depth
      (st₁.cnode i).depth (ag.max_depth + 2) 0
      (st₁.dnode ((st₁.cnode i).parent)).state 0 term st₁.tick).2.2 } i := hB
  obtain ⟨hI, hmass, ⟨LB, hLB, hLBev⟩, honly, hval, hdep, hpar, hstate⟩ :=
    bp_finish ag.gamma (st₁.cnodes.length + 2) _ st' i rews _ h hB2
  refine ⟨hI, hmass, ⟨LB, hLB, hLBev⟩, honly, ?_⟩
  intro hE
  refine ⟨term, st₁.tick, ?_⟩
  have hv := hval hE
  rw [hdep, hpar, hstate]
  exact hv

/-- One successful rollout from a well-formed tree: the invariant is preserved,
the total number of sampled returns on root children grows by at least one, and
the chance nodes whose `sampled_returns` went from empty to non-empty (the
first-descended ones) got no transition request logged in this rollout and hold
exactly the default-policy estimate evaluated from their parent decision node
state. -/
theorem rollout_master (ag : Agent σ α) (env : Env σ α) (done : Bool)
    (HS : ∀ n (l : List Nat), (ag.shuffle n l).Perm l)
    (st st' : SState σ α) (hInv : Inv st)
    (hok : rolloutStep ag env done st = .ok st') :
    Inv st' ∧
    rootMass st + 1 ≤ rootMass st' ∧
    (∃ L, st'.evLog = st.evLog ++ L ∧
      ∀ c, (st.cnode c).sampled_returns = [] → (st'.cnode c).sampled_returns ≠ [] →
        (∀ ev ∈ L, ev ≠ Event.transAt c) ∧
        ∃ term tk, (st'.cnode c).sampled_returns
          = [(evalLoop env ag.gamma ag.max_depth (st'.cnode c).depth
              (ag.max_depth + 2) 0 (st'.dnode ((st'.cnode c).parent)).state 0
              term tk).1]) := by
  obtain ⟨w1, w2, w3, w4, w5, w6, w7, wJ, w8, w9, w10, w11⟩ := id hInv
  rw [rolloutStep_eq] at hok
  cases hsel : selectLoop ag env (st.dnodes.length + st.cnodes.length + 2) st
      (.dn 0) [] none done with
  | error er =>
    rw [hsel] at hok
    have h2 : (Except.error er : Except Err (SState σ α)) = Except.ok st' := hok
    cases h2
  | ok r =>
    rw [hsel] at hok
    have hok2 : (do
        let e ← expandPhase ag env r.st r.node r.state_p r.terminal
          r.expand_chance_node
        match e.2 with
        | none => throw Err.noneParent
        | some (.dn _) => throw Err.attrErr
        | some (.cn i) => evalBackprop ag env r.terminal r.rewards e.1 i)
        = Except.ok st' := hok
    have hnodeok : nodeOK st (.dn 0) := ⟨w1, fun p hp => by rw [w3] at hp; cases hp⟩
    obtain ⟨g1, g2, g3, ⟨L, hL, hLev⟩, hdisj⟩ :=
      selectLoop_spec ag env _ st (.dn 0) [] none done r hsel w6 w7 wJ hnodeok
    have hnotrans : ∀ c, (st.cnode c).sampled_returns = [] →
        ∀ ev ∈ L, ev ≠ Event.transAt c := by
      intro c hcE ev hev heq
      obtain ⟨c2, hc2eq, _, hc2ret⟩ := hLev ev hev
      rw [heq] at hc2eq
      cases hc2eq
      exact hc2ret hcE
    rcases hdisj with ⟨hdnA, hflagA, hinner⟩ |
        ⟨hdnB, hflagB, p, s2, hnB, hpltB, hretB, hspB⟩ |
        ⟨i, hiC, htermC, hltC, hdnC, hnodeC, hflagC⟩
    · rcases hinner with ⟨hnA, hstA, htermA, hchA⟩ | hnA | ⟨p, hnA, hpltA, hpretA⟩
      · rw [hnA, hflagA, hstA, htermA, expand_dn_eq] at hok2
        cases done with
        | true =>
          rw [if_pos rfl, w3] at hok2
          have h2 : (Except.error Err.noneParent : Except Err (SState σ α))
              = Except.ok st' := hok2
          cases h2
        | false =>
          rw [if_neg (by simp)] at hok2
          cases hsh : ag.shuffle st.tick
              ((List.range env.actions.length).map (· + st.cnodes.length)) with
          | nil =>
            rw [hsh] at hok2
            have h2 : (Except.error Err.indexErr : Except Err (SState σ α))
                = Except.ok st' := hok2
            cases h2
          | cons c0 rest =>
            rw [hsh] at hok2
            generalize hE : ({ st with
              cnodes := st.cnodes ++ env.actions.map
                (fun a => mkChance 0 a (st.dnode 0).depth (st.dnode 0).state
                   env.equality_operator st.histories),
              dnodes := st.dnodes.set 0
                { st.dnode 0 with
                  children := (c0 :: rest),
                  explored_children := (st.dnode 0).explored_children + 1 },
              tick := st.tick + 1 } : SState σ α) = stE at hok2
            have hEd : stE.dnodes = st.dnodes.set 0
                { st.dnode 0 with
                  children := (c0 :: rest),
                  explored_children := (st.dnode 0).explored_children + 1 } := by
              rw [← hE]
            have hEc : stE.cnodes = st.cnodes ++ env.actions.map
                (fun a => mkChance 0 a (st.dnode 0).depth (st.dnode 0).state
                   env.equality_operator st.histories) := by
              rw [← hE]
            have hEe : stE.evLog = st.evLog := by rw [← hE]
            have htail : evalBackprop ag env false r.rewards stE c0
                = Except.ok st' := hok2
            obtain ⟨hBE, hc0par, hc0ret, hcold, hcnew, hdother, hdi⟩ :=
              invB_expand ag env st stE 0 c0 rest hInv w1 hchA HS hsh hEd hEc
            obtain ⟨hI2, hmass, ⟨LB, hLB, hLBev⟩, honly, hval⟩ :=
              evalBackprop_finish ag env false r.rewards stE c0 st' htail hBE
            have hmass0 : rootMass st = 0 := by
              unfold rootMass
              rw [hchA]
              rfl
            refine ⟨hI2, by omega, LB, by rw [hLB, hEe], ?_⟩
            intro c hcE hcN
            have hcEE : (stE.cnode c).sampled_returns = [] := by
              by_cases hco : c < st.cnodes.length
              · rw [hcold c hco]
                exact hcE
              · exact hcnew c hco
            have hci : c = c0 := honly c hcEE hcN
            subst hci
            exact ⟨fun ev hev heq => hLBev ev hev c heq, hval hcEE⟩
      · rw [hnA, hflagA, expand_none_eq] at hok2
        have h2 : (Except.error Err.noneParent : Except Err (SState σ α))
            = Except.ok st' := hok2
        cases h2
      · rw [hnA, hflagA, expand_cn_eq] at hok2
        have htail : evalBackprop ag env r.terminal r.rewards r.st p
            = Except.ok st' := hok2
        have hBA : InvB r.st p :=
          invB_congr st r.st p hdnA g3 (inv_imp_invB st p hInv hpltA)
        obtain ⟨hI2, hmass, ⟨LB, hLB, hLBev⟩, honly, hval⟩ :=
          evalBackprop_finish ag env r.terminal r.rewards r.st p st' htail hBA
        have hmeq : rootMass r.st = rootMass st := by
          refine rootMass_ext st r.st ?_ ?_
          · rw [dnode_congr r.st st hdnA 0]
          · intro c _
            rw [cnode_congr r.st st g3 c]
        refine ⟨hI2, by omega, L ++ LB, ?_, ?_⟩
        · rw [hLB, hL, List.append_assoc]
        · intro c hcE hcN
          have hcEE : (r.st.cnode c).sampled_returns = [] := by
            rw [cnode_congr r.st st g3 c]
            exact hcE
          have hci : c = p := honly c hcEE hcN
          rw [hci, cnode_congr r.st st g3 p] at hcEE
          exact absurd hcEE hpretA
    · rw [hnB, hflagB, hspB, expand_flag_eq] at hok2
      generalize hD : ({ r.st with
        dnodes := r.st.dnodes ++
          [⟨some p, s2, r.terminal, (r.st.cnode p).depth + 1, [], 0, 0⟩],
        cnodes := r.st.cnodes.set p { r.st.cnode p with
          children := (r.st.cnode p).children ++ [r.st.dnodes.length] } } :
          SState σ α) = stD at hok2
      have hDd : stD.dnodes = r.st.dnodes ++
          [⟨some p, s2, r.terminal, (r.st.cnode p).depth + 1, [], 0, 0⟩] := by
        rw [← hD]
      have hDc : stD.cnodes = r.st.cnodes.set p { r.st.cnode p with
          children := (r.st.cnode p).children ++ [r.st.dnodes.length] } := by
        rw [← hD]
      have hDe : stD.evLog = r.st.evLog := by rw [← hD]
      have hDt : stD.tick = r.st.tick := by rw [← hD]
      have hInvR : Inv r.st := inv_congr st r.st hdnB g3 hInv
      have hpltR : p < r.st.cnodes.length := by rw [g3]; exact hpltB
      have hretR : (r.st.cnode p).sampled_returns ≠ [] := by
        rw [cnode_congr r.st st g3 p]
        exact hretB
      obtain ⟨hInvD, hDdl, hDcl, hdoldD, hdNewD, hcretD, hcdepD, hcparD⟩ :=
        inv_newdn r.st stD p s2 r.terminal hInvR hpltR hretR hDd hDc
      have hmeqD : rootMass stD = rootMass st := by
        refine rootMass_ext st stD ?_ ?_
        · rw [hdoldD 0 hInvR.1, dnode_congr r.st st hdnB 0]
        · intro c _
          rw [hcretD c, cnode_congr r.st st g3 c]
      have hretEq : ∀ c, (stD.cnode c).sampled_returns
          = (st.cnode c).sampled_returns := by
        intro c
        rw [hcretD c, cnode_congr r.st st g3 c]
      cases hterm2 : r.terminal with
      | true =>
        rw [hterm2, expand_dn_eq, if_pos rfl] at hok2
        rw [show stD.dnode r.st.dnodes.length
            = (⟨some p, s2, true, (r.st.cnode p).depth + 1, [], 0, 0⟩ :
              DecisionNode σ) from by rw [← hterm2]; exact hdNewD] at hok2
        have htail : evalBackprop ag env true r.rewards stD p
            = Except.ok st' := hok2
        have hBD : InvB stD p :=
          inv_imp_invB stD p hInvD (by rw [hDcl]; exact hpltR)
        obtain ⟨hI2, hmass, ⟨LB, hLB, hLBev⟩, honly, hval⟩ :=
          evalBackprop_finish ag env true r.rewards stD p st' htail hBD
        refine ⟨hI2, by omega, L ++ LB, ?_, ?_⟩
        · rw [hLB, hDe, hL, List.append_assoc]
        · intro c hcE hcN
          have hcEE : (stD.cnode c).sampled_returns = [] := by
            rw [hretEq c]
            exact hcE
          have hci : c = p := honly c hcEE hcN
          rw [hci, hretEq p] at hcEE
          exact absurd hcEE hretB
      | false =>
        rw [hterm2, expand_dn_eq, if_neg (by simp)] at hok2
        cases hsh : ag.shuffle stD.tick
            ((List.range env.actions.length).map (· + stD.cnodes.length)) with
        | nil =>
          rw [hsh] at hok2
          have h2 : (Except.error Err.indexErr : Except Err (SState σ α))
              = Except.ok st' := hok2
          cases h2
        | cons c0 rest =>
          rw [hsh] at hok2
          generalize hE2 : ({ stD with
            cnodes := stD.cnodes ++ env.actions.map
              (fun a => mkChance r.st.dnodes.length a
                 (stD.dnode r.st.dnodes.length).depth
                 (stD.dnode r.st.dnodes.length).state
                 env.equality_operator stD.histories),
            dnodes := stD.dnodes.set r.st.dnodes.length
              { stD.dnode r.st.dnodes.length with
                children := (c0 :: rest),
                explored_children :=
                  (stD.dnode r.st.dnodes.length).explored_children + 1 },
            tick := stD.tick + 1 } : SState σ α) = stE2 at hok2
          have hE2d : stE2.dnodes = stD.dnodes.set r.st.dnodes.length
              { stD.dnode r.st.dnodes.length with
                children := (c0 :: rest),
                explored_children :=
                  (stD.dnode r.st.dnodes.length).explored_children + 1 } := by
            rw [← hE2]
          have hE2c : stE2.cnodes = stD.cnodes ++ env.actions.map
              (fun a => mkChance r.st.dnodes.length a
                 (stD.dnode r.st.dnodes.length).depth
                 (stD.dnode r.st.dnodes.length).state
                 env.equality_operator stD.histories) := by
            rw [← hE2]
          have hE2e : stE2.evLog = stD.evLog := by rw [← hE2]
          have htail : evalBackprop ag env false r.rewards stE2 c0
              = Except.ok st' := hok2
          have hdidlt : r.st.dnodes.length < stD.dnodes.length := by
            rw [hDdl]
            omega
          obtain ⟨hBE, hc0par, hc0ret, hcold, hcnew, hdother, hdi⟩ :=
            invB_expand ag env stD stE2 r.st.dnodes.length c0 rest hInvD hdidlt
              (by rw [hdNewD]) HS hsh hE2d hE2c
          obtain ⟨hI2, hmass, ⟨LB, hLB, hLBev⟩, honly, hval⟩ :=
            evalBackprop_finish ag env false r.rewards stE2 c0 st' htail hBE
          have hmeqE : rootMass stE2 = rootMass stD := by
            refine rootMass_ext stD stE2 ?_ ?_
            · rw [hdother 0 (by rw [hdnB]; omega)]
            · intro c hc
              have hclt : c < stD.cnodes.length :=
                ((hInvD.2.2.2.2.2.1) 0 hInvD.1 c hc).1
              rw [hcold c hclt]
          refine ⟨hI2, by omega, L ++ LB, ?_, ?_⟩
          · rw [hLB, hE2e, hDe, hL, List.append_assoc]
          · intro c hcE hcN
            have hcEE : (stE2.cnode c).sampled_returns = [] := by
              by_cases hco : c < stD.cnodes.length
              · rw [hcold c hco, hretEq c]
                exact hcE
              · exact hcnew c hco
            have hci : c = c0 := honly c hcEE hcN
            subst hci
            refine ⟨?_, hval hcEE⟩
            intro ev hev
            rcases List.mem_append.1 hev with hevL | hevB
            · exact hnotrans c hcE ev hevL
            · exact hLBev ev hevB c
    · rw [hnodeC, hflagC, expand_cn_eq] at hok2
      have htail : evalBackprop ag env r.terminal r.rewards r.st
          ((st.dnode i).children.getD (st.dnode i).explored_children 0)
          = Except.ok st' := hok2
      obtain ⟨hBC, hcidparC, hcidltC⟩ :=
        invB_increment st r.st i hInv hiC hltC hdnC g3
      obtain ⟨hI2, hmass, ⟨LB, hLB, hLBev⟩, honly, hval⟩ :=
        evalBackprop_finish ag env r.terminal r.rewards r.st _ st' htail hBC
      have hch0eq : (r.st.dnode 0).children = (st.dnode 0).children := by
        by_cases h0 : 0 = i
        · subst h0
          rw [dnode_set_self st r.st _ 0 hdnC hiC]
        · rw [dnode_set_ne st r.st _ i hdnC 0 h0]
      have hmeq : rootMass r.st = rootMass st := by
        refine rootMass_ext st r.st hch0eq ?_
        intro c _
        rw [cnode_congr r.st st g3 c]
      refine ⟨hI2, by omega, L ++ LB, ?_, ?_⟩
      · rw [hLB, hL, List.append_assoc]
      · intro c hcE hcN
        have hcEE : (r.st.cnode c).sampled_returns = [] := by
          rw [cnode_congr r.st st g3 c]
          exact hcE
        have hci := honly c hcEE hcN
        rw [hci] at hcEE
        refine ⟨?_, ?_⟩
        · intro ev hev
          rcases List.mem_append.1 hev with hevL | hevB
          · exact hnotrans c hcE ev hevL
          · exact hLBev ev hevB c
        · rw [hci]
          exact hval hcEE

end RolloutMaster

section ErrShapes

variable [Inhabited σ] [Inhabited α] [DecidableEq α]

theorem foldlM_err_all {A B : Type} (f : A → B → Except Err A) (P : Err → Prop)
    (hf : ∀ a b e2, f a b = .error e2 → P e2) :
    ∀ (l : List B) (a : A) (e2 : Err), l.foldlM f a = .error e2 → P e2 := by
  intro l
  induction l with
  | nil => intro a e2 h; cases h
  | cons b bs ih =>
    intro a e2 h
    rw [List.foldlM_cons] at h
    cases hfb : f a b with
    | error e3 =>
      rw [hfb] at h
      have h2 : (Except.error e3 : Except Err A) = Except.error e2 := h
      rw [Except.error.inj h2] at hfb
      exact hf a b e2 hfb
    | ok a2 =>
      rw [hfb, exc_bind_ok] at h
      exact ih a2 e2 h

theorem snapshot_err (returns : List ℚ) (e : Err)
    (h : snapshot_value returns = .error e) : e = .zeroDiv := by
  unfold snapshot_value at h
  by_cases hl : returns.length = 0
  · rw [if_pos hl] at h
    exact (Except.error.inj h).symm
  · rw [if_neg hl] at h
    cases h

theorem expand_flag_dn (ag : Agent σ α) (env : Env σ α) (st₀ : SState σ α)
    (i : Nat) (sp : Option σ) (term : Bool) :
    expandPhase ag env st₀ (some (.dn i)) sp term true
      = expandPhase ag env st₀ (some (.dn i)) sp term false := rfl

theorem expand_flag_none (ag : Agent σ α) (env : Env σ α) (st₀ : SState σ α)
    (sp : Option σ) (term : Bool) :
    expandPhase ag env st₀ none sp term true
      = expandPhase ag env st₀ none sp term false := rfl

theorem expandPhase_err (ag : Agent σ α) (env : Env σ α) (st₀ : SState σ α)
    (node₀ : Option NRef) (sp : Option σ) (term : Bool) (flag : Bool) (e : Err)
    (h : expandPhase ag env st₀ node₀ sp term flag = .error e) :
    e = .bug ∨ e = .indexErr := by
  have hdn : ∀ (stX : SState σ α) (i : Nat),
      expandPhase ag env stX (some (.dn i)) sp term false = .error e →
      e = .bug ∨ e = .indexErr := by
    intro stX i h2
    rw [expand_dn_eq] at h2
    cases term with
    | true =>
      rw [if_pos rfl] at h2
      cases h2
    | false =>
      rw [if_neg (by simp)] at h2
      cases hsh : ag.shuffle stX.tick
          ((List.range env.actions.length).map (· + stX.cnodes.length)) with
      | nil =>
        rw [hsh] at h2
        exact Or.inr (Except.error.inj h2).symm
      | cons c0 rest =>
        rw [hsh] at h2
        cases h2
  match flag, node₀, sp with
  | true, some (.cn i), none =>
    exact Or.inl (Except.error.inj h).symm
  | true, some (.cn i), some s2 =>
    rw [expand_flag_eq] at h
    exact hdn _ _ h
  | true, some (.dn i), sp =>
    rw [expand_flag_dn] at h
    exact hdn _ _ h
  | true, none, sp =>
    rw [expand_flag_none, expand_none_eq] at h
    cases h
  | false, some (.cn i), sp =>
    rw [expand_cn_eq] at h
    cases h
  | false, some (.dn i), sp =>
    exact hdn _ _ h
  | false, none, sp =>
    rw [expand_none_eq] at h
    cases h

theorem backpropLoop_err (gamma : ℚ) :
    ∀ (fuel : Nat) (st : SState σ α) (node : Option NRef) (rews : List ℚ)
      (est : ℚ) (e : Err),
      backpropLoop gamma fuel st node rews est = .error e →
      e = .fuel ∨ e = .attrErr := by
  intro fuel
  induction fuel with
  | zero =>
    intro st node rews est e h
    exact Or.inl (Except.error.inj h).symm
  | succ fuel ih =>
    intro st node rews est e h
    match node with
    | none => cases h
    | some (.dn i) => exact Or.inr (Except.error.inj h).symm
    | some (.cn i) =>
      rw [bp_step_eq] at h
      exact ih _ _ _ _ e h

theorem uhStep_err (env : Env σ α) (rec : SState σ α → Nat → Except Err (SState σ α))
    (hrec : ∀ s d e2, rec s d = .error e2 → e2 = .fuel) :
    ∀ (s : SState σ α) (cid : Nat) (e2 : Err),
      uhStep env rec s cid = .error e2 → e2 = .fuel := by
  intro s cid e2 h
  unfold uhStep at h
  by_cases hie : (s.cnode cid).sampled_returns.isEmpty = true
  · rw [if_pos hie] at h
    cases h
  · rw [if_neg hie] at h
    obtain ⟨v, hv⟩ := snapshot_ok (s.cnode cid).sampled_returns
      (by revert hie; cases (s.cnode cid).sampled_returns.isEmpty <;> simp)
    rw [hv] at h
    have h2 : ((s.cnode cid).children.foldlM (fun a b => rec a b)
        (match findHistFirst s.histories env.equality_operator
            ((s.dnode (s.cnode cid).parent).state) (s.cnode cid).action with
          | some j => appendTuple s j ⟨(s.cnode cid).depth, v⟩
          | none => { s with histories := s.histories ++
              [⟨(s.dnode (s.cnode cid).parent).state, (s.cnode cid).action,
                [⟨(s.cnode cid).depth, v⟩]⟩] })) = Except.error e2 := h
    exact foldlM_err_all (fun a b => rec a b) (· = Err.fuel)
      (fun a b e3 h3 => hrec a b e3 h3) _ _ e2 h2

theorem update_histories_err (env : Env σ α) :
    ∀ (fuel : Nat) (s : SState σ α) (did : Nat) (e : Err),
      update_histories env fuel s did = .error e → e = .fuel := by
  intro fuel
  induction fuel with
  | zero =>
    intro s did e h
    exact (Except.error.inj h).symm
  | succ fuel ih =>
    intro s did e h
    have h2 : (s.dnode did).children.foldlM
        (uhStep env (update_histories env fuel)) s = .error e := h
    exact foldlM_err_all _ (· = Err.fuel)
      (uhStep_err env _ (fun s2 d2 e2 h3 => ih s2 d2 e2 h3)) _ _ e h2

theorem extract_data_err (env : Env σ α) (s : SState σ α) (did : Nat) (e : Err)
    (h : extract_data env s did = .error e) : e = .zeroDiv := by
  unfold extract_data at h
  refine foldlM_err_all _ (· = Err.zeroDiv) ?_ _ _ e h
  intro data cid e2 h2
  refine foldlM_err_all _ (· = Err.zeroDiv) ?_ _ _ e2 h2
  intro data2 ht e3 h3
  cases hsv : snapshot_value ((s.cnode cid).sampled_returns) with
  | error e4 =>
    rw [hsv] at h3
    have h4 : (Except.error e4 : Except Err (List (α × List ℚ × ℚ)))
        = Except.error e3 := h3
    rw [Except.error.inj h4] at hsv
    exact snapshot_err _ _ hsv
  | ok v =>
    rw [hsv] at h3
    cases h3

theorem update_model_err (env : Env σ α) (s : SState σ α) (e : Err)
    (h : update_model env s = .error e) : e = .zeroDiv := by
  unfold update_model at h
  cases hx : extract_data env s 0 with
  | error e2 =>
    rw [hx] at h
    have h2 : (Except.error e2 : Except Err (SState σ α)) = Except.error e := h
    rw [Except.error.inj h2] at hx
    exact extract_data_err env s 0 e hx
  | ok data =>
    rw [hx] at h
    by_cases hde : data.isEmpty = true
    · rw [exc_bind_ok, if_pos hde] at h
      cases h
    · rw [exc_bind_ok, if_neg hde] at h
      cases h

theorem foldlM_nodes {B : Type} (f : SState σ α → B → Except Err (SState σ α))
    (hf : ∀ s b s2, f s b = .ok s2 → s2.dnodes = s.dnodes ∧ s2.cnodes = s.cnodes) :
    ∀ (l : List B) (s s2 : SState σ α), l.foldlM f s = .ok s2 →
      s2.dnodes = s.dnodes ∧ s2.cnodes = s.cnodes := by
  intro l
  induction l with
  | nil =>
    intro s s2 h
    cases h
    exact ⟨rfl, rfl⟩
  | cons b bs ih =>
    intro s s2 h
    rw [List.foldlM_cons] at h
    cases hfb : f s b with
    | error e => rw [hfb] at h; cases h
    | ok s1 =>
      rw [hfb, exc_bind_ok] at h
      obtain ⟨d1, c1⟩ := hf s b s1 hfb
      obtain ⟨d2, c2⟩ := ih s1 s2 h
      exact ⟨d2.trans d1, c2.trans c1⟩

theorem uhStep_nodes (env : Env σ α)
    (rec : SState σ α → Nat → Except Err (SState σ α))
    (hrec : ∀ s d s2, rec s d = .ok s2 → s2.dnodes = s.dnodes ∧ s2.cnodes = s.cnodes) :
    ∀ (s : SState σ α) (cid : Nat) (s2 : SState σ α),
      uhStep env rec s cid = .ok s2 → s2.dnodes = s.dnodes ∧ s2.cnodes = s.cnodes := by
  intro s cid s2 h
  unfold uhStep at h
  by_cases hie : (s.cnode cid).sampled_returns.isEmpty = true
  · rw [if_pos hie] at h
    cases h
    exact ⟨rfl, rfl⟩
  · rw [if_neg hie] at h
    obtain ⟨v, hv⟩ := snapshot_ok (s.cnode cid).sampled_returns
      (by revert hie; cases (s.cnode cid).sampled_returns.isEmpty <;> simp)
    rw [hv] at h
    have h2 : ((s.cnode cid).children.foldlM (fun a b => rec a b)
        (match findHistFirst s.histories env.equality_operator
            ((s.dnode (s.cnode cid).parent).state) (s.cnode cid).action with
          | some j => appendTuple s j ⟨(s.cnode cid).depth, v⟩
          | none => { s with histories := s.histories ++
              [⟨(s.dnode (s.cnode cid).parent).state, (s.cnode cid).action,
                [⟨(s.cnode cid).depth, v⟩]⟩] })) = Except.ok s2 := h
    obtain ⟨hd, hc⟩ := foldlM_nodes (fun a b => rec a b)
      (fun a b s3 h3 => hrec a b s3 h3) _ _ s2 h2
    cases hf : findHistFirst s.histories env.equality_operator
        ((s.dnode (s.cnode cid).parent).state) (s.cnode cid).action with
    | some j =>
      rw [hf] at hd hc
      exact ⟨hd.trans (appendTuple_dnodes s j _),
        hc.trans (appendTuple_cnodes s j _)⟩
    | none =>
      rw [hf] at hd hc
      exact ⟨hd, hc⟩

theorem update_histories_nodes (env : Env σ α) :
    ∀ (fuel : Nat) (s : SState σ α) (did : Nat) (s2 : SState σ α),
      update_histories env fuel s did = .ok s2 →
      s2.dnodes = s.dnodes ∧ s2.cnodes = s.cnodes := by
  intro fuel
  induction fuel with
  | zero => intro s did s2 h; cases h
  | succ fuel ih =>
    intro s did s2 h
    have h2 : (s.dnode did).children.foldlM
        (uhStep env (update_histories env fuel)) s = .ok s2 := h
    exact foldlM_nodes _ (uhStep_nodes env _ (fun a b s3 h3 => ih a b s3 h3)) _ _ s2 h2

theorem update_model_nodes (env : Env σ α) (s s2 : SState σ α)
    (h : update_model env s = .ok s2) :
    s2.dnodes = s.dnodes ∧ s2.cnodes = s.cnodes := by
  unfold update_model at h
  cases hx : extract_data env s 0 with
  | error e => rw [hx] at h; cases h
  | ok data =>
    rw [hx, exc_bind_ok] at h
    by_cases hde : data.isEmpty = true
    · rw [if_pos hde] at h
      cases h
      exact ⟨rfl, rfl⟩
    · rw [if_neg hde] at h
      cases h
      exact ⟨rfl, rfl⟩

end ErrShapes

section ActLevel

variable [Inhabited σ] [Inhabited α] [DecidableEq α]

theorem rolloutStep_no_sd (ag : Agent σ α) (env : Env σ α) (done : Bool)
    (st : SState σ α) (hInv : Inv st) :
    rolloutStep ag env done st ≠ .error .scoreDomain := by
  obtain ⟨w1, w2, w3, w4, w5, w6, w7, wJ, w8, w9, w10, w11⟩ := id hInv
  intro h
  rw [rolloutStep_eq] at h
  cases hsel : selectLoop ag env (st.dnodes.length + st.cnodes.length + 2) st
      (.dn 0) [] none done with
  | error er =>
    rw [hsel] at h
    have h2 : (Except.error er : Except Err (SState σ α))
        = Except.error Err.scoreDomain := h
    rw [Except.error.inj h2] at hsel
    exact selectLoop_no_sd ag env _ st (.dn 0) [] none done w6 wJ hsel
  | ok r =>
    rw [hsel] at h
    have h2 : (do
        let e ← expandPhase ag env r.st r.node r.state_p r.terminal
          r.expand_chance_node
        match e.2 with
        | none => throw Err.noneParent
        | some (.dn _) => throw Err.attrErr
        | some (.cn i) => evalBackprop ag env r.terminal r.rewards e.1 i)
        = Except.error Err.scoreDomain := h
    cases hexp : expandPhase ag env r.st r.node r.state_p r.terminal
        r.expand_chance_node with
    | error e2 =>
      rw [hexp] at h2
      have h3 : (Except.error e2 : Except Err (SState σ α))
          = Except.error Err.scoreDomain := h2
      rw [Except.error.inj h3] at hexp
      rcases expandPhase_err ag env r.st r.node r.state_p r.terminal
          r.expand_chance_node _ hexp with h4 | h4 <;> cases h4
    | ok e2 =>
      rw [hexp] at h2
      obtain ⟨st₁, nodE⟩ := e2
      match nodE with
      | none =>
        have h3 : (Except.error Err.noneParent : Except Err (SState σ α))
            = Except.error Err.scoreDomain := h2
        cases Except.error.inj h3
      | some (.dn j) =>
        have h3 : (Except.error Err.attrErr : Except Err (SState σ α))
            = Except.error Err.scoreDomain := h2
        cases Except.error.inj h3
      | some (.cn i) =>
        have h3 : evalBackprop ag env r.terminal r.rewards st₁ i
            = Except.error Err.scoreDomain := h2
        unfold evalBackprop at h3
        rcases backpropLoop_err ag.gamma _ _ _ _ _ _ h3 with h4 | h4 <;> cases h4

theorem runRollouts_master (ag : Agent σ α) (env : Env σ α) (done : Bool)
    (HS : ∀ n (l : List Nat), (ag.shuffle n l).Perm l) :
    ∀ (n : Nat) (st stN : SState σ α), Inv st →
      runRollouts ag env done n st = .ok stN →
      Inv stN ∧ rootMass st + n ≤ rootMass stN := by
  intro n
  induction n with
  | zero =>
    intro st stN hInv h
    cases h
    exact ⟨hInv, by omega⟩
  | succ n ih =>
    intro st stN hInv h
    have h2 : (do
        let st2 ← rolloutStep ag env done st
        runRollouts ag env done n st2) = Except.ok stN := h
    cases hstep : rolloutStep ag env done st with
    | error e =>
      rw [hstep] at h2
      have h3 : (Except.error e : Except Err (SState σ α)) = Except.ok stN := h2
      cases h3
    | ok st1 =>
      rw [hstep] at h2
      have h3 : runRollouts ag env done n st1 = Except.ok stN := h2
      obtain ⟨hI1, hm1, _⟩ := rollout_master ag env done HS st st1 hInv hstep
      obtain ⟨hIN, hmN⟩ := ih st1 stN hI1 h3
      exact ⟨hIN, by omega⟩

theorem runRollouts_no_sd (ag : Agent σ α) (env : Env σ α) (done : Bool)
    (HS : ∀ n (l : List Nat), (ag.shuffle n l).Perm l) :
    ∀ (n : Nat) (st : SState σ α), Inv st →
      runRollouts ag env done n st ≠ .error .scoreDomain := by
  intro n
  induction n with
  | zero =>
    intro st _ h
    cases h
  | succ n ih =>
    intro st hInv h
    have h2 : (do
        let st2 ← rolloutStep ag env done st
        runRollouts ag env done n st2) = Except.error Err.scoreDomain := h
    cases hstep : rolloutStep ag env done st with
    | error e =>
      rw [hstep] at h2
      have h3 : (Except.error e : Except Err (SState σ α))
          = Except.error Err.scoreDomain := h2
      rw [Except.error.inj h3] at hstep
      exact rolloutStep_no_sd ag env done st hInv hstep
    | ok st1 =>
      rw [hstep] at h2
      have h3 : runRollouts ag env done n st1 = Except.error Err.scoreDomain := h2
      obtain ⟨hI1, _, _⟩ := rollout_master ag env done HS st st1 hInv hstep
      exact ih st1 hI1 h3

end ActLevel

section ClaimsFinal

variable [Inhabited σ] [Inhabited α] [DecidableEq α]

/-- C5: in every execution of `act` (fresh agent, `random.shuffle` a true
permutation), the UCB score is only ever computed during selection on a chance
node that has at least one sampled return and whose parent decision node has at
least one visit, so the logarithm and division in the score are well-defined
and the division/log domain-error branch is unreachable: `act` can never return
the score-domain error.  Any run that does fail fails with a different error
(fuel, AttributeError, IndexError, ZeroDivisionError or ValueError). -/
theorem c5_ucb_domain_safe (ag : Agent σ α) (env : Env σ α)
    (h₀ : List (History σ α)) (done : Bool)
    (HS : ∀ n (l : List Nat), (ag.shuffle n l).Perm l) :
    act ag env h₀ done ≠ .error .scoreDomain := by
  intro h
  unfold act at h
  cases hrr : runRollouts ag env done ag.rollouts (initState env h₀ done) with
  | error er =>
    rw [hrr] at h
    have h2 : (Except.error er : Except Err (α × SState σ α))
        = Except.error Err.scoreDomain := h
    rw [Except.error.inj h2] at hrr
    exact runRollouts_no_sd ag env done HS ag.rollouts (initState env h₀ done)
      (inv_init env h₀ done) hrr
  | ok stN =>
    rw [hrr] at h
    have h2 : (do
        let st2 ← update_histories env (stN.dnodes.length + 1) stN 0
        let st3 ← update_model env st2
        let best ← maxByE (inferred_value ag env st3) (st3.dnode 0).children
        pure ((st3.cnode best).action, st3)) = Except.error Err.scoreDomain := h
    cases huh : update_histories env (stN.dnodes.length + 1) stN 0 with
    | error er =>
      rw [huh] at h2
      have h3 : (Except.error er : Except Err (α × SState σ α))
          = Except.error Err.scoreDomain := h2
      rw [Except.error.inj h3] at huh
      cases update_histories_err env _ stN 0 _ huh
    | ok stU =>
      rw [huh] at h2
      have h3 : (do
          let st3 ← update_model env stU
          let best ← maxByE (inferred_value ag env st3) (st3.dnode 0).children
          pure ((st3.cnode best).action, st3)) = Except.error Err.scoreDomain := h2
      cases hum : update_model env stU with
      | error er =>
        rw [hum] at h3
        have h4 : (Except.error er : Except Err (α × SState σ α))
            = Except.error Err.scoreDomain := h3
        rw [Except.error.inj h4] at hum
        cases update_model_err env stU _ hum
      | ok stM =>
        rw [hum] at h3
        have h4 : (do
            let best ← maxByE (inferred_value ag env stM) (stM.dnode 0).children
            pure ((stM.cnode best).action, stM))
            = Except.error Err.scoreDomain := h3
        cases hbest : maxByE (inferred_value ag env stM) (stM.dnode 0).children with
        | error er =>
          rw [hbest] at h4
          have h5 : (Except.error er : Except Err (α × SState σ α))
              = Except.error Err.scoreDomain := h4
          rw [Except.error.inj h5] at hbest
          rcases maxByE_err_shape _ _ _ hbest with h6 | ⟨x, _, hfx⟩
          · cases h6
          · cases inferred_value_err ag env stM x _ hfx
        | ok best =>
          rw [hbest] at h4
          have h5 : (Except.ok ((stM.cnode best).action, stM) :
              Except Err (α × SState σ α)) = Except.error Err.scoreDomain := h4
          cases h5

/-- Witness for `c5_ucb_domain_safe`: the `envA`/`histA` run with the identity
shuffle (a permutation). -/
theorem c5_ucb_domain_safe_witness :
    act agA envA histA false ≠ .error .scoreDomain :=
  c5_ucb_domain_safe agA envA histA false (fun _ _ => List.Perm.refl _)

/-- C7: for every rollout count and every successful `act` call (fresh agent,
`random.shuffle` a true permutation), the sum over the root children of the
lengths of their `sampled_returns` lists is at least the rollout count: each
completed rollout backpropagates exactly one new return onto some root child,
and the histories / model-update phases do not touch the tree.  (A run whose
root is terminal never returns normally — see C4 — so the claim's exclusion of
terminal-root rollouts is vacuous for runs that return.) -/
theorem c7_root_returns_lower_bound (ag : Agent σ α) (env : Env σ α)
    (h₀ : List (History σ α)) (done : Bool)
    (HS : ∀ n (l : List Nat), (ag.shuffle n l).Perm l)
    (a : α) (stF : SState σ α)
    (hok : act ag env h₀ done = .ok (a, stF)) :
    ag.rollouts ≤ ((stF.dnode 0).children.map
      (fun c => (stF.cnode c).sampled_returns.length)).sum := by
  unfold act at hok
  cases hrr : runRollouts ag env done ag.rollouts (initState env h₀ done) with
  | error er =>
    rw [hrr] at hok
    have h2 : (Except.error er : Except Err (α × SState σ α))
        = Except.ok (a, stF) := hok
    cases h2
  | ok stN =>
    rw [hrr] at hok
    have h2 : (do
        let st2 ← update_histories env (stN.dnodes.length + 1) stN 0
        let st3 ← update_model env st2
        let best ← maxByE (inferred_value ag env st3) (st3.dnode 0).children
        pure ((st3.cnode best).action, st3)) = Except.ok (a, stF) := hok
    cases huh : update_histories env (stN.dnodes.length + 1) stN 0 with
    | error er =>
      rw [huh] at h2
      have h3 : (Except.error er : Except Err (α × SState σ α))
          = Except.ok (a, stF) := h2
      cases h3
    | ok stU =>
      rw [huh] at h2
      have h3 : (do
          let st3 ← update_model env stU
          let best ← maxByE (inferred_value ag env st3) (st3.dnode 0).children
          pure ((st3.cnode best).action, st3)) = Except.ok (a, stF) := h2
      cases hum : update_model env stU with
      | error er =>
        rw [hum] at h3
        have h4 : (Except.error er : Except Err (α × SState σ α))
            = Except.ok (a, stF) := h3
        cases h4
      | ok stM =>
        rw [hum] at h3
        have h4 : (do
            let best ← maxByE (inferred_value ag env stM) (stM.dnode 0).children
            pure ((stM.cnode best).action, stM)) = Except.ok (a, stF) := h3
        cases hbest : maxByE (inferred_value ag env stM) (stM.dnode 0).children with
        | error er =>
          rw [hbest] at h4
          have h5 : (Except.error er : Except Err (α × SState σ α))
              = Except.ok (a, stF) := h4
          cases h5
        | ok best =>
          rw [hbest] at h4
          have h5 : (Except.ok ((stM.cnode best).action, stM) :
              Except Err (α × SState σ α)) = Except.ok (a, stF) := h4
          have hstF : stF = stM := (congrArg Prod.snd (Except.ok.inj h5)).symm
          obtain ⟨hIN, hmN⟩ := runRollouts_master ag env done HS ag.rollouts
            (initState env h₀ done) stN (inv_init env h₀ done) hrr
          have hm0 : rootMass (initState env h₀ done) = 0 := rfl
          obtain ⟨hUd, hUc⟩ := update_histories_nodes env _ stN 0 stU huh
          obtain ⟨hMd, hMc⟩ := update_model_nodes env stU stM hum
          have hmF : rootMass stM = rootMass stN := by
            refine rootMass_ext stN stM ?_ ?_
            · rw [dnode_congr stM stU (by rw [hMd]) 0,
                dnode_congr stU stN (by rw [hUd]) 0]
            · intro c _
              rw [cnode_congr stM stU (by rw [hMc]) c,
                cnode_congr stU stN (by rw [hUc]) c]
          have : rootMass stF = rootMass stM := by rw [hstF]
          show ag.rollouts ≤ rootMass stF
          omega

/-- The result pair of the `envA`/`histA` run (junk fallback on error). -/
def c7pair : Nat × SState Nat Nat :=
  match act agA envA histA false with
  | .ok p => p
  | .error _ => (0, initState envA [] false)

/-- Witness for `c7_root_returns_lower_bound`: the three-rollout `envA`/`histA`
run returns normally and its root children carry at least three returns. -/
theorem c7_root_returns_lower_bound_witness :
    agA.rollouts ≤ ((c7pair.2.dnode 0).children.map
      (fun c => (c7pair.2.cnode c).sampled_returns.length)).sum :=
  c7_root_returns_lower_bound agA envA histA false (fun _ _ => List.Perm.refl _)
    c7pair.1 c7pair.2 (by with_unfolding_all rfl)

/-- C10: during one successful rollout from a well-formed tree (fresh agent,
`random.shuffle` a true permutation), any chance node whose `sampled_returns`
went from empty to non-empty — i.e. the node first descended into in this
rollout — had no environment transition requested with its action (no
transition event for it is logged in this rollout), and the single return it
received is exactly the default-policy evaluation estimate started from its
parent decision node's state: no reward from taking the node's own action at
the parent state is folded into that first value. -/
theorem c10_first_descent_no_own_transition (ag : Agent σ α) (env : Env σ α)
    (done : Bool) (st st' : SState σ α)
    (HS : ∀ n (l : List Nat), (ag.shuffle n l).Perm l)
    (hInv : Inv st)
    (hok : rolloutStep ag env done st = .ok st')
    (cid : Nat)
    (hbefore : (st.cnode cid).sampled_returns = [])
    (hafter : (st'.cnode cid).sampled_returns ≠ []) :
    (∃ L, st'.evLog = st.evLog ++ L ∧ ∀ ev ∈ L, ev ≠ Event.transAt cid) ∧
    ∃ term tk, (st'.cnode cid).sampled_returns
      = [(evalLoop env ag.gamma ag.max_depth (st'.cnode cid).depth
          (ag.max_depth + 2) 0 (st'.dnode ((st'.cnode cid).parent)).state 0
          term tk).1] := by
  obtain ⟨_, _, L, hL, hprop⟩ := rollout_master ag env done HS st st' hInv hok
  obtain ⟨hno, hval⟩ := hprop cid hbefore hafter
  exact ⟨⟨L, hL, hno⟩, hval⟩

/-- The post-rollout state of one rollout on a fresh two-action tree (junk
fallback on error). -/
def c10post : SState Nat Nat :=
  match rolloutStep agC envC false (initState envC [] false) with
  | .ok s => s
  | .error _ => initState envC [] false

/-- Witness for `c10_first_descent_no_own_transition`: one rollout of the
two-action environment from a fresh root; the first shuffled child (chance node
0) goes from no returns to one return. -/
theorem c10_first_descent_no_own_transition_witness :
    (Inv (initState envC ([] : List (History Nat Nat)) false) ∧
     ((initState envC ([] : List (History Nat Nat)) false).cnode 0).sampled_returns
       = [] ∧
     (c10post.cnode 0).sampled_returns ≠ []) ∧
    ((∃ L, c10post.evLog = (initState envC ([] : List (History Nat Nat)) false).evLog
        ++ L ∧ ∀ ev ∈ L, ev ≠ Event.transAt 0) ∧
     ∃ term tk, (c10post.cnode 0).sampled_returns
       = [(evalLoop envC agC.gamma agC.max_depth (c10post.cnode 0).depth
           (agC.max_depth + 2) 0 (c10post.dnode ((c10post.cnode 0).parent)).state 0
           term tk).1]) :=
  ⟨⟨inv_init envC [] false, rfl, by with_unfolding_all decide⟩,
   c10_first_descent_no_own_transition agC envC false
     (initState envC [] false) c10post (fun _ _ => List.Perm.refl _)
     (inv_init envC [] false) (by with_unfolding_all rfl) 0 rfl
     (by with_unfolding_all decide)⟩

end ClaimsFinal

end IQUCT
